import Mathlib

/-!
# Mobility profiles and read weights (`pkg/inventory/mobilityprofile.go`)

A shallow embedding of the mobility-profile registry, of `loadMobilityProfile`
and of `MobilityProfile.ComputeWeight`, together with the properties of the
specification that concern them.

The Go code computes on `float64` and `int64`. Both are modelled exactly:

* `F64` is IEEE-754 binary64 with round-to-nearest, ties-to-even. A finite
  value is a sign, a significand `m` and an exponent `e` standing for
  `± m * 2^e`; the operations compute the exact result on integers and round it
  once, the way the hardware does. NaN payloads are not distinguished. Every
  operator of the source is rounded by itself in `ComputeWeight`, as the Go
  compiler does on `amd64` by default. The linear value
  `Slope * elapsed + YIntercept` has no conversion around the product, so a Go
  compiler may also fuse it into one rounding; `ComputeWeightOn` is the method
  under either evaluation.
* `int64` timestamps are integers, and the subtraction wraps modulo `2^64`.
-/

set_option maxRecDepth 100000
set_option exponentiation.threshold 4096

namespace Inventory

/-! ## IEEE-754 binary64 -/

/-- A binary64 value: NaN, a signed infinity, or the finite value
`(-1)^neg * m * 2^e`. -/
inductive F64 where
  | nan
  | inf (neg : Bool)
  | fin (neg : Bool) (m : Nat) (e : Int)
deriving DecidableEq, Repr

namespace F64

/-- Number of binary digits of `n`, by halving with fuel `f`. -/
def bitLenAux : Nat → Nat → Nat
  | 0, _ => 0
  | f + 1, n => if n = 0 then 0 else bitLenAux f (n / 2) + 1

/-- Number of binary digits of `n` (`0` for `0`). -/
def bitLen (n : Nat) : Nat := bitLenAux n n

/-- Exponent of the unit in the last place used to round `M * 2^E`: 53
significant bits, but never below the subnormal exponent `-1074`. -/
def quantum (M : Nat) (E : Int) : Int := max (E + bitLen M - 53) (-1074)

/-- Nearest integer to `M / 2^s`, ties to even. -/
def rne (M s : Nat) : Nat :=
  let q := M / 2 ^ s
  let r := M % 2 ^ s
  if 2 * r < 2 ^ s ∨ (2 * r = 2 ^ s ∧ q % 2 = 0) then q else q + 1

/-- Significand of `M * 2^E` at exponent `e`, rounded to nearest even. -/
def sig (M : Nat) (E e : Int) : Nat :=
  if e ≤ E then M * 2 ^ (E - e).toNat else rne M (e - E).toNat

/-- Packs a rounded significand `m ≤ 2^53` at exponent `e`: a carry out of the
significand moves to the next exponent, an exponent above `971` overflows. -/
def pack (neg : Bool) (m : Nat) (e : Int) : F64 :=
  if m = 2 ^ 53 then (if e + 1 > 971 then inf neg else fin neg (2 ^ 52) (e + 1))
  else if e > 971 then inf neg else fin neg m e

/-- The binary64 value nearest to `(-1)^neg * M * 2^E`, ties to even; overflow
gives the infinity of that sign and an exact zero keeps the sign. -/
def round (neg : Bool) (M : Nat) (E : Int) : F64 :=
  if M = 0 then fin neg 0 (-1074) else pack neg (sig M E (quantum M E)) (quantum M E)

/-- The integer `(-1)^neg * m * 2^(e - b)`, for a base exponent `b ≤ e`. -/
def sval (neg : Bool) (m : Nat) (e b : Int) : Int :=
  if neg then -((m * 2 ^ (e - b).toNat : Nat) : Int) else ((m * 2 ^ (e - b).toNat : Nat) : Int)

/-- Addition `x + y`. -/
def add : F64 → F64 → F64
  | nan, _ => nan
  | _, nan => nan
  | inf s, inf t => if s = t then inf s else nan
  | inf s, fin _ _ _ => inf s
  | fin _ _ _, inf t => inf t
  | fin s1 m1 e1, fin s2 m2 e2 =>
    let b := min e1 e2
    let c := sval s1 m1 e1 b + sval s2 m2 e2 b
    if c = 0 then fin (s1 && s2) 0 (-1074) else round (decide (c < 0)) c.natAbs b

/-- Multiplication `x * y`. -/
def mul : F64 → F64 → F64
  | nan, _ => nan
  | _, nan => nan
  | inf s, inf t => inf (s != t)
  | inf s, fin t m _ => if m = 0 then nan else inf (s != t)
  | fin s m _, inf t => if m = 0 then nan else inf (s != t)
  | fin s1 m1 e1, fin s2 m2 e2 => round (s1 != s2) (m1 * m2) (e1 + e2)

/-- Negation `-x`. -/
def neg : F64 → F64
  | nan => nan
  | inf s => inf (!s)
  | fin s m e => fin (!s) m e

/-- Subtraction `x - y`. -/
def sub (a b : F64) : F64 := add a (neg b)

/-- Comparison `x < y`; false when either side is NaN. -/
def lt : F64 → F64 → Bool
  | nan, _ => false
  | _, nan => false
  | inf s, inf t => s && !t
  | inf s, fin _ _ _ => s
  | fin _ _ _, inf t => !t
  | fin s1 m1 e1, fin s2 m2 e2 =>
    decide (sval s1 m1 e1 (min e1 e2) < sval s2 m2 e2 (min e1 e2))

/-- Comparison `x > y`. -/
def gt (a b : F64) : Bool := lt b a

/-- Comparison `x == y`; false when either side is NaN, true for `0 == -0`. -/
def eq : F64 → F64 → Bool
  | nan, _ => false
  | _, nan => false
  | inf s, inf t => s == t
  | inf _, fin _ _ _ => false
  | fin _ _ _, inf _ => false
  | fin s1 m1 e1, fin s2 m2 e2 =>
    decide (sval s1 m1 e1 (min e1 e2) = sval s2 m2 e2 (min e1 e2))

/-- Comparison `x <= y`. -/
def le (a b : F64) : Bool := lt a b || eq a b

/-- The conversion `float64(i)` of an integer. -/
def ofInt (i : Int) : F64 := round (decide (i < 0)) i.natAbs 0

/-- The binary64 value of the decimal literal `(-1)^neg * n / d`: the quotient
is cut after more than 55 bits, with one more bit recording a remainder. -/
def ofFrac (neg : Bool) (n d : Nat) : F64 :=
  let k := bitLen d + 55
  round neg (2 * (n * 2 ^ k / d) + (if n * 2 ^ k % d = 0 then 0 else 1)) (-(k : Int) - 1)

/-- Whether the value is NaN. -/
def isNaN : F64 → Bool
  | nan => true
  | _ => false

/-- Whether the value is finite. -/
def isFinite : F64 → Bool
  | fin _ _ _ => true
  | _ => false

/-- A value in the form binary64 stores: significand below `2^53`, exponent
between `-1074` and `971`, and a significand below `2^52` only at `-1074`. -/
def WF : F64 → Prop
  | fin _ m e => m < 2 ^ 53 ∧ -1074 ≤ e ∧ e ≤ 971 ∧ (m < 2 ^ 52 → e = -1074)
  | _ => True

instance (x : F64) : Decidable (WF x) := by
  cases x <;> unfold WF <;> infer_instance

/-- The rational number a finite value stands for (`0` for NaN and infinities). -/
def toRat : F64 → ℚ
  | fin s m e => (if s then -1 else 1) * (m : ℚ) * (2 : ℚ) ^ e
  | _ => 0

/-- Position on the extended number line: a finite value is its rational
number, the infinities sit at `± 2^1024`, beyond every finite value. -/
def key : F64 → ℚ
  | nan => 0
  | inf s => (if s then -1 else 1) * (2 : ℚ) ^ (1024 : ℤ)
  | fin s m e => (if s then -1 else 1) * (m : ℚ) * (2 : ℚ) ^ e

/-! ### Numbers and positions, for the statements about rounding -/

/-- The magnitude `round` gives `M * 2^E` before the overflow test. -/
def rv (M : ℕ) (E : ℤ) : ℚ := (sig M E (quantum M E) : ℚ) * 2 ^ quantum M E

/-- The sign `(-1)^neg`. -/
def sgn (neg : Bool) : ℚ := if neg then -1 else 1

/-- The number `(-1)^neg * M * 2^E`. -/
def dval (neg : Bool) (M : ℕ) (E : ℤ) : ℚ := sgn neg * (M : ℚ) * 2 ^ E

/-- Position of `round neg M E` on the extended number line. -/
def rkey (neg : Bool) (M : ℕ) (E : ℤ) : ℚ := sgn neg * min (rv M E) (2 ^ (1024 : ℤ))

/-- The value `x` is a correct rounding of the number `v`: it is not NaN and
it is what `round` gives for some way of writing `v`. -/
def Rounds (v : ℚ) (x : F64) : Prop :=
  x ≠ nan ∧ ∃ neg M E, v = dval neg M E ∧ key x = rkey neg M E

end F64

/-! ## int64 -/

/-- The value of an integer as an `int64`: reduction modulo `2^64` into
`[-2^63, 2^63)`. -/
def wrapInt64 (x : Int) : Int := (x + 2 ^ 63) % 2 ^ 64 - 2 ^ 63

/-! ## The profiles -/

/-- The parameters of the weighted slope formula. -/
structure MobilityProfile where
  Slope : F64
  Threshold : F64
  HoldoffMillis : F64
  YIntercept : F64
deriving DecidableEq, Repr

/-- The value `0.0` a field left out of a composite literal gets. -/
def F64.zero : F64 := F64.fin false 0 (-1074)

/-- Preset `assetTracking`. -/
def assetTracking : MobilityProfile :=
  { Slope := F64.ofFrac true 8 1000
    Threshold := F64.ofFrac false 6 1
    HoldoffMillis := F64.ofFrac false 500 1
    YIntercept := F64.zero }

/-- Preset `retailGarment`. -/
def retailGarment : MobilityProfile :=
  { Slope := F64.ofFrac true 5 10000
    Threshold := F64.ofFrac false 6 1
    HoldoffMillis := F64.ofFrac false 60000 1
    YIntercept := F64.zero }

/-- Preset `defaultProfile`, a copy of `assetTracking`. -/
def defaultProfile : MobilityProfile := assetTracking

/-- The registry `mobilityProfiles`, keyed by identifier. -/
def mobilityProfiles : List (String × MobilityProfile) :=
  [("default", defaultProfile), ("asset_tracking", assetTracking),
   ("retail_garment", retailGarment)]

/-- The fields of `config.AppConfig` that `loadMobilityProfile` reads. -/
structure AppConfig where
  MobilityProfileBaseProfile : String
  MobilityProfileSlopeOverridden : Bool
  MobilityProfileSlope : F64
  MobilityProfileThresholdOverridden : Bool
  MobilityProfileThreshold : F64
  MobilityProfileHoldoffMillisOverridden : Bool
  MobilityProfileHoldoffMillis : F64

/-- The method `calculateYIntercept`: `b = y - (m*x)`. -/
def MobilityProfile.calculateYIntercept (profile : MobilityProfile) : MobilityProfile :=
  { profile with
    YIntercept := F64.sub profile.Threshold (F64.mul profile.Slope profile.HoldoffMillis) }

/-- The function `loadMobilityProfile`: the profile it returns and the lines it
logs at error level. -/
def loadMobilityProfile (cfg : AppConfig) : MobilityProfile × List String :=
  let id := cfg.MobilityProfileBaseProfile
  let (profile, log) :=
    match mobilityProfiles.lookup id with
    | some profile => (profile, [])
    | none =>
      (defaultProfile,
        ["unable to find mobility profile with id: " ++ id ++ ". using defaults."])
  let profile :=
    if cfg.MobilityProfileSlopeOverridden then
      { profile with Slope := cfg.MobilityProfileSlope } else profile
  let profile :=
    if cfg.MobilityProfileThresholdOverridden then
      { profile with Threshold := cfg.MobilityProfileThreshold } else profile
  let profile :=
    if cfg.MobilityProfileHoldoffMillisOverridden then
      { profile with HoldoffMillis := cfg.MobilityProfileHoldoffMillis } else profile
  (profile.calculateYIntercept, log)

/-- The method `ComputeWeight`. -/
def MobilityProfile.ComputeWeight (profile : MobilityProfile)
    (referenceTimestamp lastRead : Int) (isInDeepScan : Bool) : F64 :=
  if isInDeepScan then profile.Threshold
  else
    let weight :=
      F64.add
        (F64.mul profile.Slope (F64.ofInt (wrapInt64 (referenceTimestamp - lastRead))))
        profile.YIntercept
    if F64.gt weight profile.Threshold then profile.Threshold else weight

/-- The linear value `y = mx + b` that `ComputeWeight` caps: the expression
assigned to `weight`. -/
def MobilityProfile.linearWeight (profile : MobilityProfile)
    (referenceTimestamp lastRead : Int) : F64 :=
  F64.add (F64.mul profile.Slope (F64.ofInt (wrapInt64 (referenceTimestamp - lastRead))))
    profile.YIntercept

/-- The preset `loadMobilityProfile` starts from: the registry entry of the
identifier, or `defaultProfile` when the registry has none. -/
def baseProfile (id : String) : MobilityProfile :=
  (mobilityProfiles.lookup id).getD defaultProfile

/-- A configuration that selects `id` and overrides nothing. -/
def plainConfig (id : String) : AppConfig :=
  { MobilityProfileBaseProfile := id
    MobilityProfileSlopeOverridden := false
    MobilityProfileSlope := F64.zero
    MobilityProfileThresholdOverridden := false
    MobilityProfileThreshold := F64.zero
    MobilityProfileHoldoffMillisOverridden := false
    MobilityProfileHoldoffMillis := F64.zero }

/-- The configuration that selects `asset_tracking` and overrides the slope
with `+Inf`. -/
def infSlopeConfig : AppConfig :=
  { plainConfig "asset_tracking" with
    MobilityProfileSlopeOverridden := true
    MobilityProfileSlope := F64.inf false }

/-- The configuration that selects `asset_tracking` and overrides the slope and
the holdoff with `1e300` each. -/
def overflowConfig : AppConfig :=
  { plainConfig "asset_tracking" with
    MobilityProfileSlopeOverridden := true
    MobilityProfileSlope := F64.ofFrac false (10 ^ 300) 1
    MobilityProfileHoldoffMillisOverridden := true
    MobilityProfileHoldoffMillis := F64.ofFrac false (10 ^ 300) 1 }

/-- The configuration that selects `asset_tracking` and overrides the threshold
with `9.0`. -/
def threshold9Config : AppConfig :=
  { plainConfig "asset_tracking" with
    MobilityProfileThresholdOverridden := true
    MobilityProfileThreshold := F64.ofFrac false 9 1 }

/-- The cap of `ComputeWeight`: `T` when `w > T`, and `w` otherwise. -/
def capAt (T w : F64) : F64 := if F64.gt w T then T else w

/-- The linear value of a profile at a `float64` elapsed time `x`. -/
def MobilityProfile.lineAt (profile : MobilityProfile) (x : F64) : F64 :=
  F64.add (F64.mul profile.Slope x) profile.YIntercept

/-- The linear value at the end of the holdoff,
`Slope * HoldoffMillis + YIntercept`. -/
def MobilityProfile.boundaryWeight (profile : MobilityProfile) : F64 :=
  profile.lineAt profile.HoldoffMillis

/-- All four fields are binary64 values. -/
def MobilityProfile.WF (profile : MobilityProfile) : Prop :=
  profile.Slope.WF ∧ profile.Threshold.WF ∧ profile.HoldoffMillis.WF ∧ profile.YIntercept.WF

instance (p : MobilityProfile) : Decidable p.WF := by
  unfold MobilityProfile.WF; infer_instance

/-- The `int64` range. -/
def InInt64 (x : Int) : Prop := -9223372036854775808 ≤ x ∧ x < 9223372036854775808

instance (x : Int) : Decidable (InInt64 x) := by
  unfold InInt64; infer_instance

/-- The configuration that selects `asset_tracking` and overrides the threshold
with `0.1`. -/
def threshold01Config : AppConfig :=
  { plainConfig "asset_tracking" with
    MobilityProfileThresholdOverridden := true
    MobilityProfileThreshold := F64.ofFrac false 1 10 }

/-- The configuration that selects `asset_tracking` and overrides the slope with
`-2e-19` and the threshold with `1.0`. -/
def tinySlopeConfig : AppConfig :=
  { plainConfig "asset_tracking" with
    MobilityProfileSlopeOverridden := true
    MobilityProfileSlope := F64.ofFrac true 2 10000000000000000000
    MobilityProfileThresholdOverridden := true
    MobilityProfileThreshold := F64.ofFrac false 1 1 }

/-- The configuration that selects `asset_tracking` and overrides the slope with
`-1e-18`. -/
def smallSlopeConfig : AppConfig :=
  { plainConfig "asset_tracking" with
    MobilityProfileSlopeOverridden := true
    MobilityProfileSlope := F64.ofFrac true 1 1000000000000000000 }

/-! ## The package state -/

/-- The package-level variables. The pointer `activeProfile` is `none` when
nil, and otherwise holds the profile it points to. -/
structure Globals where
  assetTracking : MobilityProfile
  retailGarment : MobilityProfile
  defaultProfile : MobilityProfile
  mobilityProfiles : List (String × MobilityProfile)
  activeProfile : Option MobilityProfile

/-- The package-level variables when the process starts. -/
def initialGlobals : Globals :=
  { assetTracking := assetTracking
    retailGarment := retailGarment
    defaultProfile := defaultProfile
    mobilityProfiles := mobilityProfiles
    activeProfile := none }

/-- The function `loadMobilityProfile` as a step on the package state: it
reads the registry and the default profile from the state, works on the local
copy `profile`, and hands the state on. -/
def loadMobilityProfileIn (cfg : AppConfig) (g : Globals) :
    (MobilityProfile × List String) × Globals :=
  let id := cfg.MobilityProfileBaseProfile
  let (profile, log) :=
    match g.mobilityProfiles.lookup id with
    | some profile => (profile, [])
    | none =>
      (g.defaultProfile,
        ["unable to find mobility profile with id: " ++ id ++ ". using defaults."])
  let profile :=
    if cfg.MobilityProfileSlopeOverridden then
      { profile with Slope := cfg.MobilityProfileSlope } else profile
  let profile :=
    if cfg.MobilityProfileThresholdOverridden then
      { profile with Threshold := cfg.MobilityProfileThreshold } else profile
  let profile :=
    if cfg.MobilityProfileHoldoffMillisOverridden then
      { profile with HoldoffMillis := cfg.MobilityProfileHoldoffMillis } else profile
  ((profile.calculateYIntercept, log), g)

/-- The function `GetMobilityProfile` as a step on the package state: the
profile `activeProfile` points to on return, the lines logged, and the state
after the call. -/
def GetMobilityProfile (cfg : AppConfig) (g : Globals) :
    (MobilityProfile × List String) × Globals :=
  match g.activeProfile with
  | some profile => ((profile, []), g)
  | none =>
    let r := loadMobilityProfileIn cfg g
    (r.1, { r.2 with activeProfile := some r.1.1 })

/-- The process: the configuration `config.AppConfig` and the package state. -/
structure Process where
  config : AppConfig
  globals : Globals

/-- What happens to the process: the configuration is replaced, or
`GetMobilityProfile` is called. -/
inductive Event where
  | setConfig (cfg : AppConfig)
  | getMobilityProfile

/-- One event: the process after it and the profiles returned by it. -/
def Process.step (s : Process) : Event → Process × List MobilityProfile
  | Event.setConfig cfg => ({ s with config := cfg }, [])
  | Event.getMobilityProfile =>
    ({ s with globals := (GetMobilityProfile s.config s.globals).2 },
      [(GetMobilityProfile s.config s.globals).1.1])

/-- A sequence of events: the process after it and the profiles the calls
returned, in order. -/
def Process.run : Process → List Event → Process × List MobilityProfile
  | s, [] => (s, [])
  | s, e :: es => (((s.step e).1.run es).1, (s.step e).2 ++ ((s.step e).1.run es).2)

/-! ## Further configurations and the reference definition -/

/-- The configuration that selects `asset_tracking` and overrides the slope with
`0.008`. -/
def positiveSlopeConfig : AppConfig :=
  { plainConfig "asset_tracking" with
    MobilityProfileSlopeOverridden := true
    MobilityProfileSlope := F64.ofFrac false 8 1000 }

/-- The configuration that selects `asset_tracking` and overrides the slope with
`0.008` and the threshold with `0.3`. -/
def positiveSlopeThresholdConfig : AppConfig :=
  { plainConfig "asset_tracking" with
    MobilityProfileSlopeOverridden := true
    MobilityProfileSlope := F64.ofFrac false 8 1000
    MobilityProfileThresholdOverridden := true
    MobilityProfileThreshold := F64.ofFrac false 3 10 }

/-- The configuration that selects `asset_tracking` and overrides the slope with
`1e-18`. -/
def tinyPositiveSlopeConfig : AppConfig :=
  { plainConfig "asset_tracking" with
    MobilityProfileSlopeOverridden := true
    MobilityProfileSlope := F64.ofFrac false 1 1000000000000000000 }

/-- Reference definition, from the words of the specification: the weight with
an explicit holdoff branch, `Threshold` while the elapsed time is at most
`HoldoffMillis` and `Threshold + Slope * (elapsed - HoldoffMillis)` after it,
computed in `float64` on the converted elapsed time. -/
def MobilityProfile.ComputeWeightRef (profile : MobilityProfile)
    (referenceTimestamp lastRead : Int) : F64 :=
  let elapsed := F64.ofInt (wrapInt64 (referenceTimestamp - lastRead))
  if F64.le elapsed profile.HoldoffMillis then profile.Threshold
  else
    F64.add profile.Threshold
      (F64.mul profile.Slope (F64.sub elapsed profile.HoldoffMillis))

/-! ## One rounding or two -/

/-- A fused multiply-add: `x * y + z` computed exactly and rounded once. -/
def F64.fma : F64 → F64 → F64 → F64
  | F64.nan, _, _ => F64.nan
  | _, F64.nan, _ => F64.nan
  | _, _, F64.nan => F64.nan
  | F64.inf s, F64.inf t, z => F64.add (F64.inf (s != t)) z
  | F64.inf s, F64.fin t m _, z => if m = 0 then F64.nan else F64.add (F64.inf (s != t)) z
  | F64.fin s m _, F64.inf t, z => if m = 0 then F64.nan else F64.add (F64.inf (s != t)) z
  | F64.fin _ _ _, F64.fin _ _ _, F64.inf u => F64.inf u
  | F64.fin s1 m1 e1, F64.fin s2 m2 e2, F64.fin s3 m3 e3 =>
    let b := min (e1 + e2) e3
    let c := F64.sval (s1 != s2) (m1 * m2) (e1 + e2) b + F64.sval s3 m3 e3 b
    if c = 0 then F64.fin ((s1 != s2) && s3) 0 (-1074)
    else F64.round (decide (c < 0)) c.natAbs b

/-- The expression `x * y + z` as a Go compiler may evaluate it. No explicit
conversion stands around the product, so the language allows the product and
the sum to be fused: `fused = false` rounds the product and then the sum (the
default `amd64` build), `fused = true` rounds once (`arm64`, `GOAMD64=v3`). -/
def F64.mulAdd (fused : Bool) (x y z : F64) : F64 :=
  if fused then F64.fma x y z else F64.add (F64.mul x y) z

/-- The method `ComputeWeight` under either evaluation of the expression
assigned to `weight`; `ComputeWeightOn false` is `ComputeWeight`. -/
def MobilityProfile.ComputeWeightOn (fused : Bool) (profile : MobilityProfile)
    (referenceTimestamp lastRead : Int) (isInDeepScan : Bool) : F64 :=
  if isInDeepScan then profile.Threshold
  else
    let weight :=
      F64.mulAdd fused profile.Slope (F64.ofInt (wrapInt64 (referenceTimestamp - lastRead)))
        profile.YIntercept
    if F64.gt weight profile.Threshold then profile.Threshold else weight

/-- The linear value of a profile at a `float64` elapsed time `x`, under either
evaluation; `lineAtOn false` is `lineAt`. -/
def MobilityProfile.lineAtOn (fused : Bool) (profile : MobilityProfile) (x : F64) : F64 :=
  F64.mulAdd fused profile.Slope x profile.YIntercept

/-- The linear value at the end of the holdoff, under either evaluation. -/
def MobilityProfile.boundaryWeightOn (fused : Bool) (profile : MobilityProfile) : F64 :=
  profile.lineAtOn fused profile.HoldoffMillis

/-- The exact linear value `Slope * x + YIntercept`, a rational number. -/
def MobilityProfile.exactLine (profile : MobilityProfile) (x : F64) : ℚ :=
  F64.toRat profile.Slope * F64.toRat x + F64.toRat profile.YIntercept

/-- A bound on the rounding error of the linear value at `x`, good for either
evaluation: `2^-51 * (|Slope * x| + |YIntercept|) + 2^-1074`. -/
def MobilityProfile.lineError (profile : MobilityProfile) (x : F64) : ℚ :=
  2 ^ (-51 : ℤ) * (|F64.toRat profile.Slope * F64.toRat x| + |F64.toRat profile.YIntercept|)
    + 2 ^ (-1074 : ℤ)

/-! ## Comparisons -/

/-- On values that are not NaN, `a > b` fails exactly when `a <= b`. -/
theorem F64.le_of_gt_eq_false {a b : F64} (ha : a ≠ F64.nan) (hb : b ≠ F64.nan)
    (h : F64.gt a b = false) : F64.le a b = true := by
  cases a with
  | nan => exact absurd rfl ha
  | inf s =>
    cases b with
    | nan => exact absurd rfl hb
    | inf t => cases s <;> cases t <;> simp_all [F64.gt, F64.lt, F64.le, F64.eq]
    | fin t m e => cases s <;> simp_all [F64.gt, F64.lt, F64.le, F64.eq]
  | fin s m e =>
    cases b with
    | nan => exact absurd rfl hb
    | inf t => cases t <;> simp_all [F64.gt, F64.lt, F64.le, F64.eq]
    | fin t n f =>
      simp only [F64.gt, F64.lt, decide_eq_false_iff_not, not_lt] at h
      simp only [F64.le, F64.lt, F64.eq, Bool.or_eq_true, decide_eq_true_eq]
      rw [min_comm f e] at h
      exact lt_or_eq_of_le h

/-- A value that is not NaN is `<=` itself. -/
theorem F64.le_self {a : F64} (ha : a ≠ F64.nan) : F64.le a a = true := by
  cases a with
  | nan => exact absurd rfl ha
  | inf s => simp [F64.le, F64.eq]
  | fin s m e => simp [F64.le, F64.eq]

/-- Nothing is `>` itself. -/
theorem F64.gt_self (a : F64) : F64.gt a a = false := by
  cases a with
  | nan => rfl
  | inf s => cases s <;> rfl
  | fin s m e => simp [F64.gt, F64.lt]

/-- On any two values, `a > b` excludes `a <= b`. -/
theorem F64.le_eq_false_of_gt {a b : F64} (h : F64.gt a b = true) : F64.le a b = false := by
  cases a with
  | nan => cases b <;> simp_all [F64.gt, F64.lt]
  | inf s =>
    cases b with
    | nan => simp_all [F64.gt, F64.lt]
    | inf t => cases s <;> cases t <;> simp_all [F64.gt, F64.lt, F64.le, F64.eq]
    | fin t m e => cases s <;> simp_all [F64.gt, F64.lt, F64.le, F64.eq]
  | fin s m e =>
    cases b with
    | nan => simp_all [F64.gt, F64.lt]
    | inf t => cases t <;> simp_all [F64.gt, F64.lt, F64.le, F64.eq]
    | fin t n f =>
      simp only [F64.gt, F64.lt, decide_eq_true_eq] at h
      rw [min_comm f e] at h
      simp only [F64.le, F64.lt, F64.eq, Bool.or_eq_false_iff, decide_eq_false_iff_not]
      exact ⟨not_lt.mpr h.le, fun he => absurd h (he ▸ lt_irrefl _)⟩

/-- In deep scan `ComputeWeight` returns the threshold. -/
theorem ComputeWeight_deep (p : MobilityProfile) (r l : Int) :
    p.ComputeWeight r l true = p.Threshold := by
  simp [MobilityProfile.ComputeWeight]

/-- The value `ComputeWeight` returns with deep scan off, in terms of the
linear value. -/
theorem ComputeWeight_eq_cap (p : MobilityProfile) (r l : Int) :
    p.ComputeWeight r l false =
      if F64.gt (p.linearWeight r l) p.Threshold then p.Threshold else p.linearWeight r l := by
  simp [MobilityProfile.ComputeWeight, MobilityProfile.linearWeight]

/-- The profile `loadMobilityProfile` returns, field by field: each of the
three parameters is the override when its flag is set and the preset's value
otherwise, and the intercept is derived from these. -/
theorem loadMobilityProfile_fields (cfg : AppConfig) :
    (loadMobilityProfile cfg).1 =
      MobilityProfile.calculateYIntercept
        { Slope := if cfg.MobilityProfileSlopeOverridden then cfg.MobilityProfileSlope
            else (baseProfile cfg.MobilityProfileBaseProfile).Slope
          Threshold := if cfg.MobilityProfileThresholdOverridden then cfg.MobilityProfileThreshold
            else (baseProfile cfg.MobilityProfileBaseProfile).Threshold
          HoldoffMillis :=
            if cfg.MobilityProfileHoldoffMillisOverridden then cfg.MobilityProfileHoldoffMillis
            else (baseProfile cfg.MobilityProfileBaseProfile).HoldoffMillis
          YIntercept := (baseProfile cfg.MobilityProfileBaseProfile).YIntercept } := by
  unfold loadMobilityProfile baseProfile
  dsimp only
  cases List.lookup cfg.MobilityProfileBaseProfile mobilityProfiles <;>
    cases cfg.MobilityProfileSlopeOverridden <;>
    cases cfg.MobilityProfileThresholdOverridden <;>
    cases cfg.MobilityProfileHoldoffMillisOverridden <;> rfl

/-- An identifier outside the registry has no entry. -/
theorem lookup_eq_none_of_not_key {id : String}
    (h : id ∉ mobilityProfiles.map Prod.fst) : mobilityProfiles.lookup id = none := by
  simp only [mobilityProfiles, List.map_cons, List.map_nil, List.mem_cons, List.mem_singleton,
    List.not_mem_nil, or_false, not_or] at h
  obtain ⟨h1, h2, h3⟩ := h
  have e1 : (id == "default") = false := by simpa using h1
  have e2 : (id == "asset_tracking") = false := by simpa using h2
  have e3 : (id == "retail_garment") = false := by simpa using h3
  simp only [mobilityProfiles, List.lookup, e1, e2, e3]

namespace F64

/-! ## Bit length -/

theorem bitLenAux_lt (f : Nat) : ∀ n, n ≤ f → n < 2 ^ bitLenAux f n := by
  induction f with
  | zero => intro n h; simp [Nat.le_zero.mp h, bitLenAux]
  | succ f ih =>
    intro n h
    unfold bitLenAux
    split
    · subst_vars; simp
    · have h2 : n / 2 ≤ f := by omega
      have := ih (n / 2) h2
      rw [pow_succ]
      omega

theorem bitLenAux_zero (f : Nat) : bitLenAux f 0 = 0 := by
  cases f <;> simp [bitLenAux]

theorem bitLenAux_le (f : Nat) : ∀ n, n ≠ 0 → n ≤ f → 2 ^ bitLenAux f n ≤ 2 * n := by
  induction f with
  | zero => intro n h0 h; omega
  | succ f ih =>
    intro n h0 h
    unfold bitLenAux
    rw [if_neg h0, pow_succ]
    by_cases h1 : n / 2 = 0
    · rw [h1, bitLenAux_zero]; omega
    · have h2 : n / 2 ≤ f := by omega
      have := ih (n / 2) h1 h2
      omega

theorem bitLen_eq_size (n : Nat) : bitLen n = Nat.size n := by
  have h1 := bitLenAux_lt n n (Nat.le_refl n)
  unfold bitLen
  apply le_antisymm
  · by_cases h0 : n = 0
    · subst h0; simp [bitLenAux_zero]
    · have h2 := bitLenAux_le n n h0 (Nat.le_refl n)
      by_cases hb : bitLenAux n n = 0
      · omega
      · have : bitLenAux n n - 1 < Nat.size n := by
          rw [Nat.lt_size]
          have h3 : 2 ^ bitLenAux n n = 2 * 2 ^ (bitLenAux n n - 1) := by
            rw [← pow_succ']
            congr 1
            omega
          omega
        omega
  · exact Nat.size_le.mpr h1

theorem lt_pow_bitLen (n : Nat) : n < 2 ^ bitLen n := by
  rw [bitLen_eq_size]; exact Nat.lt_size_self n

theorem pow_bitLen_le {n : Nat} (h : n ≠ 0) : 2 ^ (bitLen n - 1) ≤ n := by
  rw [bitLen_eq_size]
  have : Nat.size n - 1 < Nat.size n := by
    have := Nat.size_pos.mpr (Nat.pos_of_ne_zero h)
    omega
  exact Nat.lt_size.mp this

theorem bitLen_pos {n : Nat} (h : n ≠ 0) : 0 < bitLen n := by
  rw [bitLen_eq_size]; exact Nat.size_pos.mpr (Nat.pos_of_ne_zero h)

theorem bitLen_mono {m n : Nat} (h : m ≤ n) : bitLen m ≤ bitLen n := by
  rw [bitLen_eq_size, bitLen_eq_size]; exact Nat.size_le_size h

theorem bitLen_mul_pow {n : Nat} (h : n ≠ 0) (k : Nat) : bitLen (n * 2 ^ k) = bitLen n + k := by
  rw [bitLen_eq_size, bitLen_eq_size, ← Nat.shiftLeft_eq, Nat.size_shiftLeft h]

theorem bitLen_le_of_lt_pow {n k : Nat} (h : n < 2 ^ k) : bitLen n ≤ k := by
  rw [bitLen_eq_size]; exact Nat.size_le.mpr h

/-! ## Rounding a quotient to nearest even -/

theorem rne_ge (M s : Nat) : M / 2 ^ s ≤ rne M s := by
  unfold rne; dsimp only; split <;> omega

theorem rne_le (M s : Nat) : rne M s ≤ M / 2 ^ s + 1 := by
  unfold rne; dsimp only; split <;> omega

theorem rne_exact (m s : Nat) : rne (m * 2 ^ s) s = m := by
  have hp : 0 < 2 ^ s := Nat.two_pow_pos _
  unfold rne
  simp [Nat.mul_div_cancel _ hp, hp]

theorem rne_scale (M s k : Nat) : rne (M * 2 ^ k) (s + k) = rne M s := by
  have hk : 0 < 2 ^ k := Nat.two_pow_pos _
  unfold rne
  dsimp only
  rw [pow_add, Nat.mul_div_mul_right _ _ hk, Nat.mul_mod_mul_right]
  have e1 : (2 * (M % 2 ^ s * 2 ^ k) < 2 ^ s * 2 ^ k) ↔ (2 * (M % 2 ^ s) < 2 ^ s) := by
    rw [← mul_assoc]; exact Nat.mul_lt_mul_right hk
  have e2 : (2 * (M % 2 ^ s * 2 ^ k) = 2 ^ s * 2 ^ k) ↔ (2 * (M % 2 ^ s) = 2 ^ s) := by
    rw [← mul_assoc]; exact Nat.mul_left_inj (Nat.pos_iff_ne_zero.mp hk)
  simp only [e1, e2]

theorem rne_mono {M₁ M₂ : Nat} (h : M₁ ≤ M₂) (s : Nat) : rne M₁ s ≤ rne M₂ s := by
  have hp : 0 < 2 ^ s := Nat.two_pow_pos _
  have hq : M₁ / 2 ^ s ≤ M₂ / 2 ^ s := Nat.div_le_div_right h
  rcases Nat.lt_or_ge (M₁ / 2 ^ s) (M₂ / 2 ^ s) with hlt | hge
  · calc rne M₁ s ≤ M₁ / 2 ^ s + 1 := rne_le _ _
      _ ≤ M₂ / 2 ^ s := hlt
      _ ≤ rne M₂ s := rne_ge _ _
  · have heq : M₁ / 2 ^ s = M₂ / 2 ^ s := le_antisymm hq hge
    have d1 := Nat.div_add_mod M₁ (2 ^ s)
    have d2 := Nat.div_add_mod M₂ (2 ^ s)
    rw [heq] at d1
    have hr : M₁ % 2 ^ s ≤ M₂ % 2 ^ s := by omega
    unfold rne
    dsimp only
    rw [heq]
    split <;> split <;> omega

theorem rne_le_pow {M a s : Nat} (h : M ≤ 2 ^ (a + s)) : rne M s ≤ 2 ^ a := by
  have := rne_mono h s
  rwa [pow_add, rne_exact] at this

theorem pow_le_rne {M a s : Nat} (h : 2 ^ (a + s) ≤ M) : 2 ^ a ≤ rne M s := by
  have := rne_mono h s
  rwa [pow_add, rne_exact] at this


/-- The rounded quotient is a nearest integer: it is off by at most a half. -/
theorem rne_error (M s : Nat) :
    2 * (rne M s * 2 ^ s) ≤ 2 * M + 2 ^ s ∧ 2 * M ≤ 2 * (rne M s * 2 ^ s) + 2 ^ s := by
  have hp : 0 < 2 ^ s := Nat.two_pow_pos _
  have hd := Nat.div_add_mod M (2 ^ s)
  have hr := Nat.mod_lt M hp
  rw [Nat.mul_comm] at hd
  unfold rne
  dsimp only
  split
  · rename_i h
    rcases h with h | ⟨h, _⟩ <;> omega
  · rename_i h
    rw [Nat.add_mul, Nat.one_mul]
    have : 2 ^ s ≤ 2 * (M % 2 ^ s) := by
      by_contra hc
      exact h (Or.inl (by omega))
    omega

/-- In a tie the rounded quotient is even. -/
theorem rne_tie_even (M s : Nat) (h : 2 * (M % 2 ^ s) = 2 ^ s) : rne M s % 2 = 0 := by
  unfold rne
  dsimp only
  by_cases he : M / 2 ^ s % 2 = 0
  · rw [if_pos (Or.inr ⟨h, he⟩)]; exact he
  · rw [if_neg (by rintro (h1 | ⟨_, h2⟩) <;> omega)]
    omega

/-! ## Powers of two -/

theorem tp_pos (e : ℤ) : (0 : ℚ) < 2 ^ e := zpow_pos (by norm_num) e

theorem tp_add (a b : ℤ) : (2 : ℚ) ^ (a + b) = 2 ^ a * 2 ^ b := zpow_add₀ (by norm_num) a b

theorem tp_mono {a b : ℤ} (h : a ≤ b) : (2 : ℚ) ^ a ≤ 2 ^ b :=
  zpow_le_zpow_right₀ (by norm_num) h

theorem tp_nat (n : ℕ) : ((2 ^ n : ℕ) : ℚ) = (2 : ℚ) ^ (n : ℤ) := by
  rw [zpow_natCast]; push_cast; rfl

theorem tp_toNat {d : ℤ} (h : 0 ≤ d) : ((2 ^ d.toNat : ℕ) : ℚ) = (2 : ℚ) ^ d := by
  rw [tp_nat, Int.toNat_of_nonneg h]

/-- Scaling a significand: `m * 2^(e - b)` at exponent `b` is `m` at `e`. -/
theorem tp_shift (m : ℕ) {e b : ℤ} (h : b ≤ e) :
    ((m * 2 ^ (e - b).toNat : ℕ) : ℚ) * 2 ^ b = (m : ℚ) * 2 ^ e := by
  rw [Nat.cast_mul, tp_toNat (by omega), mul_assoc, ← tp_add]
  congr 2
  omega

/-! ## The rounded significand -/

theorem quantum_ge (M : ℕ) (E : ℤ) : -1074 ≤ quantum M E := le_max_right _ _

theorem quantum_ge' (M : ℕ) (E : ℤ) : E + bitLen M - 53 ≤ quantum M E := le_max_left _ _

theorem quantum_cases (M : ℕ) (E : ℤ) :
    (quantum M E = E + bitLen M - 53 ∧ -1074 ≤ E + bitLen M - 53) ∨
      (quantum M E = -1074 ∧ E + bitLen M - 53 < -1074) := by
  unfold quantum
  rcases le_total (E + (bitLen M : ℤ) - 53) (-1074) with h | h
  · rcases eq_or_lt_of_le h with h' | h'
    · left; rw [h']; simp
    · right; exact ⟨max_eq_right h, h'⟩
  · left; exact ⟨max_eq_left h, h⟩

theorem sig_zero (E e : ℤ) : sig 0 E e = 0 := by
  unfold sig rne; simp

theorem sig_mono {M₁ M₂ : ℕ} (h : M₁ ≤ M₂) (E e : ℤ) : sig M₁ E e ≤ sig M₂ E e := by
  unfold sig
  split
  · exact Nat.mul_le_mul_right _ h
  · exact rne_mono h _

/-- The significand fits: at most `2^53` (a carry included). -/
theorem sig_le (M : ℕ) (E : ℤ) : sig M E (quantum M E) ≤ 2 ^ 53 := by
  have hq := quantum_ge' M E
  have hM := lt_pow_bitLen M
  unfold sig
  split
  · rename_i h
    have e1 : bitLen M + (E - quantum M E).toNat ≤ 53 := by omega
    calc M * 2 ^ (E - quantum M E).toNat
        ≤ 2 ^ bitLen M * 2 ^ (E - quantum M E).toNat := Nat.mul_le_mul_right _ hM.le
      _ = 2 ^ (bitLen M + (E - quantum M E).toNat) := (pow_add _ _ _).symm
      _ ≤ 2 ^ 53 := Nat.pow_le_pow_right (by norm_num) e1
  · rename_i h
    apply rne_le_pow
    calc M ≤ 2 ^ bitLen M := hM.le
      _ ≤ 2 ^ (53 + (quantum M E - E).toNat) := Nat.pow_le_pow_right (by norm_num) (by omega)

/-- Above the subnormal exponent the significand is normal: at least `2^52`. -/
theorem sig_ge {M : ℕ} (hM : M ≠ 0) {E : ℤ} (hq : quantum M E ≠ -1074) :
    2 ^ 52 ≤ sig M E (quantum M E) := by
  rcases quantum_cases M E with ⟨h1, h2⟩ | ⟨h1, _⟩
  · have hL := pow_bitLen_le hM
    have hp := bitLen_pos hM
    unfold sig
    split
    · rename_i h
      calc 2 ^ 52 ≤ 2 ^ (bitLen M - 1 + (E - quantum M E).toNat) :=
            Nat.pow_le_pow_right (by norm_num) (by omega)
        _ = 2 ^ (bitLen M - 1) * 2 ^ (E - quantum M E).toNat := pow_add _ _ _
        _ ≤ M * 2 ^ (E - quantum M E).toNat := Nat.mul_le_mul_right _ hL
    · rename_i h
      apply pow_le_rne
      calc 2 ^ (52 + (quantum M E - E).toNat) ≤ 2 ^ (bitLen M - 1) :=
            Nat.pow_le_pow_right (by norm_num) (by omega)
        _ ≤ M := hL
  · exact absurd h1 hq


theorem rv_zero (E : ℤ) : rv 0 E = 0 := by
  unfold rv; rw [sig_zero]; simp

theorem rv_nonneg (M : ℕ) (E : ℤ) : 0 ≤ rv M E :=
  mul_nonneg (Nat.cast_nonneg _) (tp_pos _).le

/-- Where no bit is dropped the magnitude is kept. -/
theorem rv_exact {M : ℕ} {E : ℤ} (h : quantum M E ≤ E) : rv M E = (M : ℚ) * 2 ^ E := by
  unfold rv sig
  rw [if_pos h]
  exact tp_shift M h

theorem rv_le_of {M : ℕ} {E t : ℤ} {a : ℕ} (h1 : sig M E (quantum M E) ≤ 2 ^ a)
    (h2 : (a : ℤ) + quantum M E ≤ t) : rv M E ≤ 2 ^ t := by
  unfold rv
  calc (sig M E (quantum M E) : ℚ) * 2 ^ quantum M E
      ≤ ((2 ^ a : ℕ) : ℚ) * 2 ^ quantum M E :=
        mul_le_mul_of_nonneg_right (by exact_mod_cast h1) (tp_pos _).le
    _ = 2 ^ ((a : ℤ) + quantum M E) := by rw [tp_nat, ← tp_add]
    _ ≤ 2 ^ t := tp_mono h2

theorem rv_ge_of {M : ℕ} {E t : ℤ} {a : ℕ} (h1 : 2 ^ a ≤ sig M E (quantum M E))
    (h2 : t ≤ (a : ℤ) + quantum M E) : (2 : ℚ) ^ t ≤ rv M E := by
  unfold rv
  calc (2 : ℚ) ^ t ≤ 2 ^ ((a : ℤ) + quantum M E) := tp_mono h2
    _ = ((2 ^ a : ℕ) : ℚ) * 2 ^ quantum M E := by rw [tp_nat, ← tp_add]
    _ ≤ (sig M E (quantum M E) : ℚ) * 2 ^ quantum M E :=
        mul_le_mul_of_nonneg_right (by exact_mod_cast h1) (tp_pos _).le

/-- The rounded magnitude stays within the binade of the operand, or within
the smallest subnormal step. -/
theorem rv_upper (M : ℕ) (E : ℤ) : rv M E ≤ 2 ^ max (E + bitLen M) (-1074) := by
  have hM := lt_pow_bitLen M
  by_cases h : quantum M E ≤ E
  · rw [rv_exact h]
    calc (M : ℚ) * 2 ^ E ≤ ((2 ^ bitLen M : ℕ) : ℚ) * 2 ^ E :=
          mul_le_mul_of_nonneg_right (by exact_mod_cast hM.le) (tp_pos _).le
      _ = 2 ^ ((bitLen M : ℤ) + E) := by rw [tp_nat, ← tp_add]
      _ ≤ 2 ^ max (E + bitLen M) (-1074) := tp_mono (by rw [add_comm]; exact le_max_left _ _)
  · have hs : sig M E (quantum M E) = rne M (quantum M E - E).toNat := by
      unfold sig; rw [if_neg h]
    by_cases h2 : (quantum M E - E).toNat ≤ bitLen M
    · apply rv_le_of (a := bitLen M - (quantum M E - E).toNat)
      · rw [hs]
        apply rne_le_pow
        rw [Nat.sub_add_cancel h2]
        exact hM.le
      · have : E + (bitLen M : ℤ) ≤ max (E + bitLen M) (-1074) := le_max_left _ _
        omega
    · apply rv_le_of (a := 0)
      · rw [hs]
        apply rne_le_pow
        calc M ≤ 2 ^ bitLen M := hM.le
          _ ≤ 2 ^ (0 + (quantum M E - E).toNat) := Nat.pow_le_pow_right (by norm_num) (by omega)
      · have : (-1074 : ℤ) ≤ max (E + bitLen M) (-1074) := le_max_right _ _
        rcases quantum_cases M E with ⟨h3, _⟩ | ⟨h3, _⟩ <;> omega

/-- In the normal range the rounded magnitude keeps the leading bit. -/
theorem rv_lower {M : ℕ} (hM : M ≠ 0) {E : ℤ} (h : -1074 ≤ E + bitLen M - 53) :
    (2 : ℚ) ^ (E + bitLen M - 1) ≤ rv M E := by
  have hL := pow_bitLen_le hM
  have hp := bitLen_pos hM
  have hq : quantum M E = E + bitLen M - 53 := by
    rcases quantum_cases M E with ⟨h3, _⟩ | ⟨_, h3⟩
    · exact h3
    · omega
  by_cases h1 : quantum M E ≤ E
  · rw [rv_exact h1]
    calc (2 : ℚ) ^ (E + bitLen M - 1) = ((2 ^ (bitLen M - 1) : ℕ) : ℚ) * 2 ^ E := by
          rw [tp_nat, ← tp_add]; congr 1; omega
      _ ≤ (M : ℚ) * 2 ^ E := mul_le_mul_of_nonneg_right (by exact_mod_cast hL) (tp_pos _).le
  · apply rv_ge_of (a := 52)
    · unfold sig
      rw [if_neg h1]
      apply pow_le_rne
      calc 2 ^ (52 + (quantum M E - E).toNat) ≤ 2 ^ (bitLen M - 1) :=
            Nat.pow_le_pow_right (by norm_num) (by omega)
        _ ≤ M := hL
    · omega

theorem quantum_mono {M₁ M₂ : ℕ} (h : M₁ ≤ M₂) (E : ℤ) : quantum M₁ E ≤ quantum M₂ E := by
  have := bitLen_mono h
  unfold quantum
  exact max_le_max (by omega) le_rfl

/-- Rounding is monotone, for operands at one exponent. -/
theorem rv_mono_same {M₁ M₂ : ℕ} (h : M₁ ≤ M₂) (E : ℤ) : rv M₁ E ≤ rv M₂ E := by
  by_cases h0 : M₁ = 0
  · rw [h0, rv_zero]; exact rv_nonneg _ _
  have h0' : M₂ ≠ 0 := by omega
  have hb := bitLen_mono h
  rcases eq_or_lt_of_le (quantum_mono h E) with hq | hq
  · unfold rv
    rw [hq]
    exact mul_le_mul_of_nonneg_right (by exact_mod_cast sig_mono h E _) (tp_pos _).le
  · have h2 : -1074 ≤ E + (bitLen M₂ : ℤ) - 53 ∧ quantum M₂ E = E + bitLen M₂ - 53 := by
      have := quantum_ge M₁ E
      rcases quantum_cases M₂ E with ⟨h3, h4⟩ | ⟨h3, _⟩
      · exact ⟨h4, h3⟩
      · omega
    have h3 : bitLen M₁ < bitLen M₂ := by
      rcases Nat.lt_or_ge (bitLen M₁) (bitLen M₂) with h4 | h4
      · exact h4
      · have : bitLen M₁ = bitLen M₂ := le_antisymm hb h4
        unfold quantum at hq
        rw [this] at hq
        exact absurd hq (lt_irrefl _)
    calc rv M₁ E ≤ 2 ^ max (E + bitLen M₁) (-1074) := rv_upper _ _
      _ ≤ 2 ^ (E + bitLen M₂ - 1) := tp_mono (max_le (by omega) (by omega))
      _ ≤ rv M₂ E := rv_lower h0' h2.1

/-- Rounding sees the number, not the way it is written: trailing zero bits
may move between significand and exponent. -/
theorem rv_scale (M : ℕ) (E : ℤ) (k : ℕ) : rv (M * 2 ^ k) (E - k) = rv M E := by
  by_cases h0 : M = 0
  · rw [h0, Nat.zero_mul, rv_zero, rv_zero]
  have hq : quantum (M * 2 ^ k) (E - k) = quantum M E := by
    unfold quantum
    rw [bitLen_mul_pow h0]
    congr 1
    push_cast
    ring
  unfold rv
  rw [hq]
  congr 2
  unfold sig
  by_cases h1 : quantum M E ≤ E - k
  · have h2 : quantum M E ≤ E := by omega
    rw [if_pos h1, if_pos h2, mul_assoc, ← pow_add]
    congr 2
    omega
  · rw [if_neg h1]
    by_cases h2 : quantum M E ≤ E
    · rw [if_pos h2]
      have e1 : k = (E - quantum M E).toNat + (quantum M E - (E - k)).toNat := by omega
      have e2 : M * 2 ^ k
          = (M * 2 ^ (E - quantum M E).toNat) * 2 ^ (quantum M E - (E - k)).toNat := by
        rw [mul_assoc, ← pow_add, ← e1]
      rw [e2, rne_exact]
    · rw [if_neg h2]
      have e1 : (quantum M E - (E - k)).toNat = (quantum M E - E).toNat + k := by omega
      rw [e1, rne_scale]

/-- Rounding is monotone in the number rounded. -/
theorem rv_mono {M₁ M₂ : ℕ} {E₁ E₂ : ℤ} (h : (M₁ : ℚ) * 2 ^ E₁ ≤ (M₂ : ℚ) * 2 ^ E₂) :
    rv M₁ E₁ ≤ rv M₂ E₂ := by
  have e1 : rv M₁ E₁ = rv (M₁ * 2 ^ (E₁ - min E₁ E₂).toNat) (min E₁ E₂) := by
    have := rv_scale M₁ E₁ (E₁ - min E₁ E₂).toNat
    rw [← this]
    congr 1
    have := min_le_left E₁ E₂
    omega
  have e2 : rv M₂ E₂ = rv (M₂ * 2 ^ (E₂ - min E₁ E₂).toNat) (min E₁ E₂) := by
    have := rv_scale M₂ E₂ (E₂ - min E₁ E₂).toNat
    rw [← this]
    congr 1
    have := min_le_right E₁ E₂
    omega
  rw [e1, e2]
  apply rv_mono_same
  have h1 := tp_shift M₁ (min_le_left E₁ E₂)
  have h2 := tp_shift M₂ (min_le_right E₁ E₂)
  rw [← h1, ← h2] at h
  have := le_of_mul_le_mul_right h (tp_pos _)
  exact_mod_cast this


/-- Rounding is to nearest: the rounded magnitude is within half a unit in
the last place of the number rounded. -/
theorem rv_error (M : ℕ) (E : ℤ) :
    |rv M E - (M : ℚ) * 2 ^ E| ≤ 2 ^ quantum M E / 2 := by
  by_cases h : quantum M E ≤ E
  · rw [rv_exact h, sub_self, abs_zero]
    exact div_nonneg (tp_pos _).le (by norm_num)
  · have hs : sig M E (quantum M E) = rne M (quantum M E - E).toNat := by
      unfold sig; rw [if_neg h]
    obtain ⟨h1, h2⟩ := rne_error M (quantum M E - E).toNat
    have hq : (2 : ℚ) ^ quantum M E = ((2 ^ (quantum M E - E).toNat : ℕ) : ℚ) * 2 ^ E := by
      rw [tp_toNat (by omega), ← tp_add]; congr 1; omega
    have h1' : (2 : ℚ) * ((rne M (quantum M E - E).toNat : ℚ)
        * ((2 ^ (quantum M E - E).toNat : ℕ) : ℚ))
        ≤ 2 * (M : ℚ) + ((2 ^ (quantum M E - E).toNat : ℕ) : ℚ) := by exact_mod_cast h1
    have h2' : (2 : ℚ) * (M : ℚ) ≤ 2 * ((rne M (quantum M E - E).toNat : ℚ)
        * ((2 ^ (quantum M E - E).toNat : ℕ) : ℚ))
        + ((2 ^ (quantum M E - E).toNat : ℕ) : ℚ) := by exact_mod_cast h2
    have hE := tp_pos E
    unfold rv
    rw [hs, hq, abs_le]
    constructor
    · nlinarith
    · nlinarith

theorem key_fin (s : Bool) (m : ℕ) (e : ℤ) : key (fin s m e) = dval s m e := rfl

theorem toRat_fin (s : Bool) (m : ℕ) (e : ℤ) : toRat (fin s m e) = dval s m e := rfl

theorem key_inf (s : Bool) : key (inf s) = sgn s * 2 ^ (1024 : ℤ) := rfl

/-! ## The value of `round` -/

theorem key_pack (neg : Bool) {m : ℕ} {e : ℤ} (h1 : m ≤ 2 ^ 53)
    (h3 : e ≠ -1074 → 2 ^ 52 ≤ m) :
    key (pack neg m e) = sgn neg * min ((m : ℚ) * 2 ^ e) (2 ^ (1024 : ℤ)) := by
  have c53 : ((2 ^ 53 : ℕ) : ℚ) = 2 ^ (53 : ℤ) := tp_nat 53
  have c52 : ((2 ^ 52 : ℕ) : ℚ) = 2 ^ (52 : ℤ) := tp_nat 52
  unfold pack
  by_cases hm : m = 2 ^ 53
  · rw [if_pos hm, hm, c53, ← tp_add]
    by_cases he : e + 1 > 971
    · rw [if_pos he, key_inf, min_eq_right (tp_mono (by omega))]
    · rw [if_neg he, key_fin, dval, c52, mul_assoc, ← tp_add,
        min_eq_left (tp_mono (by omega))]
      congr 2
      ring
  · rw [if_neg hm]
    have hlt : m < 2 ^ 53 := lt_of_le_of_ne h1 hm
    by_cases he : e > 971
    · rw [if_pos he, key_inf]
      have h52 := h3 (by omega)
      have : (2 : ℚ) ^ (1024 : ℤ) ≤ (m : ℚ) * 2 ^ e := by
        calc (2 : ℚ) ^ (1024 : ℤ) ≤ 2 ^ ((52 : ℤ) + e) := tp_mono (by omega)
          _ = ((2 ^ 52 : ℕ) : ℚ) * 2 ^ e := by rw [c52, tp_add]
          _ ≤ (m : ℚ) * 2 ^ e :=
            mul_le_mul_of_nonneg_right (by exact_mod_cast h52) (tp_pos _).le
      rw [min_eq_right this]
    · rw [if_neg he, key_fin, dval, mul_assoc]
      have : (m : ℚ) * 2 ^ e ≤ 2 ^ (1024 : ℤ) := by
        calc (m : ℚ) * 2 ^ e ≤ ((2 ^ 53 : ℕ) : ℚ) * 2 ^ e :=
              mul_le_mul_of_nonneg_right (by exact_mod_cast h1) (tp_pos _).le
          _ = 2 ^ ((53 : ℤ) + e) := by rw [c53, tp_add]
          _ ≤ 2 ^ (1024 : ℤ) := tp_mono (by omega)
      rw [min_eq_left this]

/-- The position of a rounded value: the rounded magnitude, cut at `2^1024`,
with the sign. -/
theorem key_round (neg : Bool) (M : ℕ) (E : ℤ) : key (round neg M E) = rkey neg M E := by
  unfold round rkey
  by_cases h0 : M = 0
  · rw [if_pos h0, h0, rv_zero, key_fin, dval]
    have : (0 : ℚ) ≤ 2 ^ (1024 : ℤ) := (tp_pos _).le
    simp [min_eq_left this]
  · rw [if_neg h0, key_pack neg (sig_le M E) (fun h => sig_ge h0 h)]
    rfl

theorem pack_ne_nan (neg : Bool) (m : ℕ) (e : ℤ) : pack neg m e ≠ nan := by
  unfold pack
  split_ifs <;> simp

theorem round_ne_nan (neg : Bool) (M : ℕ) (E : ℤ) : round neg M E ≠ nan := by
  unfold round
  split
  · simp
  · exact pack_ne_nan _ _ _

theorem WF_pack (neg : Bool) {m : ℕ} {e : ℤ} (h1 : m ≤ 2 ^ 53) (h2 : -1074 ≤ e)
    (h3 : e ≠ -1074 → 2 ^ 52 ≤ m) : WF (pack neg m e) := by
  unfold pack
  split_ifs with hm he he
  · trivial
  · refine ⟨by norm_num, by omega, by omega, fun h => absurd h (by norm_num)⟩
  · trivial
  · refine ⟨lt_of_le_of_ne h1 hm, h2, by omega, fun h => ?_⟩
    by_contra hne
    have := h3 hne
    omega

/-- What `round` returns is a binary64 value. -/
theorem WF_round (neg : Bool) (M : ℕ) (E : ℤ) : WF (round neg M E) := by
  unfold round
  split
  · exact ⟨by norm_num, by norm_num, by norm_num, fun _ => rfl⟩
  · rename_i h0
    exact WF_pack neg (sig_le M E) (quantum_ge M E) (fun h => sig_ge h0 h)

/-! ## Monotonicity of rounding -/

theorem dval_nonneg (M : ℕ) (E : ℤ) : 0 ≤ (M : ℚ) * 2 ^ E :=
  mul_nonneg (Nat.cast_nonneg _) (tp_pos _).le

theorem rv_eq_zero {M : ℕ} {E : ℤ} (h : (M : ℚ) * 2 ^ E ≤ 0) : rv M E = 0 := by
  have h1 : (M : ℚ) * 2 ^ E = 0 := le_antisymm h (dval_nonneg M E)
  have h2 : (M : ℚ) = 0 := by
    rcases mul_eq_zero.mp h1 with h3 | h3
    · exact h3
    · exact absurd h3 (tp_pos E).ne'
  have h3 : M = 0 := by exact_mod_cast h2
  rw [h3, rv_zero]

theorem rmin_nonneg (M : ℕ) (E : ℤ) : 0 ≤ min (rv M E) (2 ^ (1024 : ℤ)) :=
  le_min (rv_nonneg _ _) (tp_pos _).le

/-- Rounding is monotone: a smaller number never rounds to a larger value. -/
theorem rkey_mono {n₁ n₂ : Bool} {M₁ M₂ : ℕ} {E₁ E₂ : ℤ}
    (h : dval n₁ M₁ E₁ ≤ dval n₂ M₂ E₂) : rkey n₁ M₁ E₁ ≤ rkey n₂ M₂ E₂ := by
  unfold dval at h
  unfold rkey
  have p1 := dval_nonneg M₁ E₁
  have p2 := dval_nonneg M₂ E₂
  have q1 := rmin_nonneg M₁ E₁
  have q2 := rmin_nonneg M₂ E₂
  cases n₁ <;> cases n₂ <;> simp only [sgn, Bool.false_eq_true, if_false, if_true, one_mul,
    neg_mul, mul_assoc] at h ⊢
  · exact min_le_min (rv_mono h) le_rfl
  · have h1 : rv M₁ E₁ = 0 := rv_eq_zero (by linarith)
    have h2 : rv M₂ E₂ = 0 := rv_eq_zero (by linarith)
    rw [h1, h2, min_eq_left (tp_pos _).le]
    simp
  · linarith
  · have := min_le_min (rv_mono (neg_le_neg_iff.mp h)) (le_refl ((2 : ℚ) ^ (1024 : ℤ)))
    linarith

theorem Rounds.ne_nan {v : ℚ} {x : F64} (h : Rounds v x) : x ≠ nan := h.1

/-- Correct roundings keep the order of the numbers rounded. -/
theorem Rounds.mono {v₁ v₂ : ℚ} {x₁ x₂ : F64} (h₁ : Rounds v₁ x₁) (h₂ : Rounds v₂ x₂)
    (h : v₁ ≤ v₂) : key x₁ ≤ key x₂ := by
  obtain ⟨_, n₁, M₁, E₁, e₁, k₁⟩ := h₁
  obtain ⟨_, n₂, M₂, E₂, e₂, k₂⟩ := h₂
  rw [k₁, k₂]
  apply rkey_mono
  rw [← e₁, ← e₂]
  exact h

/-- Correct roundings of one number sit at one position. -/
theorem Rounds.unique {v : ℚ} {x₁ x₂ : F64} (h₁ : Rounds v x₁) (h₂ : Rounds v x₂) :
    key x₁ = key x₂ :=
  le_antisymm (h₁.mono h₂ le_rfl) (h₂.mono h₁ le_rfl)

theorem rounds_round (neg : Bool) (M : ℕ) (E : ℤ) : Rounds (dval neg M E) (round neg M E) :=
  ⟨round_ne_nan _ _ _, neg, M, E, rfl, key_round _ _ _⟩

/-- A finite binary64 value is the rounding of its own number. -/
theorem rounds_self {x : F64} (hw : WF x) (hf : x.isFinite = true) : Rounds (toRat x) x := by
  cases x with
  | nan => simp [isFinite] at hf
  | inf s => simp [isFinite] at hf
  | fin s m e =>
    obtain ⟨h1, h2, h3, _⟩ := hw
    refine ⟨by simp, s, m, e, rfl, ?_⟩
    have hb : bitLen m ≤ 53 := bitLen_le_of_lt_pow h1
    have hq : quantum m e ≤ e := max_le (by omega) h2
    rw [key_fin, rkey, rv_exact hq, dval, mul_assoc]
    congr 1
    symm
    apply min_eq_left
    calc (m : ℚ) * 2 ^ e ≤ ((2 ^ 53 : ℕ) : ℚ) * 2 ^ e :=
          mul_le_mul_of_nonneg_right (by exact_mod_cast h1.le) (tp_pos _).le
      _ = 2 ^ ((53 : ℤ) + e) := by rw [tp_nat, tp_add]; rfl
      _ ≤ 2 ^ (1024 : ℤ) := tp_mono (by omega)


/-! ## The operations round the exact result -/

theorem sgn_bne (s t : Bool) : sgn (s != t) = sgn s * sgn t := by
  cases s <;> cases t <;> simp [sgn]

theorem sgn_not (s : Bool) : sgn (!s) = -sgn s := by
  cases s <;> simp [sgn]

theorem dval_int (c : ℤ) (b : ℤ) : dval (decide (c < 0)) c.natAbs b = (c : ℚ) * 2 ^ b := by
  unfold dval sgn
  by_cases h : c < 0
  · have e' : ((c.natAbs : ℕ) : ℚ) = -(c : ℚ) := by
      rw [Nat.cast_natAbs, abs_of_neg h]; push_cast; rfl
    simp [h, e']
  · have e' : ((c.natAbs : ℕ) : ℚ) = (c : ℚ) := by
      rw [Nat.cast_natAbs, abs_of_nonneg (not_lt.mp h)]
    simp [h, e']

theorem sval_cast (s : Bool) (m : ℕ) {e b : ℤ} (h : b ≤ e) :
    ((sval s m e b : ℤ) : ℚ) * 2 ^ b = dval s m e := by
  unfold sval dval sgn
  cases s with
  | true =>
    simp only [if_true, Int.cast_neg, Int.cast_natCast, neg_mul, one_mul]
    rw [tp_shift m h]
  | false =>
    simp only [Bool.false_eq_true, if_false, Int.cast_natCast, one_mul]
    rw [tp_shift m h]

theorem isFinite_iff {x : F64} : x.isFinite = true ↔ ∃ s m e, x = fin s m e := by
  cases x <;> simp [isFinite]

theorem rounds_ofInt (i : ℤ) : Rounds (i : ℚ) (ofInt i) := by
  have := rounds_round (decide (i < 0)) i.natAbs 0
  rw [dval_int] at this
  simpa [ofInt] using this

theorem rounds_mul {a b : F64} (ha : a.isFinite = true) (hb : b.isFinite = true) :
    Rounds (toRat a * toRat b) (mul a b) := by
  obtain ⟨s₁, m₁, e₁, rfl⟩ := isFinite_iff.mp ha
  obtain ⟨s₂, m₂, e₂, rfl⟩ := isFinite_iff.mp hb
  have := rounds_round (s₁ != s₂) (m₁ * m₂) (e₁ + e₂)
  have e : dval (s₁ != s₂) (m₁ * m₂) (e₁ + e₂) = dval s₁ m₁ e₁ * dval s₂ m₂ e₂ := by
    unfold dval
    rw [sgn_bne, tp_add]
    push_cast
    ring
  rw [e] at this
  exact this

theorem rounds_add {a b : F64} (ha : a.isFinite = true) (hb : b.isFinite = true) :
    Rounds (toRat a + toRat b) (add a b) := by
  obtain ⟨s₁, m₁, e₁, rfl⟩ := isFinite_iff.mp ha
  obtain ⟨s₂, m₂, e₂, rfl⟩ := isFinite_iff.mp hb
  have hv : (((sval s₁ m₁ e₁ (min e₁ e₂) + sval s₂ m₂ e₂ (min e₁ e₂) : ℤ) : ℚ)) * 2 ^ min e₁ e₂
      = dval s₁ m₁ e₁ + dval s₂ m₂ e₂ := by
    rw [Int.cast_add, add_mul, sval_cast _ _ (min_le_left _ _), sval_cast _ _ (min_le_right _ _)]
  rw [toRat_fin, toRat_fin, ← hv]
  unfold add
  dsimp only
  by_cases hc : sval s₁ m₁ e₁ (min e₁ e₂) + sval s₂ m₂ e₂ (min e₁ e₂) = 0
  · rw [if_pos hc, hc]
    refine ⟨by simp, false, 0, 0, by simp [dval], ?_⟩
    rw [key_fin, rkey, rv_zero]
    simp [dval, min_eq_left (tp_pos (1024 : ℤ)).le]
  · rw [if_neg hc, ← dval_int]
    exact rounds_round _ _ _

/-! ## What the operations return is binary64 -/

theorem WF_ofInt (i : ℤ) : WF (ofInt i) := WF_round _ _ _

theorem WF_zero (s : Bool) : WF (fin s 0 (-1074)) :=
  ⟨by norm_num, by norm_num, by norm_num, fun _ => rfl⟩

theorem WF_mul (a b : F64) : WF (mul a b) := by
  cases a <;> cases b <;> simp only [mul] <;> first | trivial | skip
  · split <;> trivial
  · split <;> trivial
  · exact WF_round _ _ _

theorem WF_add (a b : F64) : WF (add a b) := by
  cases a <;> cases b <;> simp only [add] <;> first | trivial | skip
  · split <;> trivial
  · split
    · exact WF_zero _
    · exact WF_round _ _ _

theorem WF_neg {a : F64} (h : WF a) : WF (neg a) := by
  cases a <;> exact h

theorem toRat_neg (a : F64) : toRat (neg a) = -toRat a := by
  cases a with
  | nan => simp [neg, toRat]
  | inf s => simp [neg, toRat]
  | fin s m e => simp only [neg, toRat_fin, dval, sgn_not]; ring

theorem isFinite_neg (a : F64) : (neg a).isFinite = a.isFinite := by
  cases a <;> rfl

theorem rounds_sub {a b : F64} (ha : a.isFinite = true) (hb : b.isFinite = true) :
    Rounds (toRat a - toRat b) (sub a b) := by
  have := rounds_add ha ((isFinite_neg b).trans hb)
  rwa [toRat_neg, ← sub_eq_add_neg] at this

/-! ## Positions and comparisons -/

theorem key_eq_toRat {x : F64} (h : x.isFinite = true) : key x = toRat x := by
  obtain ⟨s, m, e, rfl⟩ := isFinite_iff.mp h
  rfl

/-- A finite binary64 value lies strictly between the infinities. -/
theorem abs_key_lt {x : F64} (hw : WF x) (hf : x.isFinite = true) :
    |key x| < 2 ^ (1024 : ℤ) := by
  obtain ⟨s, m, e, rfl⟩ := isFinite_iff.mp hf
  obtain ⟨h1, _, h3, _⟩ := hw
  have hb : |key (fin s m e)| = (m : ℚ) * 2 ^ e := by
    rw [key_fin, dval, mul_assoc, abs_mul, abs_of_nonneg (dval_nonneg m e)]
    cases s <;> simp [sgn]
  rw [hb]
  calc (m : ℚ) * 2 ^ e < ((2 ^ 53 : ℕ) : ℚ) * 2 ^ e :=
        mul_lt_mul_of_pos_right (by exact_mod_cast h1) (tp_pos _)
    _ = 2 ^ ((53 : ℤ) + e) := by rw [tp_nat, tp_add]; rfl
    _ ≤ 2 ^ (1024 : ℤ) := tp_mono (by omega)

theorem key_inf_true : key (inf true) = -2 ^ (1024 : ℤ) := by simp [key_inf, sgn]

theorem key_inf_false : key (inf false) = 2 ^ (1024 : ℤ) := by simp [key_inf, sgn]

/-- The comparison `<` is the order of the positions. -/
theorem lt_iff_key {a b : F64} (ha : a ≠ nan) (hb : b ≠ nan) (wa : WF a) (wb : WF b) :
    lt a b = true ↔ key a < key b := by
  have hp := tp_pos (1024 : ℤ)
  cases a with
  | nan => exact absurd rfl ha
  | inf s =>
    cases b with
    | nan => exact absurd rfl hb
    | inf t => cases s <;> cases t <;> simp [lt, key_inf_true, key_inf_false] <;> linarith
    | fin t n f =>
      have := abs_lt.mp (abs_key_lt wb rfl)
      cases s <;> simp [lt, key_inf_true, key_inf_false] <;> linarith
  | fin s m e =>
    cases b with
    | nan => exact absurd rfl hb
    | inf t =>
      have := abs_lt.mp (abs_key_lt wa rfl)
      cases t <;> simp [lt, key_inf_true, key_inf_false] <;> linarith
    | fin t n f =>
      simp only [lt, decide_eq_true_eq, key_fin]
      rw [← sval_cast s m (min_le_left e f), ← sval_cast t n (min_le_right e f),
        mul_lt_mul_right (tp_pos _)]
      exact Int.cast_lt.symm

/-- The comparison `==` is equality of the positions. -/
theorem eq_iff_key {a b : F64} (ha : a ≠ nan) (hb : b ≠ nan) (wa : WF a) (wb : WF b) :
    eq a b = true ↔ key a = key b := by
  have hp := tp_pos (1024 : ℤ)
  cases a with
  | nan => exact absurd rfl ha
  | inf s =>
    cases b with
    | nan => exact absurd rfl hb
    | inf t =>
      cases s <;> cases t <;> simp [eq, key_inf_true, key_inf_false] <;> linarith
    | fin t n f =>
      have := abs_lt.mp (abs_key_lt wb rfl)
      cases s <;> simp [eq, key_inf_true, key_inf_false] <;> linarith
  | fin s m e =>
    cases b with
    | nan => exact absurd rfl hb
    | inf t =>
      have := abs_lt.mp (abs_key_lt wa rfl)
      cases t <;> simp [eq, key_inf_true, key_inf_false] <;> linarith
    | fin t n f =>
      simp only [eq, decide_eq_true_eq, key_fin]
      rw [← sval_cast s m (min_le_left e f), ← sval_cast t n (min_le_right e f)]
      constructor
      · intro h; rw [h]
      · intro h
        have := mul_right_cancel₀ (tp_pos (min e f)).ne' h
        exact_mod_cast this

/-- The comparison `<=` is the order of the positions. -/
theorem le_iff_key {a b : F64} (ha : a ≠ nan) (hb : b ≠ nan) (wa : WF a) (wb : WF b) :
    le a b = true ↔ key a ≤ key b := by
  unfold le
  rw [Bool.or_eq_true, lt_iff_key ha hb wa wb, eq_iff_key ha hb wa wb]
  exact le_iff_lt_or_eq.symm

theorem gt_iff_key {a b : F64} (ha : a ≠ nan) (hb : b ≠ nan) (wa : WF a) (wb : WF b) :
    gt a b = true ↔ key b < key a := lt_iff_key hb ha wb wa

/-- A value that is not NaN and lies strictly between the infinities is
finite. -/
theorem isFinite_of_abs_key_lt {x : F64} (hn : x ≠ nan) (h : |key x| < 2 ^ (1024 : ℤ)) :
    x.isFinite = true := by
  have hp := tp_pos (1024 : ℤ)
  cases x with
  | nan => exact absurd rfl hn
  | inf s =>
    exfalso
    cases s
    · rw [key_inf_false, abs_of_pos hp] at h; exact lt_irrefl _ h
    · rw [key_inf_true, abs_neg, abs_of_pos hp] at h; exact lt_irrefl _ h
  | fin s m e => rfl

/-- Every binary64 value other than NaN lies between the infinities. -/
theorem abs_key_le {x : F64} (hw : WF x) : |key x| ≤ 2 ^ (1024 : ℤ) := by
  have hp := tp_pos (1024 : ℤ)
  cases x with
  | nan => simpa [key] using hp.le
  | inf s =>
    cases s
    · rw [key_inf_false, abs_of_pos hp]
    · rw [key_inf_true, abs_neg, abs_of_pos hp]
  | fin s m e => exact (abs_key_lt hw rfl).le


/-! ## Finite operands -/

theorem isFinite_add {a b : F64} (h : (add a b).isFinite = true) :
    a.isFinite = true ∧ b.isFinite = true := by
  cases a with
  | nan => simp [add, isFinite] at h
  | inf s =>
    cases b with
    | nan => simp [add, isFinite] at h
    | inf t => simp only [add] at h; split_ifs at h <;> simp [isFinite] at h
    | fin t n f => simp [add, isFinite] at h
  | fin s m e =>
    cases b with
    | nan => simp [add, isFinite] at h
    | inf t => simp [add, isFinite] at h
    | fin t n f => exact ⟨rfl, rfl⟩

theorem isFinite_mul {a b : F64} (h : (mul a b).isFinite = true) :
    a.isFinite = true ∧ b.isFinite = true := by
  cases a with
  | nan => simp [mul, isFinite] at h
  | inf s =>
    cases b with
    | nan => simp [mul, isFinite] at h
    | inf t => simp [mul, isFinite] at h
    | fin t n f => simp only [mul] at h; split_ifs at h <;> simp [isFinite] at h
  | fin s m e =>
    cases b with
    | nan => simp [mul, isFinite] at h
    | inf t => simp only [mul] at h; split_ifs at h <;> simp [isFinite] at h
    | fin t n f => exact ⟨rfl, rfl⟩

theorem isFinite_sub {a b : F64} (h : (sub a b).isFinite = true) :
    a.isFinite = true ∧ b.isFinite = true := by
  have := isFinite_add h
  rwa [isFinite_neg] at this

theorem ne_nan_of_isFinite {a : F64} (h : a.isFinite = true) : a ≠ nan := by
  cases a <;> simp_all [isFinite]

theorem add_inf_left (s : Bool) {y : F64} (h : y.isFinite = true) : add (inf s) y = inf s := by
  obtain ⟨t, m, e, rfl⟩ := isFinite_iff.mp h
  rfl

/-- A finite value that is `WF`, or an infinity: the three shapes of a value
that is not NaN. -/
theorem eq_inf_of_key {a : F64} (hn : a ≠ nan) (hw : WF a) :
    a.isFinite = true ∨ a = inf true ∨ a = inf false := by
  cases a with
  | nan => exact absurd rfl hn
  | inf s => cases s <;> simp
  | fin s m e => left; rfl

/-! ## Monotonicity of the operations -/

/-- Adding a finite value keeps the order. -/
theorem key_add_mono {a b y : F64} (ha : a ≠ nan) (hb : b ≠ nan) (wa : WF a) (wb : WF b)
    (hy : y.isFinite = true) (h : key a ≤ key b) :
    add a y ≠ nan ∧ add b y ≠ nan ∧ key (add a y) ≤ key (add b y) := by
  have hp := tp_pos (1024 : ℤ)
  rcases eq_inf_of_key ha wa with fa | rfl | rfl
  · rcases eq_inf_of_key hb wb with fb | rfl | rfl
    · refine ⟨(rounds_add fa hy).ne_nan, (rounds_add fb hy).ne_nan, ?_⟩
      apply (rounds_add fa hy).mono (rounds_add fb hy)
      rw [← key_eq_toRat fa, ← key_eq_toRat fb]
      linarith
    · have := abs_lt.mp (abs_key_lt wa fa)
      rw [key_inf_true] at h
      linarith
    · refine ⟨(rounds_add fa hy).ne_nan, by rw [add_inf_left _ hy]; simp, ?_⟩
      rw [add_inf_left _ hy, key_inf_false]
      exact (abs_le.mp (abs_key_le (WF_add a y))).2
  · refine ⟨by rw [add_inf_left _ hy]; simp, ?_, ?_⟩
    · rcases eq_inf_of_key hb wb with fb | rfl | rfl
      · exact (rounds_add fb hy).ne_nan
      · rw [add_inf_left _ hy]; simp
      · rw [add_inf_left _ hy]; simp
    · rw [add_inf_left _ hy, key_inf_true]
      exact (abs_le.mp (abs_key_le (WF_add b y))).1
  · rcases eq_inf_of_key hb wb with fb | rfl | rfl
    · have := abs_lt.mp (abs_key_lt wb fb)
      rw [key_inf_false] at h
      linarith
    · rw [key_inf_false, key_inf_true] at h
      linarith
    · exact ⟨by rw [add_inf_left _ hy]; simp, by rw [add_inf_left _ hy]; simp, le_rfl⟩

/-- Multiplying by a finite value that is not positive reverses the order. -/
theorem key_mul_anti {s x y : F64} (hs : s.isFinite = true) (hneg : toRat s ≤ 0)
    (hx : x.isFinite = true) (hy : y.isFinite = true) (h : key x ≤ key y) :
    key (mul s y) ≤ key (mul s x) := by
  apply (rounds_mul hs hy).mono (rounds_mul hs hx)
  rw [key_eq_toRat hx, key_eq_toRat hy] at h
  exact mul_le_mul_of_nonpos_left h hneg

/-- Multiplying by a finite value that is not negative keeps the order. -/
theorem key_mul_mono {s x y : F64} (hs : s.isFinite = true) (hpos : 0 ≤ toRat s)
    (hx : x.isFinite = true) (hy : y.isFinite = true) (h : key x ≤ key y) :
    key (mul s x) ≤ key (mul s y) := by
  apply (rounds_mul hs hx).mono (rounds_mul hs hy)
  rw [key_eq_toRat hx, key_eq_toRat hy] at h
  exact mul_le_mul_of_nonneg_left h hpos

theorem mul_ne_nan {a b : F64} (ha : a.isFinite = true) (hb : b.isFinite = true) :
    mul a b ≠ nan := (rounds_mul ha hb).ne_nan

/-! ## Conversion of an integer -/

/-- The conversion of an integer below `2^64` in magnitude is finite. -/
theorem isFinite_ofInt {i : ℤ} (h : i.natAbs < 2 ^ 64) : (ofInt i).isFinite = true := by
  apply isFinite_of_abs_key_lt (rounds_ofInt i).ne_nan
  unfold ofInt
  rw [key_round, rkey, abs_mul]
  have hs : |sgn (decide (i < 0))| = 1 := by
    cases decide (i < 0) <;> simp [sgn]
  rw [hs, one_mul, abs_of_nonneg (rmin_nonneg _ _)]
  apply lt_of_le_of_lt (min_le_left _ _)
  have hb : bitLen i.natAbs ≤ 64 := bitLen_le_of_lt_pow h
  calc rv i.natAbs 0 ≤ 2 ^ max ((0 : ℤ) + bitLen i.natAbs) (-1074) := rv_upper _ _
    _ ≤ 2 ^ (64 : ℤ) := tp_mono (max_le (by omega) (by norm_num))
    _ < 2 ^ (1024 : ℤ) := zpow_lt_zpow_right₀ (by norm_num) (by norm_num)

theorem key_ofInt_mono {i j : ℤ} (h : i ≤ j) : key (ofInt i) ≤ key (ofInt j) :=
  (rounds_ofInt i).mono (rounds_ofInt j) (by exact_mod_cast h)

/-! ## The cap -/

/-- The position of a capped value is the smaller of the two positions. -/
theorem key_capAt {T w : F64} (hT : T ≠ nan) (hw : w ≠ nan) (wT : WF T) (ww : WF w) :
    capAt T w ≠ nan ∧ WF (capAt T w) ∧ key (capAt T w) = min (key w) (key T) := by
  unfold capAt
  by_cases h : gt w T = true
  · rw [if_pos h]
    exact ⟨hT, wT, (min_eq_right ((gt_iff_key hw hT ww wT).mp h).le).symm⟩
  · rw [if_neg h]
    have : ¬ key T < key w := fun h' => h ((gt_iff_key hw hT ww wT).mpr h')
    exact ⟨hw, ww, (min_eq_left (not_lt.mp this)).symm⟩

end F64

theorem wrapInt64_of_range {x : Int} (h : InInt64 x) : wrapInt64 x = x := by
  unfold InInt64 at h
  unfold wrapInt64
  omega

theorem wrapInt64_range (x : Int) : InInt64 (wrapInt64 x) := by
  unfold InInt64 wrapInt64
  omega

theorem wrapInt64_sub_wrap (t h : Int) (hh : InInt64 h) :
    wrapInt64 (t - wrapInt64 (t - h)) = h := by
  unfold InInt64 at hh
  unfold wrapInt64
  omega

theorem natAbs_wrapInt64_lt (x : Int) : (wrapInt64 x).natAbs < 2 ^ 64 := by
  have := wrapInt64_range x
  unfold InInt64 at this
  have e : (2 : ℕ) ^ 64 = 18446744073709551616 := by norm_num
  rw [e]
  omega

/-! ## The linear value along the time axis -/

theorem linearWeight_eq_lineAt (p : MobilityProfile) (r l : Int) :
    p.linearWeight r l = p.lineAt (F64.ofInt (wrapInt64 (r - l))) := rfl

theorem ComputeWeight_eq_capAt (p : MobilityProfile) (r l : Int) :
    p.ComputeWeight r l false = capAt p.Threshold (p.lineAt (F64.ofInt (wrapInt64 (r - l)))) :=
  rfl

/-- A finite derived intercept makes the other three fields, and the product
`Slope * HoldoffMillis`, finite. -/
theorem fields_finite {p : MobilityProfile}
    (hY : p.YIntercept = F64.sub p.Threshold (F64.mul p.Slope p.HoldoffMillis))
    (hfin : p.YIntercept.isFinite = true) :
    p.Slope.isFinite = true ∧ p.HoldoffMillis.isFinite = true ∧ p.Threshold.isFinite = true
      ∧ (F64.mul p.Slope p.HoldoffMillis).isFinite = true := by
  rw [hY] at hfin
  have h1 := F64.isFinite_sub hfin
  have h2 := F64.isFinite_mul h1.2
  exact ⟨h2.1, h2.2, h1.1, h1.2⟩

theorem toRat_neg_of_lt_zero {s : F64} (hw : s.WF) (hf : s.isFinite = true)
    (h : F64.lt s F64.zero = true) : F64.toRat s < 0 := by
  have := (F64.lt_iff_key (F64.ne_nan_of_isFinite hf) (by simp [F64.zero]) hw
    (F64.WF_zero false)).mp h
  rw [F64.key_eq_toRat hf] at this
  simpa [F64.zero, F64.key, F64.dval] using this

theorem toRat_pos_of_gt_zero {s : F64} (hw : s.WF) (hf : s.isFinite = true)
    (h : F64.gt s F64.zero = true) : 0 < F64.toRat s := by
  have := (F64.gt_iff_key (F64.ne_nan_of_isFinite hf) (by simp [F64.zero]) hw
    (F64.WF_zero false)).mp h
  rw [F64.key_eq_toRat hf] at this
  simpa [F64.zero, F64.key, F64.dval] using this

theorem WF_lineAt (p : MobilityProfile) (x : F64) : (p.lineAt x).WF := F64.WF_add _ _

/-- With a slope that is not positive the linear value does not increase
along the time axis. -/
theorem lineAt_anti {p : MobilityProfile} (hs : p.Slope.isFinite = true)
    (hneg : F64.toRat p.Slope ≤ 0) (hy : p.YIntercept.isFinite = true) {x y : F64}
    (hx : x.isFinite = true) (hy' : y.isFinite = true) (h : F64.key x ≤ F64.key y) :
    p.lineAt y ≠ F64.nan ∧ p.lineAt x ≠ F64.nan ∧ F64.key (p.lineAt y) ≤ F64.key (p.lineAt x) :=
  F64.key_add_mono (F64.mul_ne_nan hs hy') (F64.mul_ne_nan hs hx) (F64.WF_mul _ _)
    (F64.WF_mul _ _) hy (F64.key_mul_anti hs hneg hx hy' h)

/-- With a slope that is not negative the linear value does not decrease
along the time axis. -/
theorem lineAt_mono {p : MobilityProfile} (hs : p.Slope.isFinite = true)
    (hpos : 0 ≤ F64.toRat p.Slope) (hy : p.YIntercept.isFinite = true) {x y : F64}
    (hx : x.isFinite = true) (hy' : y.isFinite = true) (h : F64.key x ≤ F64.key y) :
    p.lineAt x ≠ F64.nan ∧ p.lineAt y ≠ F64.nan ∧ F64.key (p.lineAt x) ≤ F64.key (p.lineAt y) :=
  F64.key_add_mono (F64.mul_ne_nan hs hx) (F64.mul_ne_nan hs hy') (F64.WF_mul _ _)
    (F64.WF_mul _ _) hy (F64.key_mul_mono hs hpos hx hy' h)

/-- Elapsed times at one position give linear values at one position. -/
theorem lineAt_congr {p : MobilityProfile} (hs : p.Slope.isFinite = true)
    (hy : p.YIntercept.isFinite = true) {x y : F64}
    (hx : x.isFinite = true) (hy' : y.isFinite = true) (h : F64.key x = F64.key y) :
    p.lineAt x ≠ F64.nan ∧ p.lineAt y ≠ F64.nan ∧ F64.key (p.lineAt x) = F64.key (p.lineAt y) := by
  rcases le_total 0 (F64.toRat p.Slope) with h0 | h0
  · have a := lineAt_mono hs h0 hy hx hy' h.le
    have b := lineAt_mono hs h0 hy hy' hx h.ge
    exact ⟨a.1, a.2.1, le_antisymm a.2.2 b.2.2⟩
  · have a := lineAt_anti hs h0 hy hx hy' h.le
    have b := lineAt_anti hs h0 hy hy' hx h.ge
    exact ⟨a.2.1, a.1, le_antisymm b.2.2 a.2.2⟩

theorem isFinite_elapsed (x : Int) : (F64.ofInt (wrapInt64 x)).isFinite = true :=
  F64.isFinite_ofInt (natAbs_wrapInt64_lt x)

/-- The conversion of an integer not above a finite binary64 value is not
above it. -/
theorem key_ofInt_le {H : F64} (hw : H.WF) (hf : H.isFinite = true) {e : Int}
    (h : (e : ℚ) ≤ F64.toRat H) : F64.key (F64.ofInt e) ≤ F64.key H :=
  (F64.rounds_ofInt e).mono (F64.rounds_self hw hf) h

/-- The conversion of an integer not below a finite binary64 value is not
below it. -/
theorem key_le_ofInt {H : F64} (hw : H.WF) (hf : H.isFinite = true) {e : Int}
    (h : F64.toRat H ≤ (e : ℚ)) : F64.key H ≤ F64.key (F64.ofInt e) :=
  (F64.rounds_self hw hf).mono (F64.rounds_ofInt e) h

/-- When `Threshold - Slope * HoldoffMillis` is computed without rounding
error, the linear value at the end of the holdoff is the threshold. -/
theorem key_boundaryWeight_of_exact {p : MobilityProfile} (hw : p.WF)
    (hY : p.YIntercept = F64.sub p.Threshold (F64.mul p.Slope p.HoldoffMillis))
    (hfin : p.YIntercept.isFinite = true)
    (hx : F64.toRat p.YIntercept
      = F64.toRat p.Threshold - F64.toRat (F64.mul p.Slope p.HoldoffMillis)) :
    F64.key p.boundaryWeight = F64.key p.Threshold := by
  obtain ⟨_, _, hT, hP⟩ := fields_finite hY hfin
  have h1 : F64.Rounds (F64.toRat p.Threshold) p.boundaryWeight := by
    have := F64.rounds_add hP hfin
    rw [hx] at this
    simpa [MobilityProfile.boundaryWeight, MobilityProfile.lineAt] using this
  exact h1.unique (F64.rounds_self hw.2.1 hT)

/-- The pieces shared by the claims on the holdoff: finiteness of the fields and
the facts that make the cap a minimum of positions. -/
theorem cap_facts {p : MobilityProfile} (hw : p.WF)
    (hY : p.YIntercept = F64.sub p.Threshold (F64.mul p.Slope p.HoldoffMillis))
    (hfin : p.YIntercept.isFinite = true) {w : F64} (hn : w ≠ F64.nan) (ww : w.WF) :
    capAt p.Threshold w ≠ F64.nan ∧ (capAt p.Threshold w).WF
      ∧ F64.key (capAt p.Threshold w) = min (F64.key w) (F64.key p.Threshold) :=
  F64.key_capAt (F64.ne_nan_of_isFinite (fields_finite hY hfin).2.2.1) hn hw.2.1 ww

/-! ## Known values -/

/-- The literals of the presets: `-0.008` and `-0.0005` are the binary64
values `-0x1.0624dd2f1a9fcp-7` and `-0x1.0624dd2f1a9fcp-11`, each within half a
unit in the last place of the decimal; `6.0`, `500.0` and `60000.0` are exact. -/
theorem preset_literals :
    F64.ofFrac true 8 1000 = F64.fin true 4611686018427388 (-59)
      ∧ |F64.toRat (F64.fin true 4611686018427388 (-59)) - (-8 / 1000)| ≤ 2 ^ (-59 : ℤ) / 2
      ∧ F64.ofFrac true 5 10000 = F64.fin true 4611686018427388 (-63)
      ∧ |F64.toRat (F64.fin true 4611686018427388 (-63)) - (-5 / 10000)| ≤ 2 ^ (-63 : ℤ) / 2
      ∧ F64.ofFrac false 6 1 = F64.fin false 6755399441055744 (-50)
      ∧ F64.toRat (F64.fin false 6755399441055744 (-50)) = 6
      ∧ F64.ofFrac false 500 1 = F64.fin false 8796093022208000 (-44)
      ∧ F64.toRat (F64.fin false 8796093022208000 (-44)) = 500
      ∧ F64.ofFrac false 60000 1 = F64.fin false 8246337208320000 (-37)
      ∧ F64.toRat (F64.fin false 8246337208320000 (-37)) = 60000 := by
  refine ⟨by decide, ?_, by decide, ?_, by decide, ?_, by decide, ?_, by decide, ?_⟩ <;>
    norm_num [F64.toRat, abs_le]

/-- Some values every binary64 implementation agrees on: `0.1 + 0.2` is
`0.30000000000000004`; `2^53 + 1` converts to `2^53` and `2^53 + 3` to
`2^53 + 4` (ties to even); the largest finite value doubled is `+Inf`; `Inf - Inf` and
`0 * Inf` are NaN; `-0 == 0`; NaN is not `==` itself; the smallest subnormal
halved is `0`. -/
theorem known_values :
    F64.add (F64.ofFrac false 1 10) (F64.ofFrac false 2 10)
        = F64.ofFrac false 30000000000000004 100000000000000000
      ∧ F64.add (F64.ofFrac false 1 10) (F64.ofFrac false 2 10)
        = F64.fin false 5404319552844596 (-54)
      ∧ F64.ofInt 9007199254740993 = F64.fin false 4503599627370496 1
      ∧ F64.ofInt 9007199254740995 = F64.fin false 4503599627370498 1
      ∧ F64.mul (F64.fin false 9007199254740991 971) (F64.ofFrac false 2 1) = F64.inf false
      ∧ F64.sub (F64.inf false) (F64.inf false) = F64.nan
      ∧ F64.mul F64.zero (F64.inf false) = F64.nan
      ∧ F64.eq (F64.neg F64.zero) F64.zero = true
      ∧ F64.eq F64.nan F64.nan = false
      ∧ F64.mul (F64.fin false 1 (-1074)) (F64.ofFrac false 1 2) = F64.zero := by
  decide

/-! ## The cache -/

theorem loadMobilityProfileIn_globals (cfg : AppConfig) (g : Globals) :
    (loadMobilityProfileIn cfg g).2 = g := rfl

theorem loadMobilityProfileIn_initial (cfg : AppConfig) :
    (loadMobilityProfileIn cfg initialGlobals).1 = loadMobilityProfile cfg := rfl

/-- With the cache filled, `GetMobilityProfile` returns it and changes
nothing. -/
theorem GetMobilityProfile_cached (cfg : AppConfig) {g : Globals} {p : MobilityProfile}
    (h : g.activeProfile = some p) : GetMobilityProfile cfg g = ((p, []), g) := by
  unfold GetMobilityProfile
  rw [h]

/-- After `GetMobilityProfile` the cache holds the profile returned. -/
theorem GetMobilityProfile_fills (cfg : AppConfig) (g : Globals) :
    (GetMobilityProfile cfg g).2.activeProfile = some (GetMobilityProfile cfg g).1.1 := by
  unfold GetMobilityProfile
  cases h : g.activeProfile with
  | none => rfl
  | some p => simp [h]

/-- With the cache filled, every call of a run returns the cached profile. -/
theorem run_cached {p : MobilityProfile} (es : List Event) :
    ∀ s : Process, s.globals.activeProfile = some p → ∀ out ∈ (s.run es).2, out = p := by
  induction es with
  | nil => intro s _ out h; simp [Process.run] at h
  | cons e es ih =>
    intro s hs out h
    cases e with
    | setConfig cfg =>
      simp only [Process.run, Process.step, List.nil_append] at h
      exact ih { s with config := cfg } hs out h
    | getMobilityProfile =>
      simp only [Process.run, Process.step, List.singleton_append, List.mem_cons] at h
      rw [GetMobilityProfile_cached s.config hs] at h
      rcases h with h | h
      · exact h
      · exact ih { s with globals := s.globals } hs out h

/-- Configuration changes alone return nothing and leave the package state;
the configuration afterwards is the last one set. -/
theorem run_setConfig (pre : List AppConfig) :
    ∀ s : Process, (s.run (pre.map Event.setConfig)).2 = []
      ∧ (s.run (pre.map Event.setConfig)).1.globals = s.globals
      ∧ (s.run (pre.map Event.setConfig)).1.config = pre.getLastD s.config := by
  induction pre with
  | nil => intro s; simp [Process.run]
  | cons c cs ih =>
    intro s
    obtain ⟨h1, h2, h3⟩ := ih { s with config := c }
    simp only [List.map_cons, Process.run, Process.step, List.nil_append]
    refine ⟨h1, h2, ?_⟩
    rw [h3]
    cases cs <;> simp [List.getLastD]

theorem run_append (es₁ es₂ : List Event) :
    ∀ s : Process, (s.run (es₁ ++ es₂)).2 = (s.run es₁).2 ++ ((s.run es₁).1.run es₂).2 := by
  induction es₁ with
  | nil => intro s; simp [Process.run]
  | cons e es ih =>
    intro s
    have := ih (s.step e).1
    simp only [List.cons_append, Process.run, List.append_assoc]
    exact congrArg _ this

/-- Two calls with configuration changes between them return the same
profile twice. -/
theorem run_two_calls (s : Process) (mid : List AppConfig) :
    (s.run (Event.getMobilityProfile
        :: (mid.map Event.setConfig ++ [Event.getMobilityProfile]))).2
      = [(GetMobilityProfile s.config s.globals).1.1,
          (GetMobilityProfile s.config s.globals).1.1] := by
  obtain ⟨h1, h2, _⟩ := run_setConfig mid (s.step Event.getMobilityProfile).1
  have hf : (s.step Event.getMobilityProfile).1.globals.activeProfile
      = some (GetMobilityProfile s.config s.globals).1.1 :=
    GetMobilityProfile_fills s.config s.globals
  rw [← h2] at hf
  have hc := GetMobilityProfile_cached
    ((s.step Event.getMobilityProfile).1.run (mid.map Event.setConfig)).1.config hf
  have e : (s.run (Event.getMobilityProfile
      :: (mid.map Event.setConfig ++ [Event.getMobilityProfile]))).2
      = (s.step Event.getMobilityProfile).2
        ++ ((s.step Event.getMobilityProfile).1.run
            (mid.map Event.setConfig ++ [Event.getMobilityProfile])).2 := rfl
  have e2 : ∀ t : Process, (t.run [Event.getMobilityProfile]).2
      = [(GetMobilityProfile t.config t.globals).1.1] := fun _ => rfl
  rw [e, run_append, h1, e2, hc]
  rfl

theorem wrapInt64_shift (r l d : Int) :
    wrapInt64 (wrapInt64 (r + d) - wrapInt64 (l + d)) = wrapInt64 (r - l) := by
  unfold wrapInt64
  omega

namespace F64

/-! ## The size of the rounding error -/

/-- The rounding error is at most `2^-53` of the number rounded, or half the
smallest subnormal step. -/
theorem rv_rel_error (M : ℕ) (E : ℤ) :
    |rv M E - (M : ℚ) * 2 ^ E| ≤ 2 ^ (-53 : ℤ) * ((M : ℚ) * 2 ^ E) + 2 ^ (-1075 : ℤ) := by
  have h0 := rv_error M E
  have hη := tp_pos (-1075 : ℤ)
  have hv := dval_nonneg M E
  have hu := tp_pos (-53 : ℤ)
  by_cases hM : M = 0
  · subst hM
    rw [rv_zero]
    simp only [Nat.cast_zero, zero_mul, sub_self, abs_zero, mul_zero, zero_add]
    exact hη.le
  rcases quantum_cases M E with ⟨hq, hn⟩ | ⟨hq, _⟩
  · have hL := pow_bitLen_le hM
    have hp := bitLen_pos hM
    have e1 : (2 : ℚ) ^ quantum M E / 2
        = 2 ^ (-53 : ℤ) * (((2 ^ (bitLen M - 1) : ℕ) : ℚ) * 2 ^ E) := by
      rw [tp_nat, ← tp_add, ← tp_add, hq, div_eq_mul_inv, ← zpow_neg_one, ← tp_add]
      congr 1
      omega
    have e2 : ((2 ^ (bitLen M - 1) : ℕ) : ℚ) * 2 ^ E ≤ (M : ℚ) * 2 ^ E :=
      mul_le_mul_of_nonneg_right (by exact_mod_cast hL) (tp_pos _).le
    rw [e1] at h0
    have := mul_le_mul_of_nonneg_left e2 hu.le
    linarith
  · have e1 : (2 : ℚ) ^ quantum M E / 2 = 2 ^ (-1075 : ℤ) := by
      rw [hq, div_eq_mul_inv, ← zpow_neg_one, ← tp_add]
      norm_num
    rw [e1] at h0
    have := mul_nonneg hu.le hv
    linarith

/-- At an exponent binary64 can hold, the smallest subnormal step plays no
part: the rounding error is at most `2^-53` of the number rounded. -/
theorem rv_rel_error_of_exp (M : ℕ) {E : ℤ} (hE : -1074 ≤ E) :
    |rv M E - (M : ℚ) * 2 ^ E| ≤ 2 ^ (-53 : ℤ) * ((M : ℚ) * 2 ^ E) := by
  have hv := dval_nonneg M E
  have hu := tp_pos (-53 : ℤ)
  rcases quantum_cases M E with ⟨hq, hn⟩ | ⟨hq, _⟩
  · by_cases hM : M = 0
    · subst hM
      rw [rv_zero]
      simp
    have h0 := rv_error M E
    have hL := pow_bitLen_le hM
    have hp := bitLen_pos hM
    have e1 : (2 : ℚ) ^ quantum M E / 2
        = 2 ^ (-53 : ℤ) * (((2 ^ (bitLen M - 1) : ℕ) : ℚ) * 2 ^ E) := by
      rw [tp_nat, ← tp_add, ← tp_add, hq, div_eq_mul_inv, ← zpow_neg_one, ← tp_add]
      congr 1
      omega
    have e2 : ((2 ^ (bitLen M - 1) : ℕ) : ℚ) * 2 ^ E ≤ (M : ℚ) * 2 ^ E :=
      mul_le_mul_of_nonneg_right (by exact_mod_cast hL) (tp_pos _).le
    rw [e1] at h0
    have := mul_le_mul_of_nonneg_left e2 hu.le
    linarith
  · rw [rv_exact (by omega), sub_self, abs_zero]
    exact mul_nonneg hu.le hv

theorem abs_dval (neg : Bool) (M : ℕ) (E : ℤ) : |dval neg M E| = (M : ℚ) * 2 ^ E := by
  rw [dval, mul_assoc, abs_mul, abs_of_nonneg (dval_nonneg M E)]
  cases neg <;> simp [sgn]

theorem abs_sgn_mul (neg : Bool) (x : ℚ) : |sgn neg * x| = |x| := by
  cases neg <;> simp [sgn]

/-- A number of magnitude at most `2^1023` rounds to a finite value, with the
error `err` allowed for the rounded magnitude. -/
theorem round_error_of (neg : Bool) (M : ℕ) (E : ℤ) {err : ℚ}
    (hb : (M : ℚ) * 2 ^ E ≤ 2 ^ (1023 : ℤ))
    (he : |rv M E - (M : ℚ) * 2 ^ E| ≤ err)
    (hs : err ≤ 2 ^ (-53 : ℤ) * ((M : ℚ) * 2 ^ E) + 2 ^ (-1075 : ℤ)) :
    (round neg M E).isFinite = true ∧ |toRat (round neg M E) - dval neg M E| ≤ err := by
  have hrv : rv M E < 2 ^ (1024 : ℤ) := by
    have h1 := (abs_le.mp he).2
    have h2 : (2 : ℚ) ^ (1024 : ℤ) = 2 * 2 ^ (1023 : ℤ) := by
      rw [show (1024 : ℤ) = 1 + 1023 by norm_num, tp_add]; norm_num
    have h3 : (2 : ℚ) ^ (-53 : ℤ) ≤ 1 / 4 := by
      rw [show (1 / 4 : ℚ) = 2 ^ (-2 : ℤ) by norm_num]
      exact tp_mono (by norm_num)
    have h4 : (2 : ℚ) ^ (-1075 : ℤ) ≤ 1 / 4 := by
      rw [show (1 / 4 : ℚ) = 2 ^ (-2 : ℤ) by norm_num]
      exact tp_mono (by norm_num)
    have h5 : (1 : ℚ) ≤ 2 ^ (1023 : ℤ) := by
      rw [show (1 : ℚ) = 2 ^ (0 : ℤ) by norm_num]
      exact tp_mono (by norm_num)
    have h6 := dval_nonneg M E
    have h7 : (2 : ℚ) ^ (-53 : ℤ) * ((M : ℚ) * 2 ^ E) ≤ 1 / 4 * 2 ^ (1023 : ℤ) :=
      mul_le_mul h3 hb h6 (by norm_num)
    rw [h2]
    generalize (2 : ℚ) ^ (-53 : ℤ) * ((M : ℚ) * 2 ^ E) = U at hs h7
    generalize (2 : ℚ) ^ (1023 : ℤ) = P at hb h5 h7 ⊢
    generalize (2 : ℚ) ^ (-1075 : ℤ) = η at hs h4
    generalize (M : ℚ) * 2 ^ E = V at hb h1 h6
    linarith
  have hk : key (round neg M E) = sgn neg * rv M E := by
    rw [key_round, rkey, min_eq_left hrv.le]
  have hf : (round neg M E).isFinite = true := by
    apply isFinite_of_abs_key_lt (round_ne_nan _ _ _)
    rw [hk, abs_sgn_mul, abs_of_nonneg (rv_nonneg _ _)]
    exact hrv
  refine ⟨hf, ?_⟩
  rw [← key_eq_toRat hf, hk, dval, mul_assoc, ← mul_sub, abs_sgn_mul]
  exact he

/-- The error of a product: at most `2^-53` of it, and half the smallest
subnormal step. -/
theorem mul_error {a b : F64} (ha : a.isFinite = true) (hb : b.isFinite = true)
    (h : |toRat a * toRat b| ≤ 2 ^ (1023 : ℤ)) :
    (mul a b).isFinite = true
      ∧ |toRat (mul a b) - toRat a * toRat b|
          ≤ 2 ^ (-53 : ℤ) * |toRat a * toRat b| + 2 ^ (-1075 : ℤ) := by
  obtain ⟨s₁, m₁, e₁, rfl⟩ := isFinite_iff.mp ha
  obtain ⟨s₂, m₂, e₂, rfl⟩ := isFinite_iff.mp hb
  have e : dval (s₁ != s₂) (m₁ * m₂) (e₁ + e₂) = dval s₁ m₁ e₁ * dval s₂ m₂ e₂ := by
    unfold dval
    rw [sgn_bne, tp_add]
    push_cast
    ring
  rw [toRat_fin, toRat_fin, ← e, abs_dval] at h ⊢
  exact round_error_of _ _ _ h (rv_rel_error _ _) le_rfl

theorem WF_exp {s : Bool} {m : ℕ} {e : ℤ} (h : WF (fin s m e)) : -1074 ≤ e := h.2.1

/-- The error of a sum of binary64 values: at most `2^-53` of it. -/
theorem add_error {a b : F64} (ha : a.isFinite = true) (hb : b.isFinite = true)
    (wa : WF a) (wb : WF b) (h : |toRat a + toRat b| ≤ 2 ^ (1023 : ℤ)) :
    (add a b).isFinite = true
      ∧ |toRat (add a b) - (toRat a + toRat b)| ≤ 2 ^ (-53 : ℤ) * |toRat a + toRat b| := by
  obtain ⟨s₁, m₁, e₁, rfl⟩ := isFinite_iff.mp ha
  obtain ⟨s₂, m₂, e₂, rfl⟩ := isFinite_iff.mp hb
  have hE : -1074 ≤ min e₁ e₂ := le_min (WF_exp wa) (WF_exp wb)
  have hv : (((sval s₁ m₁ e₁ (min e₁ e₂) + sval s₂ m₂ e₂ (min e₁ e₂) : ℤ) : ℚ)) * 2 ^ min e₁ e₂
      = dval s₁ m₁ e₁ + dval s₂ m₂ e₂ := by
    rw [Int.cast_add, add_mul, sval_cast _ _ (min_le_left _ _), sval_cast _ _ (min_le_right _ _)]
  rw [toRat_fin, toRat_fin, ← hv] at h ⊢
  unfold add
  dsimp only
  by_cases hc : sval s₁ m₁ e₁ (min e₁ e₂) + sval s₂ m₂ e₂ (min e₁ e₂) = 0
  · rw [if_pos hc, hc]
    refine ⟨rfl, ?_⟩
    simp [toRat]
  · rw [if_neg hc]
    rw [← dval_int, abs_dval] at h ⊢
    refine round_error_of _ _ _ h (rv_rel_error_of_exp _ hE) ?_
    have := tp_pos (-1075 : ℤ)
    linarith

/-- The error of a difference of binary64 values: at most `2^-53` of it. -/
theorem sub_error {a b : F64} (ha : a.isFinite = true) (hb : b.isFinite = true)
    (wa : WF a) (wb : WF b) (h : |toRat a - toRat b| ≤ 2 ^ (1023 : ℤ)) :
    (sub a b).isFinite = true
      ∧ |toRat (sub a b) - (toRat a - toRat b)| ≤ 2 ^ (-53 : ℤ) * |toRat a - toRat b| := by
  have hb' : (neg b).isFinite = true := (isFinite_neg b).trans hb
  have e : toRat a + toRat (neg b) = toRat a - toRat b := by rw [toRat_neg]; ring
  have := add_error ha hb' wa (WF_neg wb) (by rw [e]; exact h)
  rw [e] at this
  exact this

/-- The conversion of an `int64` is within `2^-53` of the integer. -/
theorem ofInt_error (i : ℤ) (h : i.natAbs < 2 ^ 64) :
    |toRat (ofInt i) - (i : ℚ)| ≤ 2 ^ (-53 : ℤ) * |(i : ℚ)| := by
  have hb : ((i.natAbs : ℕ) : ℚ) * 2 ^ (0 : ℤ) ≤ 2 ^ (1023 : ℤ) := by
    have h1 : ((i.natAbs : ℕ) : ℚ) ≤ ((2 ^ 64 : ℕ) : ℚ) := by exact_mod_cast h.le
    rw [tp_nat] at h1
    have h2 : (2 : ℚ) ^ ((64 : ℕ) : ℤ) ≤ 2 ^ (1023 : ℤ) := tp_mono (by norm_num)
    simp only [zpow_zero, mul_one]
    linarith
  have hs := tp_pos (-1075 : ℤ)
  have := (round_error_of (decide (i < 0)) i.natAbs 0 hb
    (rv_rel_error_of_exp _ (by norm_num)) (by linarith)).2
  rw [dval_int] at this
  have e : |(i : ℚ)| = ((i.natAbs : ℕ) : ℚ) := by
    rw [Nat.cast_natAbs]; push_cast; rfl
  simpa [ofInt, e] using this

end F64

/-! ## The branch-free formula against the explicit branch -/

theorem two_sided {y v e : ℚ} (h : |y - v| ≤ e) : v - e ≤ y ∧ y ≤ v + e := by
  have := abs_le.mp h
  constructor <;> linarith

theorem abs_bounds (v : ℚ) : -|v| ≤ v ∧ v ≤ |v| := ⟨neg_abs_le v, le_abs_self v⟩

/-- Size of `t - p` for a rounded product `p` of `a * h`. -/
theorem size_sub_prod {K η t ah p : ℚ} (hη1 : η ≤ 1 / 2) (hK : 1 ≤ K)
    (bt : |t| ≤ K) (bah : |ah| ≤ K)
    (ep : |p - ah| ≤ 1 / 9007199254740992 * |ah| + η) :
    |t - p| ≤ 3 * K := by
  obtain ⟨p1, p2⟩ := two_sided ep
  obtain ⟨a1, a2⟩ := abs_bounds ah
  obtain ⟨t1, t2⟩ := abs_bounds t
  rw [abs_le]
  constructor <;> linarith

/-- Size of `q + Y` for rounded `q` of `a * x` and `Y` of `t - p`. -/
theorem size_add_code {K η t ah ax p Y q : ℚ} (hη1 : η ≤ 1 / 2) (hK : 1 ≤ K)
    (bt : |t| ≤ K) (bah : |ah| ≤ K) (bax : |ax| ≤ K)
    (ep : |p - ah| ≤ 1 / 9007199254740992 * |ah| + η)
    (eY : |Y - (t - p)| ≤ 1 / 9007199254740992 * |t - p|)
    (eq : |q - ax| ≤ 1 / 9007199254740992 * |ax| + η) :
    |q + Y| ≤ 8 * K := by
  have sz := size_sub_prod hη1 hK bt bah ep
  obtain ⟨y1, y2⟩ := two_sided eY
  obtain ⟨q1, q2⟩ := two_sided eq
  obtain ⟨d1, d2⟩ := abs_bounds (t - p)
  obtain ⟨x1, x2⟩ := abs_bounds ax
  rw [abs_le]
  constructor <;> linarith

/-- The linear value of the code against the exact one. -/
theorem err_code {η t ah ax p Y q w : ℚ}
    (ep : |p - ah| ≤ 1 / 9007199254740992 * |ah| + η)
    (eY : |Y - (t - p)| ≤ 1 / 9007199254740992 * |t - p|)
    (eq : |q - ax| ≤ 1 / 9007199254740992 * |ax| + η)
    (ew : |w - (q + Y)| ≤ 1 / 9007199254740992 * |q + Y|) :
    |w - (t + (ax - ah))| ≤ 1 / 1125899906842624 * (|t| + |ax| + |ah|) + 4 * η := by
  obtain ⟨p1, p2⟩ := two_sided ep
  obtain ⟨y1, y2⟩ := two_sided eY
  obtain ⟨q1, q2⟩ := two_sided eq
  obtain ⟨w1, w2⟩ := two_sided ew
  obtain ⟨a1, a2⟩ := abs_bounds ah
  obtain ⟨x1, x2⟩ := abs_bounds ax
  obtain ⟨t1, t2⟩ := abs_bounds t
  have bd : |t - p| ≤ |t| + |ah| + (1 / 9007199254740992 * |ah| + η) := by
    rw [abs_le]; constructor <;> linarith
  obtain ⟨d1, d2⟩ := abs_bounds (t - p)
  have bs : |q + Y| ≤ 2 * (|t| + |ax| + |ah|) + 3 * η := by
    rw [abs_le]; constructor <;> linarith
  rw [abs_le]
  constructor <;> linarith

/-- Size of `t + m` for a rounded product `m` of `ad`, itself near `ax - ah`. -/
theorem size_add_ref {K η t ah ax ad m : ℚ} (hη1 : η ≤ 1 / 2) (hK : 1 ≤ K)
    (bt : |t| ≤ K) (bah : |ah| ≤ K) (bax : |ax| ≤ K)
    (ead : |ad - (ax - ah)| ≤ 1 / 9007199254740992 * (|ax| + |ah|))
    (em : |m - ad| ≤ 1 / 9007199254740992 * |ad| + η) :
    |ad| ≤ 4 * K ∧ |t + m| ≤ 8 * K := by
  obtain ⟨d1, d2⟩ := two_sided ead
  obtain ⟨m1, m2⟩ := two_sided em
  obtain ⟨a1, a2⟩ := abs_bounds ah
  obtain ⟨x1, x2⟩ := abs_bounds ax
  obtain ⟨t1, t2⟩ := abs_bounds t
  have b1 : |ad| ≤ 4 * K := by
    rw [abs_le]; constructor <;> linarith
  obtain ⟨e1, e2⟩ := abs_bounds ad
  refine ⟨b1, ?_⟩
  rw [abs_le]
  constructor <;> linarith

/-- The value of the explicit branch against the exact one. -/
theorem err_ref {η t ah ax ad m r : ℚ} (hη0 : 0 ≤ η)
    (ead : |ad - (ax - ah)| ≤ 1 / 9007199254740992 * (|ax| + |ah|))
    (em : |m - ad| ≤ 1 / 9007199254740992 * |ad| + η)
    (er : |r - (t + m)| ≤ 1 / 9007199254740992 * |t + m|) :
    |r - (t + (ax - ah))| ≤ 1 / 1125899906842624 * (|t| + |ax| + |ah|) + 4 * η := by
  obtain ⟨d1, d2⟩ := two_sided ead
  obtain ⟨m1, m2⟩ := two_sided em
  obtain ⟨r1, r2⟩ := two_sided er
  obtain ⟨a1, a2⟩ := abs_bounds ah
  obtain ⟨x1, x2⟩ := abs_bounds ax
  obtain ⟨t1, t2⟩ := abs_bounds t
  have b1 : |ad| ≤ 2 * (|ax| + |ah|) := by
    rw [abs_le]; constructor <;> linarith
  obtain ⟨e1, e2⟩ := abs_bounds ad
  have b2 : |t + m| ≤ |t| + 4 * (|ax| + |ah|) + η := by
    rw [abs_le]; constructor <;> linarith
  rw [abs_le]
  constructor <;> linarith

/-- The linear value of the code and the value of the explicit branch, both
computed in `float64` from fields of moderate size, are finite and lie within a
few rounding errors of the exact `t + a * (x - h)`. -/
theorem linear_values_close {S H T x : F64} (wH : H.WF) (wT : T.WF) (wx : x.WF)
    (hS : S.isFinite = true) (hH : H.isFinite = true) (hT : T.isFinite = true)
    (hx : x.isFinite = true)
    (bS : |F64.toRat S| ≤ 2 ^ (400 : ℤ)) (bH : |F64.toRat H| ≤ 2 ^ (500 : ℤ))
    (bT : |F64.toRat T| ≤ 2 ^ (500 : ℤ)) (bx : |F64.toRat x| ≤ 2 ^ (64 : ℤ)) :
    (F64.add (F64.mul S x) (F64.sub T (F64.mul S H))).isFinite = true
      ∧ (F64.add T (F64.mul S (F64.sub x H))).isFinite = true
      ∧ |F64.toRat (F64.add (F64.mul S x) (F64.sub T (F64.mul S H)))
          - (F64.toRat T + (F64.toRat S * F64.toRat x - F64.toRat S * F64.toRat H))|
          ≤ 2 ^ (-50 : ℤ) * (|F64.toRat T| + |F64.toRat S * F64.toRat x|
              + |F64.toRat S * F64.toRat H|) + 4 * 2 ^ (-1075 : ℤ)
      ∧ |F64.toRat (F64.add T (F64.mul S (F64.sub x H)))
          - (F64.toRat T + (F64.toRat S * F64.toRat x - F64.toRat S * F64.toRat H))|
          ≤ 2 ^ (-50 : ℤ) * (|F64.toRat T| + |F64.toRat S * F64.toRat x|
              + |F64.toRat S * F64.toRat H|) + 4 * 2 ^ (-1075 : ℤ) := by
  -- the numbers
  have hu : (2 : ℚ) ^ (-53 : ℤ) = 1 / 9007199254740992 := by norm_num
  have hu' : (2 : ℚ) ^ (-50 : ℤ) = 1 / 1125899906842624 := by norm_num
  have hη0 : (0 : ℚ) ≤ 2 ^ (-1075 : ℤ) := (F64.tp_pos _).le
  have hη1 : (2 : ℚ) ^ (-1075 : ℤ) ≤ 1 / 2 := by
    rw [show (1 / 2 : ℚ) = 2 ^ (-1 : ℤ) by norm_num]
    exact F64.tp_mono (by norm_num)
  have hK : (1 : ℚ) ≤ 2 ^ (901 : ℤ) := by
    rw [show (1 : ℚ) = 2 ^ (0 : ℤ) by norm_num]
    exact F64.tp_mono (by norm_num)
  have hKP : ∀ {v : ℚ}, v ≤ 8 * 2 ^ (901 : ℤ) → v ≤ 2 ^ (1023 : ℤ) := by
    intro v hv
    refine hv.trans ?_
    rw [show (8 : ℚ) = 2 ^ (3 : ℤ) by norm_num, ← F64.tp_add]
    exact F64.tp_mono (by norm_num)
  have hKpos : (0 : ℚ) ≤ 2 ^ (901 : ℤ) := (F64.tp_pos _).le
  -- sizes of the exact products
  have bah : |F64.toRat S * F64.toRat H| ≤ 2 ^ (901 : ℤ) := by
    rw [abs_mul]
    calc |F64.toRat S| * |F64.toRat H| ≤ 2 ^ (400 : ℤ) * 2 ^ (500 : ℤ) :=
          mul_le_mul bS bH (abs_nonneg _) (F64.tp_pos _).le
      _ = 2 ^ (900 : ℤ) := by rw [← F64.tp_add]; norm_num
      _ ≤ 2 ^ (901 : ℤ) := F64.tp_mono (by norm_num)
  have bax : |F64.toRat S * F64.toRat x| ≤ 2 ^ (901 : ℤ) := by
    rw [abs_mul]
    calc |F64.toRat S| * |F64.toRat x| ≤ 2 ^ (400 : ℤ) * 2 ^ (64 : ℤ) :=
          mul_le_mul bS bx (abs_nonneg _) (F64.tp_pos _).le
      _ = 2 ^ (464 : ℤ) := by rw [← F64.tp_add]; norm_num
      _ ≤ 2 ^ (901 : ℤ) := F64.tp_mono (by norm_num)
  have bt : |F64.toRat T| ≤ 2 ^ (901 : ℤ) := bT.trans (F64.tp_mono (by norm_num))
  have bh : |F64.toRat H| ≤ 2 ^ (901 : ℤ) := bH.trans (F64.tp_mono (by norm_num))
  have bx' : |F64.toRat x| ≤ 2 ^ (901 : ℤ) := bx.trans (F64.tp_mono (by norm_num))
  -- the code: p = S * H, Y = T - p, q = S * x, w = q + Y
  obtain ⟨fp, ep⟩ := F64.mul_error hS hH (hKP (by linarith only [bah, hKpos]))
  rw [hu] at ep
  obtain ⟨fY, eY⟩ := F64.sub_error hT fp wT (F64.WF_mul _ _)
    (hKP (by linarith only [size_sub_prod hη1 hK bt bah ep, hKpos]))
  rw [hu] at eY
  obtain ⟨fq, eq⟩ := F64.mul_error hS hx (hKP (by linarith only [bax, hKpos]))
  rw [hu] at eq
  obtain ⟨fw, ew⟩ := F64.add_error fq fY (F64.WF_mul _ _) (F64.WF_add _ _)
    (hKP (size_add_code hη1 hK bt bah bax ep eY eq))
  rw [hu] at ew
  -- the branch: d = x - H, m = S * d, r = T + m
  have szd : |F64.toRat x - F64.toRat H| ≤ 8 * 2 ^ (901 : ℤ) := by
    have := abs_sub (F64.toRat x) (F64.toRat H)
    linarith only [this, bx', bh, hKpos]
  obtain ⟨fd, ed⟩ := F64.sub_error hx hH wx wH (hKP szd)
  rw [hu] at ed
  have ead : |F64.toRat S * F64.toRat (F64.sub x H)
        - (F64.toRat S * F64.toRat x - F64.toRat S * F64.toRat H)|
      ≤ 1 / 9007199254740992
        * (|F64.toRat S * F64.toRat x| + |F64.toRat S * F64.toRat H|) := by
    have e1 : F64.toRat S * F64.toRat (F64.sub x H)
        - (F64.toRat S * F64.toRat x - F64.toRat S * F64.toRat H)
        = F64.toRat S * (F64.toRat (F64.sub x H) - (F64.toRat x - F64.toRat H)) := by ring
    have e2 : |F64.toRat S| * |F64.toRat x - F64.toRat H|
        ≤ |F64.toRat S * F64.toRat x| + |F64.toRat S * F64.toRat H| := by
      rw [← abs_mul, mul_sub]
      exact abs_sub _ _
    rw [e1, abs_mul]
    calc |F64.toRat S| * |F64.toRat (F64.sub x H) - (F64.toRat x - F64.toRat H)|
        ≤ |F64.toRat S| * (1 / 9007199254740992 * |F64.toRat x - F64.toRat H|) :=
          mul_le_mul_of_nonneg_left ed (abs_nonneg _)
      _ = 1 / 9007199254740992 * (|F64.toRat S| * |F64.toRat x - F64.toRat H|) := by ring
      _ ≤ 1 / 9007199254740992
          * (|F64.toRat S * F64.toRat x| + |F64.toRat S * F64.toRat H|) :=
          mul_le_mul_of_nonneg_left e2 (by norm_num)
  have sad : |F64.toRat S * F64.toRat (F64.sub x H)| ≤ 8 * 2 ^ (901 : ℤ) := by
    have h1 := two_sided ead
    have h2 := abs_bounds (F64.toRat S * F64.toRat x)
    have h3 := abs_bounds (F64.toRat S * F64.toRat H)
    rw [abs_le]
    constructor <;> linarith only [h1.1, h1.2, h2.1, h2.2, h3.1, h3.2, bax, bah, hKpos]
  obtain ⟨fm, em⟩ := F64.mul_error hS fd (hKP sad)
  rw [hu] at em
  obtain ⟨fr, er⟩ := F64.add_error hT fm wT (F64.WF_mul _ _)
    (hKP (size_add_ref hη1 hK bt bah bax ead em).2)
  rw [hu] at er
  rw [hu']
  exact ⟨fw, fr, err_code ep eY eq ew, err_ref hη0 ead em er⟩

/-- A capped value against a value at or below the cap: two values within `E`
of the same exact value `V ≤ t`. -/
theorem cap_close {t w r V E : ℚ} (hw : |w - V| ≤ E) (hr : |r - V| ≤ E) (hV : V ≤ t) :
    |min w t - r| ≤ 2 * E := by
  obtain ⟨w1, w2⟩ := two_sided hw
  obtain ⟨r1, r2⟩ := two_sided hr
  rw [abs_le]
  rcases le_total w t with h | h
  · rw [min_eq_left h]; constructor <;> linarith
  · rw [min_eq_right h]; constructor <;> linarith

/-- A capped value against the cap: a value within `E` of an exact value
`V ≥ t`. -/
theorem cap_close_threshold {t w V E : ℚ} (hw : |w - V| ≤ E) (hV : t ≤ V) :
    |min w t - t| ≤ 2 * E := by
  obtain ⟨w1, w2⟩ := two_sided hw
  have hE : 0 ≤ E := (abs_nonneg _).trans hw
  rw [abs_le]
  rcases le_total w t with h | h
  · rw [min_eq_left h]; constructor <;> linarith
  · rw [min_eq_right h]; constructor <;> linarith

/-- The converted elapsed time is at most `2^64` in size. -/
theorem abs_toRat_elapsed (x : Int) :
    |F64.toRat (F64.ofInt (wrapInt64 x))| ≤ 2 ^ (64 : ℤ) := by
  have h := F64.ofInt_error (wrapInt64 x) (natAbs_wrapInt64_lt x)
  obtain ⟨r1, r2⟩ := wrapInt64_range x
  have hb : |((wrapInt64 x : ℤ) : ℚ)| ≤ 9223372036854775808 := by
    rw [abs_le]
    constructor
    · exact_mod_cast r1
    · exact_mod_cast r2.le
  rw [show (2 : ℚ) ^ (-53 : ℤ) = 1 / 9007199254740992 by norm_num] at h
  rw [show (2 : ℚ) ^ (64 : ℤ) = 18446744073709551616 by norm_num]
  obtain ⟨h1, h2⟩ := two_sided h
  obtain ⟨a1, a2⟩ := abs_bounds ((wrapInt64 x : ℤ) : ℚ)
  rw [abs_le]
  constructor <;> linarith

/-- The value of a cap of two finite values is the smaller value. -/
theorem toRat_capAt {T w : F64} (wT : T.WF) (ww : w.WF) (hT : T.isFinite = true)
    (hw : w.isFinite = true) :
    (capAt T w).isFinite = true ∧ F64.toRat (capAt T w) = min (F64.toRat w) (F64.toRat T) := by
  have hc : (capAt T w).isFinite = true := by
    unfold capAt
    split <;> assumption
  have := (F64.key_capAt (F64.ne_nan_of_isFinite hT) (F64.ne_nan_of_isFinite hw) wT ww).2.2
  rw [F64.key_eq_toRat hc, F64.key_eq_toRat hT, F64.key_eq_toRat hw] at this
  exact ⟨hc, this⟩

namespace F64

/-! ## The fused multiply-add -/

theorem fma_fin (s₁ : Bool) (m₁ : ℕ) (e₁ : ℤ) (s₂ : Bool) (m₂ : ℕ) (e₂ : ℤ) (s₃ : Bool)
    (m₃ : ℕ) (e₃ : ℤ) :
    fma (fin s₁ m₁ e₁) (fin s₂ m₂ e₂) (fin s₃ m₃ e₃)
      = if sval (s₁ != s₂) (m₁ * m₂) (e₁ + e₂) (min (e₁ + e₂) e₃)
            + sval s₃ m₃ e₃ (min (e₁ + e₂) e₃) = 0
        then fin ((s₁ != s₂) && s₃) 0 (-1074)
        else round
          (decide (sval (s₁ != s₂) (m₁ * m₂) (e₁ + e₂) (min (e₁ + e₂) e₃)
            + sval s₃ m₃ e₃ (min (e₁ + e₂) e₃) < 0))
          (sval (s₁ != s₂) (m₁ * m₂) (e₁ + e₂) (min (e₁ + e₂) e₃)
            + sval s₃ m₃ e₃ (min (e₁ + e₂) e₃)).natAbs
          (min (e₁ + e₂) e₃) := rfl

theorem dval_mul (s₁ : Bool) (m₁ : ℕ) (e₁ : ℤ) (s₂ : Bool) (m₂ : ℕ) (e₂ : ℤ) :
    dval (s₁ != s₂) (m₁ * m₂) (e₁ + e₂) = dval s₁ m₁ e₁ * dval s₂ m₂ e₂ := by
  unfold dval
  rw [sgn_bne, tp_add]
  push_cast
  ring

theorem fma_exact (s₁ : Bool) (m₁ : ℕ) (e₁ : ℤ) (s₂ : Bool) (m₂ : ℕ) (e₂ : ℤ) (s₃ : Bool)
    (m₃ : ℕ) (e₃ : ℤ) :
    (((sval (s₁ != s₂) (m₁ * m₂) (e₁ + e₂) (min (e₁ + e₂) e₃)
        + sval s₃ m₃ e₃ (min (e₁ + e₂) e₃) : ℤ) : ℚ)) * 2 ^ min (e₁ + e₂) e₃
      = dval s₁ m₁ e₁ * dval s₂ m₂ e₂ + dval s₃ m₃ e₃ := by
  rw [Int.cast_add, add_mul, sval_cast _ _ (min_le_left _ _), sval_cast _ _ (min_le_right _ _),
    dval_mul]

/-- A fused multiply-add of finite values is the rounding of the exact
`x * y + z`. -/
theorem rounds_fma {a b c : F64} (ha : a.isFinite = true) (hb : b.isFinite = true)
    (hc : c.isFinite = true) : Rounds (toRat a * toRat b + toRat c) (fma a b c) := by
  obtain ⟨s₁, m₁, e₁, rfl⟩ := isFinite_iff.mp ha
  obtain ⟨s₂, m₂, e₂, rfl⟩ := isFinite_iff.mp hb
  obtain ⟨s₃, m₃, e₃, rfl⟩ := isFinite_iff.mp hc
  rw [toRat_fin, toRat_fin, toRat_fin, ← fma_exact, fma_fin]
  by_cases h0 : sval (s₁ != s₂) (m₁ * m₂) (e₁ + e₂) (min (e₁ + e₂) e₃)
      + sval s₃ m₃ e₃ (min (e₁ + e₂) e₃) = 0
  · rw [if_pos h0, h0]
    refine ⟨by simp, false, 0, 0, by simp [dval], ?_⟩
    rw [key_fin, rkey, rv_zero]
    simp [dval, min_eq_left (tp_pos (1024 : ℤ)).le]
  · rw [if_neg h0, ← dval_int]
    exact rounds_round _ _ _

theorem WF_fma (a b c : F64) : WF (fma a b c) := by
  cases a with
  | nan => cases b <;> cases c <;> trivial
  | inf s =>
    cases b with
    | nan => cases c <;> trivial
    | inf t =>
      cases c with
      | nan => trivial
      | inf u => exact WF_add (inf (s != t)) (inf u)
      | fin u n f => exact WF_add (inf (s != t)) (fin u n f)
    | fin t m e =>
      cases c with
      | nan => trivial
      | inf u => simp only [fma]; split; trivial; exact WF_add _ _
      | fin u n f => simp only [fma]; split; trivial; exact WF_add _ _
  | fin s m e =>
    cases b with
    | nan => cases c <;> trivial
    | inf t =>
      cases c with
      | nan => trivial
      | inf u => simp only [fma]; split; trivial; exact WF_add _ _
      | fin u n f => simp only [fma]; split; trivial; exact WF_add _ _
    | fin t n f =>
      cases c with
      | nan => trivial
      | inf u => trivial
      | fin u k g =>
        rw [fma_fin]
        split
        · exact WF_zero _
        · exact WF_round _ _ _

/-- The error of a fused multiply-add: at most `2^-53` of the exact result, and
half the smallest subnormal step. -/
theorem fma_error {a b c : F64} (ha : a.isFinite = true) (hb : b.isFinite = true)
    (hc : c.isFinite = true) (h : |toRat a * toRat b + toRat c| ≤ 2 ^ (1023 : ℤ)) :
    (fma a b c).isFinite = true
      ∧ |toRat (fma a b c) - (toRat a * toRat b + toRat c)|
          ≤ 2 ^ (-53 : ℤ) * |toRat a * toRat b + toRat c| + 2 ^ (-1075 : ℤ) := by
  obtain ⟨s₁, m₁, e₁, rfl⟩ := isFinite_iff.mp ha
  obtain ⟨s₂, m₂, e₂, rfl⟩ := isFinite_iff.mp hb
  obtain ⟨s₃, m₃, e₃, rfl⟩ := isFinite_iff.mp hc
  rw [toRat_fin, toRat_fin, toRat_fin, ← fma_exact] at h ⊢
  rw [fma_fin]
  by_cases h0 : sval (s₁ != s₂) (m₁ * m₂) (e₁ + e₂) (min (e₁ + e₂) e₃)
      + sval s₃ m₃ e₃ (min (e₁ + e₂) e₃) = 0
  · rw [if_pos h0, h0]
    refine ⟨rfl, ?_⟩
    have := tp_pos (-1075 : ℤ)
    simp only [toRat, Int.cast_zero, zero_mul, abs_zero, mul_zero, zero_add]
    norm_num
  · rw [if_neg h0]
    rw [← dval_int, abs_dval] at h ⊢
    exact round_error_of _ _ _ h (rv_rel_error _ _) le_rfl

/-- An integer below `2^53` in magnitude converts without error. -/
theorem toRat_ofInt_exact {i : ℤ} (h : i.natAbs < 2 ^ 53) : toRat (ofInt i) = (i : ℚ) := by
  have hf : (ofInt i).isFinite = true :=
    isFinite_ofInt (lt_of_lt_of_le h (Nat.pow_le_pow_right (by norm_num) (by norm_num)))
  have hb : bitLen i.natAbs ≤ 53 := bitLen_le_of_lt_pow h
  have hq : quantum i.natAbs 0 ≤ 0 := max_le (by omega) (by norm_num)
  have hlt : ((i.natAbs : ℕ) : ℚ) * 2 ^ (0 : ℤ) ≤ 2 ^ (1024 : ℤ) := by
    have h1 : ((i.natAbs : ℕ) : ℚ) ≤ ((2 ^ 53 : ℕ) : ℚ) := by exact_mod_cast h.le
    rw [tp_nat] at h1
    have h2 : (2 : ℚ) ^ ((53 : ℕ) : ℤ) ≤ 2 ^ (1024 : ℤ) := tp_mono (by norm_num)
    simp only [zpow_zero, mul_one]
    linarith
  rw [← key_eq_toRat hf]
  unfold ofInt
  rw [key_round, rkey, rv_exact hq, min_eq_left hlt, ← mul_assoc]
  have := dval_int i 0
  unfold dval at this
  rw [this]
  simp

/-! ## The linear expression under either evaluation -/

theorem WF_mulAdd (fused : Bool) (x y z : F64) : WF (mulAdd fused x y z) := by
  unfold mulAdd
  split
  · exact WF_fma _ _ _
  · exact WF_add _ _

/-- With a multiplier that is not negative, `x * y + z` keeps the order of
`y`, under either evaluation. -/
theorem key_mulAdd_mono (fused : Bool) {s x y z : F64} (hs : s.isFinite = true)
    (hpos : 0 ≤ toRat s) (hz : z.isFinite = true) (hx : x.isFinite = true)
    (hy : y.isFinite = true) (h : key x ≤ key y) :
    mulAdd fused s x z ≠ nan ∧ mulAdd fused s y z ≠ nan
      ∧ key (mulAdd fused s x z) ≤ key (mulAdd fused s y z) := by
  cases fused with
  | false =>
    exact key_add_mono (mul_ne_nan hs hx) (mul_ne_nan hs hy) (WF_mul _ _) (WF_mul _ _) hz
      (key_mul_mono hs hpos hx hy h)
  | true =>
    refine ⟨(rounds_fma hs hx hz).ne_nan, (rounds_fma hs hy hz).ne_nan, ?_⟩
    apply (rounds_fma hs hx hz).mono (rounds_fma hs hy hz)
    rw [key_eq_toRat hx, key_eq_toRat hy] at h
    have := mul_le_mul_of_nonneg_left h hpos
    linarith

/-- With a multiplier that is not positive, `x * y + z` reverses the order of
`y`, under either evaluation. -/
theorem key_mulAdd_anti (fused : Bool) {s x y z : F64} (hs : s.isFinite = true)
    (hneg : toRat s ≤ 0) (hz : z.isFinite = true) (hx : x.isFinite = true)
    (hy : y.isFinite = true) (h : key x ≤ key y) :
    mulAdd fused s y z ≠ nan ∧ mulAdd fused s x z ≠ nan
      ∧ key (mulAdd fused s y z) ≤ key (mulAdd fused s x z) := by
  cases fused with
  | false =>
    exact key_add_mono (mul_ne_nan hs hy) (mul_ne_nan hs hx) (WF_mul _ _) (WF_mul _ _) hz
      (key_mul_anti hs hneg hx hy h)
  | true =>
    refine ⟨(rounds_fma hs hy hz).ne_nan, (rounds_fma hs hx hz).ne_nan, ?_⟩
    apply (rounds_fma hs hy hz).mono (rounds_fma hs hx hz)
    rw [key_eq_toRat hx, key_eq_toRat hy] at h
    have := mul_le_mul_of_nonpos_left h hneg
    linarith

/-- Operands at one position give results at one position. -/
theorem key_mulAdd_congr (fused : Bool) {s x y z : F64} (hs : s.isFinite = true)
    (hz : z.isFinite = true) (hx : x.isFinite = true) (hy : y.isFinite = true)
    (h : key x = key y) :
    mulAdd fused s x z ≠ nan ∧ mulAdd fused s y z ≠ nan
      ∧ key (mulAdd fused s x z) = key (mulAdd fused s y z) := by
  rcases le_total 0 (toRat s) with h0 | h0
  · have a := key_mulAdd_mono fused hs h0 hz hx hy h.le
    have b := key_mulAdd_mono fused hs h0 hz hy hx h.ge
    exact ⟨a.1, a.2.1, le_antisymm a.2.2 b.2.2⟩
  · have a := key_mulAdd_anti fused hs h0 hz hx hy h.le
    have b := key_mulAdd_anti fused hs h0 hz hy hx h.ge
    exact ⟨a.2.1, a.1, le_antisymm b.2.2 a.2.2⟩

end F64

/-- Two roundings against the exact `ax + y`: the product first, then the
sum. -/
theorem err_two_roundings {η ax y q w : ℚ}
    (eq : |q - ax| ≤ 1 / 9007199254740992 * |ax| + η)
    (ew : |w - (q + y)| ≤ 1 / 9007199254740992 * |q + y|) :
    |w - (ax + y)| ≤ 1 / 2251799813685248 * (|ax| + |y|) + 2 * η := by
  obtain ⟨q1, q2⟩ := two_sided eq
  obtain ⟨w1, w2⟩ := two_sided ew
  obtain ⟨x1, x2⟩ := abs_bounds ax
  obtain ⟨y1, y2⟩ := abs_bounds y
  have bs : |q + y| ≤ 2 * (|ax| + |y|) + η := by
    rw [abs_le]; constructor <;> linarith
  rw [abs_le]
  constructor <;> linarith

/-- Size of `q + y` for a rounded product `q` of `ax`. -/
theorem size_two_roundings {K η ax y q : ℚ} (hη1 : η ≤ 1 / 2) (hK : 1 ≤ K)
    (bax : |ax| ≤ K) (by' : |y| ≤ K)
    (eq : |q - ax| ≤ 1 / 9007199254740992 * |ax| + η) :
    |q + y| ≤ 4 * K := by
  obtain ⟨q1, q2⟩ := two_sided eq
  obtain ⟨x1, x2⟩ := abs_bounds ax
  obtain ⟨y1, y2⟩ := abs_bounds y
  rw [abs_le]
  constructor <;> linarith

/-- One rounding against the exact `ax + y`. -/
theorem err_one_rounding {η ax y w : ℚ} (hη0 : 0 ≤ η)
    (ew : |w - (ax + y)| ≤ 1 / 9007199254740992 * |ax + y| + η) :
    |w - (ax + y)| ≤ 1 / 2251799813685248 * (|ax| + |y|) + 2 * η := by
  have h := abs_add ax y
  have h1 := abs_nonneg ax
  have h2 := abs_nonneg y
  refine ew.trans ?_
  linarith

/-- The linear expression of moderate size, under either evaluation, is finite
and within `2^-51 * (|x * y| + |z|) + 2^-1074` of the exact `x * y + z`. -/
theorem mulAdd_close (fused : Bool) {S x Y : F64} (wY : Y.WF)
    (hS : S.isFinite = true) (hx : x.isFinite = true) (hY : Y.isFinite = true)
    (bSx : |F64.toRat S * F64.toRat x| ≤ 2 ^ (1000 : ℤ))
    (bY : |F64.toRat Y| ≤ 2 ^ (1000 : ℤ)) :
    (F64.mulAdd fused S x Y).isFinite = true
      ∧ |F64.toRat (F64.mulAdd fused S x Y) - (F64.toRat S * F64.toRat x + F64.toRat Y)|
          ≤ 2 ^ (-51 : ℤ) * (|F64.toRat S * F64.toRat x| + |F64.toRat Y|)
            + 2 ^ (-1074 : ℤ) := by
  have hu : (2 : ℚ) ^ (-53 : ℤ) = 1 / 9007199254740992 := by norm_num
  have hu' : (2 : ℚ) ^ (-51 : ℤ) = 1 / 2251799813685248 := by norm_num
  have hη0 : (0 : ℚ) ≤ 2 ^ (-1075 : ℤ) := (F64.tp_pos _).le
  have hη1 : (2 : ℚ) ^ (-1075 : ℤ) ≤ 1 / 2 := by
    rw [show (1 / 2 : ℚ) = 2 ^ (-1 : ℤ) by norm_num]
    exact F64.tp_mono (by norm_num)
  have hη2 : (2 : ℚ) ^ (-1074 : ℤ) = 2 * 2 ^ (-1075 : ℤ) := by
    rw [show (-1074 : ℤ) = 1 + -1075 by norm_num, F64.tp_add]; norm_num
  have hK : (1 : ℚ) ≤ 2 ^ (1000 : ℤ) := by
    rw [show (1 : ℚ) = 2 ^ (0 : ℤ) by norm_num]
    exact F64.tp_mono (by norm_num)
  have hKP : ∀ {v : ℚ}, v ≤ 4 * 2 ^ (1000 : ℤ) → v ≤ 2 ^ (1023 : ℤ) := by
    intro v hv
    refine hv.trans ?_
    rw [show (4 : ℚ) = 2 ^ (2 : ℤ) by norm_num, ← F64.tp_add]
    exact F64.tp_mono (by norm_num)
  have hKpos : (0 : ℚ) ≤ 2 ^ (1000 : ℤ) := (F64.tp_pos _).le
  rw [hu', hη2]
  cases fused with
  | false =>
    obtain ⟨fq, eq⟩ := F64.mul_error hS hx (hKP (by linarith only [bSx, hKpos]))
    rw [hu] at eq
    obtain ⟨fw, ew⟩ := F64.add_error fq hY (F64.WF_mul _ _) wY
      (hKP (size_two_roundings hη1 hK bSx bY eq))
    rw [hu] at ew
    exact ⟨fw, err_two_roundings eq ew⟩
  | true =>
    have sz : |F64.toRat S * F64.toRat x + F64.toRat Y| ≤ 4 * 2 ^ (1000 : ℤ) := by
      have := abs_add (F64.toRat S * F64.toRat x) (F64.toRat Y)
      linarith only [this, bSx, bY, hKpos]
    obtain ⟨fw, ew⟩ := F64.fma_error hS hx hY (hKP sz)
    rw [hu] at ew
    exact ⟨fw, err_one_rounding hη0 ew⟩

/-! ## The weight under either evaluation -/

theorem ComputeWeightOn_false (p : MobilityProfile) (r l : Int) (isInDeepScan : Bool) :
    p.ComputeWeightOn false r l isInDeepScan = p.ComputeWeight r l isInDeepScan := rfl

theorem ComputeWeightOn_eq_capAt (fused : Bool) (p : MobilityProfile) (r l : Int) :
    p.ComputeWeightOn fused r l false
      = capAt p.Threshold (p.lineAtOn fused (F64.ofInt (wrapInt64 (r - l)))) := rfl

theorem WF_lineAtOn (fused : Bool) (p : MobilityProfile) (x : F64) : (p.lineAtOn fused x).WF :=
  F64.WF_mulAdd _ _ _ _

/-- The linear value at a converted elapsed time, for a slope of at most
`2^900` and an intercept of at most `2^1000` in size, is finite and within
`lineError` of the exact value. -/
theorem lineAtOn_close (fused : Bool) {p : MobilityProfile} (hw : p.WF)
    (hS : p.Slope.isFinite = true) (hY : p.YIntercept.isFinite = true)
    (bS : |F64.toRat p.Slope| ≤ 2 ^ (900 : ℤ)) (bY : |F64.toRat p.YIntercept| ≤ 2 ^ (1000 : ℤ))
    (i : Int) :
    (p.lineAtOn fused (F64.ofInt (wrapInt64 i))).isFinite = true
      ∧ |F64.toRat (p.lineAtOn fused (F64.ofInt (wrapInt64 i)))
          - p.exactLine (F64.ofInt (wrapInt64 i))| ≤ p.lineError (F64.ofInt (wrapInt64 i)) := by
  have bx := abs_toRat_elapsed i
  have bSx : |F64.toRat p.Slope * F64.toRat (F64.ofInt (wrapInt64 i))| ≤ 2 ^ (1000 : ℤ) := by
    rw [abs_mul]
    calc |F64.toRat p.Slope| * |F64.toRat (F64.ofInt (wrapInt64 i))|
        ≤ 2 ^ (900 : ℤ) * 2 ^ (64 : ℤ) := mul_le_mul bS bx (abs_nonneg _) (F64.tp_pos _).le
      _ = 2 ^ (964 : ℤ) := by rw [← F64.tp_add]; norm_num
      _ ≤ 2 ^ (1000 : ℤ) := F64.tp_mono (by norm_num)
  exact mulAdd_close fused hw.2.2.2 hS (isFinite_elapsed i) hY bSx bY

/-- A finite value below the cap passes it unchanged. -/
theorem capAt_of_lt {T w : F64} (wT : T.WF) (ww : w.WF) (hT : T.isFinite = true)
    (hw : w.isFinite = true) (h : F64.toRat w < F64.toRat T) :
    capAt T w = w ∧ F64.lt w T = true := by
  have hTn := F64.ne_nan_of_isFinite hT
  have hwn := F64.ne_nan_of_isFinite hw
  have hk : F64.key w < F64.key T := by
    rw [F64.key_eq_toRat hw, F64.key_eq_toRat hT]; exact h
  have hg : ¬ F64.gt w T = true := fun hg =>
    absurd ((F64.gt_iff_key hwn hTn ww wT).mp hg) (not_lt.mpr hk.le)
  refine ⟨by unfold capAt; rw [if_neg hg], ?_⟩
  exact (F64.lt_iff_key hwn hTn ww wT).mpr hk

/-- A finite value not below the cap comes out `==` to the cap. -/
theorem capAt_of_ge {T w : F64} (wT : T.WF) (ww : w.WF) (hT : T.isFinite = true)
    (hw : w ≠ F64.nan) (h : F64.key T ≤ F64.key w) :
    F64.eq (capAt T w) T = true := by
  have hTn := F64.ne_nan_of_isFinite hT
  obtain ⟨c1, w1, k1⟩ := F64.key_capAt hTn hw wT ww
  rw [F64.eq_iff_key c1 hTn w1 wT, k1]
  exact min_eq_right h

/-- Strictly below the threshold: the exact linear value lies below it by
more than the rounding error. -/
theorem ComputeWeightOn_lt_of_gap (fused : Bool) {p : MobilityProfile} (hw : p.WF)
    (hS : p.Slope.isFinite = true) (hT : p.Threshold.isFinite = true)
    (hY : p.YIntercept.isFinite = true)
    (bS : |F64.toRat p.Slope| ≤ 2 ^ (900 : ℤ)) (bY : |F64.toRat p.YIntercept| ≤ 2 ^ (1000 : ℤ))
    (r l : Int)
    (hgap : p.exactLine (F64.ofInt (wrapInt64 (r - l)))
        + p.lineError (F64.ofInt (wrapInt64 (r - l))) < F64.toRat p.Threshold) :
    F64.lt (p.ComputeWeightOn fused r l false) p.Threshold = true := by
  obtain ⟨fw, ew⟩ := lineAtOn_close fused hw hS hY bS bY (r - l)
  obtain ⟨_, w2⟩ := two_sided ew
  obtain ⟨c, hlt⟩ := capAt_of_lt hw.2.1 (WF_lineAtOn fused p _) hT fw
    (by linarith : F64.toRat (p.lineAtOn fused (F64.ofInt (wrapInt64 (r - l))))
      < F64.toRat p.Threshold)
  rw [ComputeWeightOn_eq_capAt, c]
  exact hlt

/-- At the threshold: the exact linear value lies above it by at least the
rounding error. -/
theorem ComputeWeightOn_eq_of_gap (fused : Bool) {p : MobilityProfile} (hw : p.WF)
    (hS : p.Slope.isFinite = true) (hT : p.Threshold.isFinite = true)
    (hY : p.YIntercept.isFinite = true)
    (bS : |F64.toRat p.Slope| ≤ 2 ^ (900 : ℤ)) (bY : |F64.toRat p.YIntercept| ≤ 2 ^ (1000 : ℤ))
    (r l : Int)
    (hgap : F64.toRat p.Threshold + p.lineError (F64.ofInt (wrapInt64 (r - l)))
        ≤ p.exactLine (F64.ofInt (wrapInt64 (r - l)))) :
    F64.eq (p.ComputeWeightOn fused r l false) p.Threshold = true := by
  obtain ⟨fw, ew⟩ := lineAtOn_close fused hw hS hY bS bY (r - l)
  obtain ⟨w1, _⟩ := two_sided ew
  rw [ComputeWeightOn_eq_capAt]
  apply capAt_of_ge hw.2.1 (WF_lineAtOn fused p _) hT (F64.ne_nan_of_isFinite fw)
  rw [F64.key_eq_toRat hT, F64.key_eq_toRat fw]
  linarith

/-- Strictly decreasing: the exact linear values of two elapsed times lie
apart by more than the two rounding errors, the later one below the
threshold. -/
theorem ComputeWeightOn_lt_of_gaps (fused : Bool) {p : MobilityProfile} (hw : p.WF)
    (hS : p.Slope.isFinite = true) (hT : p.Threshold.isFinite = true)
    (hY : p.YIntercept.isFinite = true)
    (bS : |F64.toRat p.Slope| ≤ 2 ^ (900 : ℤ)) (bY : |F64.toRat p.YIntercept| ≤ 2 ^ (1000 : ℤ))
    (r₁ l₁ r₂ l₂ : Int)
    (hgap : p.exactLine (F64.ofInt (wrapInt64 (r₂ - l₂)))
        + p.lineError (F64.ofInt (wrapInt64 (r₂ - l₂))) < F64.toRat p.Threshold)
    (hsep : p.exactLine (F64.ofInt (wrapInt64 (r₂ - l₂)))
        + p.lineError (F64.ofInt (wrapInt64 (r₂ - l₂)))
        < p.exactLine (F64.ofInt (wrapInt64 (r₁ - l₁)))
          - p.lineError (F64.ofInt (wrapInt64 (r₁ - l₁)))) :
    F64.lt (p.ComputeWeightOn fused r₂ l₂ false) (p.ComputeWeightOn fused r₁ l₁ false)
      = true := by
  obtain ⟨f1, e1⟩ := lineAtOn_close fused hw hS hY bS bY (r₁ - l₁)
  obtain ⟨f2, e2⟩ := lineAtOn_close fused hw hS hY bS bY (r₂ - l₂)
  obtain ⟨a1, _⟩ := two_sided e1
  obtain ⟨_, b2⟩ := two_sided e2
  have hTn := F64.ne_nan_of_isFinite hT
  obtain ⟨c2, _⟩ := capAt_of_lt hw.2.1 (WF_lineAtOn fused p _) hT f2
    (by linarith : F64.toRat (p.lineAtOn fused (F64.ofInt (wrapInt64 (r₂ - l₂))))
      < F64.toRat p.Threshold)
  obtain ⟨n1, w1, k1⟩ := F64.key_capAt hTn (F64.ne_nan_of_isFinite f1) hw.2.1
    (WF_lineAtOn fused p (F64.ofInt (wrapInt64 (r₁ - l₁))))
  rw [ComputeWeightOn_eq_capAt, ComputeWeightOn_eq_capAt, c2,
    F64.lt_iff_key (F64.ne_nan_of_isFinite f2) n1 (WF_lineAtOn fused p _) w1, k1,
    F64.key_eq_toRat f2, F64.key_eq_toRat f1, F64.key_eq_toRat hT, lt_min_iff]
  constructor <;> linarith

/-- With a slope that is not positive the weight does not increase along the
time axis, under either evaluation. -/
theorem lineAtOn_anti (fused : Bool) {p : MobilityProfile} (hs : p.Slope.isFinite = true)
    (hneg : F64.toRat p.Slope ≤ 0) (hy : p.YIntercept.isFinite = true) {x y : F64}
    (hx : x.isFinite = true) (hy' : y.isFinite = true) (h : F64.key x ≤ F64.key y) :
    p.lineAtOn fused y ≠ F64.nan ∧ p.lineAtOn fused x ≠ F64.nan
      ∧ F64.key (p.lineAtOn fused y) ≤ F64.key (p.lineAtOn fused x) :=
  F64.key_mulAdd_anti fused hs hneg hy hx hy' h

/-- With a slope that is not negative the weight does not decrease along the
time axis, under either evaluation. -/
theorem lineAtOn_mono (fused : Bool) {p : MobilityProfile} (hs : p.Slope.isFinite = true)
    (hpos : 0 ≤ F64.toRat p.Slope) (hy : p.YIntercept.isFinite = true) {x y : F64}
    (hx : x.isFinite = true) (hy' : y.isFinite = true) (h : F64.key x ≤ F64.key y) :
    p.lineAtOn fused x ≠ F64.nan ∧ p.lineAtOn fused y ≠ F64.nan
      ∧ F64.key (p.lineAtOn fused x) ≤ F64.key (p.lineAtOn fused y) :=
  F64.key_mulAdd_mono fused hs hpos hy hx hy' h

/-- Elapsed times at one position give linear values at one position, under
either evaluation. -/
theorem lineAtOn_congr (fused : Bool) {p : MobilityProfile} (hs : p.Slope.isFinite = true)
    (hy : p.YIntercept.isFinite = true) {x y : F64}
    (hx : x.isFinite = true) (hy' : y.isFinite = true) (h : F64.key x = F64.key y) :
    p.lineAtOn fused x ≠ F64.nan ∧ p.lineAtOn fused y ≠ F64.nan
      ∧ F64.key (p.lineAtOn fused x) = F64.key (p.lineAtOn fused y) :=
  F64.key_mulAdd_congr fused hs hy hx hy' h

/-- The last rounding of the boundary value rounds a number that is the
threshold: then the boundary value is the threshold. -/
theorem key_boundaryWeightOn_of_exact {p : MobilityProfile} (hw : p.WF)
    (hS : p.Slope.isFinite = true) (hH : p.HoldoffMillis.isFinite = true)
    (hT : p.Threshold.isFinite = true) (hY : p.YIntercept.isFinite = true) :
    (F64.toRat (F64.mul p.Slope p.HoldoffMillis) + F64.toRat p.YIntercept
        = F64.toRat p.Threshold → (F64.mul p.Slope p.HoldoffMillis).isFinite = true →
        F64.key (p.boundaryWeightOn false) = F64.key p.Threshold)
      ∧ (F64.toRat p.Slope * F64.toRat p.HoldoffMillis + F64.toRat p.YIntercept
        = F64.toRat p.Threshold →
        F64.key (p.boundaryWeightOn true) = F64.key p.Threshold) := by
  constructor
  · intro hx hP
    have h1 : F64.Rounds (F64.toRat p.Threshold) (p.boundaryWeightOn false) := by
      have := F64.rounds_add hP hY
      rw [hx] at this
      exact this
    exact h1.unique (F64.rounds_self hw.2.1 hT)
  · intro hx
    have h1 : F64.Rounds (F64.toRat p.Threshold) (p.boundaryWeightOn true) := by
      have := F64.rounds_fma hS hH hY
      rw [hx] at this
      exact this
    exact h1.unique (F64.rounds_self hw.2.1 hT)

/-! ## Where the decay exceeds the rounding error -/

/-- With a slope that is not positive, the gap below the threshold at an
elapsed time `x0 ≥ 0` is there at every later one. -/
theorem gap_beyond {p : MobilityProfile} {x : F64} {x0 : ℚ}
    (hs : F64.toRat p.Slope ≤ 0) (hx0 : 0 ≤ x0) (hx : x0 ≤ F64.toRat x)
    (h0 : F64.toRat p.Slope * x0 + F64.toRat p.YIntercept
        + (2 ^ (-51 : ℤ) * (-F64.toRat p.Slope * x0 + |F64.toRat p.YIntercept|)
          + 2 ^ (-1074 : ℤ)) < F64.toRat p.Threshold) :
    p.exactLine x + p.lineError x < F64.toRat p.Threshold := by
  unfold MobilityProfile.exactLine MobilityProfile.lineError
  have hxn : 0 ≤ F64.toRat x := hx0.trans hx
  rw [abs_of_nonpos (mul_nonpos_of_nonpos_of_nonneg hs hxn)]
  rw [show (2 : ℚ) ^ (-51 : ℤ) = 1 / 2251799813685248 by norm_num] at h0 ⊢
  have h1 : F64.toRat p.Slope * F64.toRat x ≤ F64.toRat p.Slope * x0 :=
    mul_le_mul_of_nonpos_left hx hs
  generalize (2 : ℚ) ^ (-1074 : ℤ) = η at h0 ⊢
  generalize |F64.toRat p.YIntercept| = Ya at h0 ⊢
  linarith

/-- With a slope that is not positive, two elapsed times at least `1` apart
and at most `B` have exact linear values further apart than the two rounding
errors, when the slope is large enough for `B`. -/
theorem gap_between {p : MobilityProfile} {x₁ x₂ : F64} {B : ℚ}
    (hs : F64.toRat p.Slope ≤ 0) (h1 : 0 ≤ F64.toRat x₁)
    (h12 : F64.toRat x₁ + 1 ≤ F64.toRat x₂) (h2 : F64.toRat x₂ ≤ B)
    (h0 : 2 ^ (-51 : ℤ) * (-F64.toRat p.Slope * (2 * B) + 2 * |F64.toRat p.YIntercept|)
        + 2 * 2 ^ (-1074 : ℤ) < -F64.toRat p.Slope) :
    p.exactLine x₂ + p.lineError x₂ < p.exactLine x₁ - p.lineError x₁ := by
  unfold MobilityProfile.exactLine MobilityProfile.lineError
  have h2n : 0 ≤ F64.toRat x₂ := by linarith
  rw [abs_of_nonpos (mul_nonpos_of_nonpos_of_nonneg hs h1),
    abs_of_nonpos (mul_nonpos_of_nonpos_of_nonneg hs h2n)]
  rw [show (2 : ℚ) ^ (-51 : ℤ) = 1 / 2251799813685248 by norm_num] at h0 ⊢
  have a1 : F64.toRat p.Slope * (F64.toRat x₂ - F64.toRat x₁) ≤ F64.toRat p.Slope * 1 :=
    mul_le_mul_of_nonpos_left (by linarith) hs
  have a2 : F64.toRat p.Slope * (2 * B) ≤ F64.toRat p.Slope * (F64.toRat x₁ + F64.toRat x₂) :=
    mul_le_mul_of_nonpos_left (by linarith) hs
  generalize (2 : ℚ) ^ (-1074 : ℤ) = η at h0 ⊢
  generalize |F64.toRat p.YIntercept| = Ya at h0 ⊢
  linarith

/-- With a slope that is not negative, the gap below the threshold at an
elapsed time `x0 ≥ 0` is there at every earlier one. -/
theorem gap_before {p : MobilityProfile} {x : F64} {x0 : ℚ}
    (hs : 0 ≤ F64.toRat p.Slope) (hx0 : 0 ≤ x0) (hx : F64.toRat x ≤ x0)
    (h0 : F64.toRat p.Slope * x0 + F64.toRat p.YIntercept
        + (2 ^ (-51 : ℤ) * (F64.toRat p.Slope * x0 + |F64.toRat p.YIntercept|)
          + 2 ^ (-1074 : ℤ)) < F64.toRat p.Threshold) :
    p.exactLine x + p.lineError x < F64.toRat p.Threshold := by
  unfold MobilityProfile.exactLine MobilityProfile.lineError
  rw [show (2 : ℚ) ^ (-51 : ℤ) = 1 / 2251799813685248 by norm_num] at h0 ⊢
  have h1 : F64.toRat p.Slope * F64.toRat x ≤ F64.toRat p.Slope * x0 :=
    mul_le_mul_of_nonneg_left hx hs
  have h3 : 0 ≤ F64.toRat p.Slope * x0 := mul_nonneg hs hx0
  have h2 : |F64.toRat p.Slope * F64.toRat x| ≤ F64.toRat p.Slope * x0
      - 2 * min (F64.toRat p.Slope * F64.toRat x) 0 := by
    rcases le_total 0 (F64.toRat x) with hp | hn
    · rw [abs_of_nonneg (mul_nonneg hs hp), min_eq_right (mul_nonneg hs hp)]
      linarith
    · have := mul_nonpos_of_nonneg_of_nonpos hs hn
      rw [abs_of_nonpos this, min_eq_left this]
      linarith
  have h4 : F64.toRat p.Slope * F64.toRat x
      ≤ F64.toRat p.Slope * x0 + min (F64.toRat p.Slope * F64.toRat x) 0 := by
    rcases le_total 0 (F64.toRat x) with hp | hn
    · rw [min_eq_right (mul_nonneg hs hp)]; linarith
    · rw [min_eq_left (mul_nonpos_of_nonneg_of_nonpos hs hn)]; linarith
  have h5 : min (F64.toRat p.Slope * F64.toRat x) 0 ≤ 0 := min_le_right _ _
  generalize (2 : ℚ) ^ (-1074 : ℤ) = η at h0 ⊢
  generalize |F64.toRat p.YIntercept| = Ya at h0 ⊢
  generalize |F64.toRat p.Slope * F64.toRat x| = A at h2 ⊢
  generalize min (F64.toRat p.Slope * F64.toRat x) 0 = m at h2 h4 h5
  linarith

/-- The converted elapsed time is not below a whole number below `2^53` that
the elapsed time is not below. -/
theorem le_toRat_ofInt {a e : Int} (ha : a.natAbs < 2 ^ 53) (he : e.natAbs < 2 ^ 64)
    (h : a ≤ e) : (a : ℚ) ≤ F64.toRat (F64.ofInt e) := by
  have := F64.key_ofInt_mono h
  rwa [F64.key_eq_toRat (F64.isFinite_ofInt he),
    F64.key_eq_toRat (F64.isFinite_ofInt (lt_of_lt_of_le ha
      (Nat.pow_le_pow_right (by norm_num) (by norm_num)))),
    F64.toRat_ofInt_exact ha] at this

/-- The converted elapsed time is not above a whole number below `2^53` that
the elapsed time is not above. -/
theorem toRat_ofInt_le {a e : Int} (ha : a.natAbs < 2 ^ 53) (he : e.natAbs < 2 ^ 64)
    (h : e ≤ a) : F64.toRat (F64.ofInt e) ≤ (a : ℚ) := by
  have := F64.key_ofInt_mono h
  rwa [F64.key_eq_toRat (F64.isFinite_ofInt he),
    F64.key_eq_toRat (F64.isFinite_ofInt (lt_of_lt_of_le ha
      (Nat.pow_le_pow_right (by norm_num) (by norm_num)))),
    F64.toRat_ofInt_exact ha] at this

theorem natAbs_lt_of_InInt64 {e : Int} (h : InInt64 e) : e.natAbs < 2 ^ 64 := by
  have := natAbs_wrapInt64_lt e
  rwa [wrapInt64_of_range h] at this

/-! ## The window of a profile with a resolvable slope -/

/-- Past a whole-number elapsed time `h0` at whose successor the exact linear
value is below the threshold by more than the rounding error, the weight of a
profile with a slope that is not positive is strictly below the threshold. -/
theorem lt_threshold_after (fused : Bool) {p : MobilityProfile} (hw : p.WF)
    (hS : p.Slope.isFinite = true) (hT : p.Threshold.isFinite = true)
    (hY : p.YIntercept.isFinite = true)
    (bS : |F64.toRat p.Slope| ≤ 2 ^ (900 : ℤ)) (bY : |F64.toRat p.YIntercept| ≤ 2 ^ (1000 : ℤ))
    (hs : F64.toRat p.Slope ≤ 0) {h0 : Int} (h00 : 0 ≤ h0) (h01 : (h0 + 1).natAbs < 2 ^ 53)
    (hgap : F64.toRat p.Slope * ((h0 + 1 : ℤ) : ℚ) + F64.toRat p.YIntercept
        + (2 ^ (-51 : ℤ) * (-F64.toRat p.Slope * ((h0 + 1 : ℤ) : ℚ) + |F64.toRat p.YIntercept|)
          + 2 ^ (-1074 : ℤ)) < F64.toRat p.Threshold)
    (r l : Int) (hr : InInt64 (r - l)) (he : h0 < r - l) :
    F64.lt (p.ComputeWeightOn fused r l false) p.Threshold = true := by
  apply ComputeWeightOn_lt_of_gap fused hw hS hT hY bS bY
  rw [wrapInt64_of_range hr]
  have hx := le_toRat_ofInt h01 (natAbs_lt_of_InInt64 hr) (by omega : h0 + 1 ≤ r - l)
  exact gap_beyond hs (by exact_mod_cast (by omega : (0 : ℤ) ≤ h0 + 1)) hx hgap

/-- Later means strictly less, for whole-number elapsed times past `h0` and up
to `B < 2^53`, when the slope is not positive and large enough for `B`. -/
theorem lt_of_later (fused : Bool) {p : MobilityProfile} (hw : p.WF)
    (hS : p.Slope.isFinite = true) (hT : p.Threshold.isFinite = true)
    (hY : p.YIntercept.isFinite = true)
    (bS : |F64.toRat p.Slope| ≤ 2 ^ (900 : ℤ)) (bY : |F64.toRat p.YIntercept| ≤ 2 ^ (1000 : ℤ))
    (hs : F64.toRat p.Slope ≤ 0) {h0 B : Int} (h00 : 0 ≤ h0) (hB : B < 2 ^ 53)
    (hgap : F64.toRat p.Slope * ((h0 + 1 : ℤ) : ℚ) + F64.toRat p.YIntercept
        + (2 ^ (-51 : ℤ) * (-F64.toRat p.Slope * ((h0 + 1 : ℤ) : ℚ) + |F64.toRat p.YIntercept|)
          + 2 ^ (-1074 : ℤ)) < F64.toRat p.Threshold)
    (hsep : 2 ^ (-51 : ℤ) * (-F64.toRat p.Slope * (2 * (B : ℚ)) + 2 * |F64.toRat p.YIntercept|)
        + 2 * 2 ^ (-1074 : ℤ) < -F64.toRat p.Slope)
    (r₁ l₁ r₂ l₂ : Int) (h1 : h0 < r₁ - l₁) (h12 : r₁ - l₁ < r₂ - l₂) (h2 : r₂ - l₂ ≤ B) :
    F64.lt (p.ComputeWeightOn fused r₂ l₂ false) (p.ComputeWeightOn fused r₁ l₁ false)
      = true := by
  have i1 : InInt64 (r₁ - l₁) := by unfold InInt64; omega
  have i2 : InInt64 (r₂ - l₂) := by unfold InInt64; omega
  have n1 : (r₁ - l₁).natAbs < 2 ^ 53 := by omega
  have n2 : (r₂ - l₂).natAbs < 2 ^ 53 := by omega
  have n0 : (h0 + 1).natAbs < 2 ^ 53 := by omega
  have v1 := F64.toRat_ofInt_exact n1
  have v2 := F64.toRat_ofInt_exact n2
  apply ComputeWeightOn_lt_of_gaps fused hw hS hT hY bS bY
  · rw [wrapInt64_of_range i2]
    have hx := le_toRat_ofInt n0 (natAbs_lt_of_InInt64 i2) (by omega : h0 + 1 ≤ r₂ - l₂)
    exact gap_beyond hs (by exact_mod_cast (by omega : (0 : ℤ) ≤ h0 + 1)) hx hgap
  · rw [wrapInt64_of_range i1, wrapInt64_of_range i2]
    apply gap_between hs _ _ _ hsep
    · rw [v1]; exact_mod_cast (by omega : (0 : ℤ) ≤ r₁ - l₁)
    · rw [v1, v2]; exact_mod_cast (by omega : r₁ - l₁ + 1 ≤ r₂ - l₂)
    · rw [v2]; exact_mod_cast h2

/-- Before a whole-number elapsed time `h0` at whose predecessor the exact
linear value is below the threshold by more than the rounding error, the weight
of a profile with a slope that is not negative is strictly below the
threshold. -/
theorem lt_threshold_before (fused : Bool) {p : MobilityProfile} (hw : p.WF)
    (hS : p.Slope.isFinite = true) (hT : p.Threshold.isFinite = true)
    (hY : p.YIntercept.isFinite = true)
    (bS : |F64.toRat p.Slope| ≤ 2 ^ (900 : ℤ)) (bY : |F64.toRat p.YIntercept| ≤ 2 ^ (1000 : ℤ))
    (hs : 0 ≤ F64.toRat p.Slope) {h0 : Int} (h00 : 1 ≤ h0) (h01 : h0 < 2 ^ 53)
    (hgap : F64.toRat p.Slope * ((h0 - 1 : ℤ) : ℚ) + F64.toRat p.YIntercept
        + (2 ^ (-51 : ℤ) * (F64.toRat p.Slope * ((h0 - 1 : ℤ) : ℚ) + |F64.toRat p.YIntercept|)
          + 2 ^ (-1074 : ℤ)) < F64.toRat p.Threshold)
    (r l : Int) (hr : InInt64 (r - l)) (he : r - l < h0) :
    F64.lt (p.ComputeWeightOn fused r l false) p.Threshold = true := by
  apply ComputeWeightOn_lt_of_gap fused hw hS hT hY bS bY
  rw [wrapInt64_of_range hr]
  have hx := toRat_ofInt_le (by omega : (h0 - 1).natAbs < 2 ^ 53) (natAbs_lt_of_InInt64 hr)
    (by omega : r - l ≤ h0 - 1)
  exact gap_before hs (by exact_mod_cast (by omega : (0 : ℤ) ≤ h0 - 1)) hx hgap

/-- The weight at an elapsed time of at least `HoldoffMillis`, for a slope
that is not negative: at most the threshold, at least the capped boundary
value, and `==` to the threshold when the boundary value is not below it
(as a comparison, and as an order of positions). -/
theorem weight_after_rising (fused : Bool) {p : MobilityProfile} (hw : p.WF)
    (hS : p.Slope.isFinite = true) (hH : p.HoldoffMillis.isFinite = true)
    (hT : p.Threshold.isFinite = true) (hY : p.YIntercept.isFinite = true)
    (hs : 0 ≤ F64.toRat p.Slope) (r l : Int) (hr : InInt64 (r - l))
    (he : F64.toRat p.HoldoffMillis ≤ ((r - l : ℤ) : ℚ)) :
    F64.le (p.ComputeWeightOn fused r l false) p.Threshold = true
      ∧ F64.le (capAt p.Threshold (p.boundaryWeightOn fused))
          (p.ComputeWeightOn fused r l false) = true
      ∧ (F64.le p.Threshold (p.boundaryWeightOn fused) = true →
          F64.eq (p.ComputeWeightOn fused r l false) p.Threshold = true)
      ∧ (F64.key p.Threshold ≤ F64.key (p.boundaryWeightOn fused) →
          F64.eq (p.ComputeWeightOn fused r l false) p.Threshold = true) := by
  have hTn := F64.ne_nan_of_isFinite hT
  rw [ComputeWeightOn_eq_capAt]
  have hx := isFinite_elapsed (r - l)
  rw [wrapInt64_of_range hr] at hx ⊢
  have hk := key_le_ofInt hw.2.2.1 hH he
  obtain ⟨n2, n1, k⟩ := lineAtOn_mono fused hS hs hY hH hx hk
  obtain ⟨c1, w1, k1⟩ := F64.key_capAt hTn n1 hw.2.1 (WF_lineAtOn fused p _)
  obtain ⟨c2, w2, k2⟩ := F64.key_capAt hTn n2 hw.2.1 (WF_lineAtOn fused p _)
  have hkey : F64.key p.Threshold ≤ F64.key (p.boundaryWeightOn fused) →
      F64.eq (capAt p.Threshold (p.lineAtOn fused (F64.ofInt (r - l)))) p.Threshold = true := by
    intro hb
    unfold MobilityProfile.boundaryWeightOn at hb
    rw [F64.eq_iff_key c1 hTn w1 hw.2.1, k1]
    exact min_eq_right (hb.trans k)
  refine ⟨?_, ?_, fun hb => hkey ?_, hkey⟩
  · rw [F64.le_iff_key c1 hTn w1 hw.2.1, k1]
    exact min_le_right _ _
  · unfold MobilityProfile.boundaryWeightOn
    rw [F64.le_iff_key c2 c1 w2 w1, k1, k2]
    exact min_le_min k le_rfl
  · exact (F64.le_iff_key hTn n2 hw.2.1 (WF_lineAtOn fused p _)).mp hb

/-- The weight at an elapsed time of at most `HoldoffMillis`, for a slope that
is not negative: at most the threshold and at most the capped boundary
value. -/
theorem weight_before_rising (fused : Bool) {p : MobilityProfile} (hw : p.WF)
    (hS : p.Slope.isFinite = true) (hH : p.HoldoffMillis.isFinite = true)
    (hT : p.Threshold.isFinite = true) (hY : p.YIntercept.isFinite = true)
    (hs : 0 ≤ F64.toRat p.Slope) (r l : Int) (hr : InInt64 (r - l))
    (he : ((r - l : ℤ) : ℚ) ≤ F64.toRat p.HoldoffMillis) :
    F64.le (p.ComputeWeightOn fused r l false) p.Threshold = true
      ∧ F64.le (p.ComputeWeightOn fused r l false)
          (capAt p.Threshold (p.boundaryWeightOn fused)) = true := by
  have hTn := F64.ne_nan_of_isFinite hT
  rw [ComputeWeightOn_eq_capAt]
  have hx := isFinite_elapsed (r - l)
  rw [wrapInt64_of_range hr] at hx ⊢
  have hk := key_ofInt_le hw.2.2.1 hH he
  obtain ⟨n1, n2, k⟩ := lineAtOn_mono fused hS hs hY hx hH hk
  obtain ⟨c1, w1, k1⟩ := F64.key_capAt hTn n1 hw.2.1 (WF_lineAtOn fused p _)
  obtain ⟨c2, w2, k2⟩ := F64.key_capAt hTn n2 hw.2.1 (WF_lineAtOn fused p _)
  constructor
  · rw [F64.le_iff_key c1 hTn w1 hw.2.1, k1]
    exact min_le_right _ _
  · unfold MobilityProfile.boundaryWeightOn
    rw [F64.le_iff_key c1 c2 w1 w2, k1, k2]
    exact min_le_min k le_rfl

/-- The weight at an elapsed time of at least `HoldoffMillis`, for a slope
that is not positive: at most the threshold and at most the capped boundary
value. -/
theorem weight_after_falling (fused : Bool) {p : MobilityProfile} (hw : p.WF)
    (hS : p.Slope.isFinite = true) (hH : p.HoldoffMillis.isFinite = true)
    (hT : p.Threshold.isFinite = true) (hY : p.YIntercept.isFinite = true)
    (hs : F64.toRat p.Slope ≤ 0) (r l : Int) (hr : InInt64 (r - l))
    (he : F64.toRat p.HoldoffMillis ≤ ((r - l : ℤ) : ℚ)) :
    F64.le (p.ComputeWeightOn fused r l false) p.Threshold = true
      ∧ F64.le (p.ComputeWeightOn fused r l false)
          (capAt p.Threshold (p.boundaryWeightOn fused)) = true := by
  have hTn := F64.ne_nan_of_isFinite hT
  rw [ComputeWeightOn_eq_capAt]
  have hx := isFinite_elapsed (r - l)
  rw [wrapInt64_of_range hr] at hx ⊢
  have hk := key_le_ofInt hw.2.2.1 hH he
  obtain ⟨n1, n2, k⟩ := lineAtOn_anti fused hS hs hY hH hx hk
  obtain ⟨c1, w1, k1⟩ := F64.key_capAt hTn n1 hw.2.1 (WF_lineAtOn fused p _)
  obtain ⟨c2, w2, k2⟩ := F64.key_capAt hTn n2 hw.2.1 (WF_lineAtOn fused p _)
  constructor
  · rw [F64.le_iff_key c1 hTn w1 hw.2.1, k1]
    exact min_le_right _ _
  · unfold MobilityProfile.boundaryWeightOn
    rw [F64.le_iff_key c1 c2 w1 w2, k1, k2]
    exact min_le_min k le_rfl

/-- The weight does not increase with the elapsed time, for a slope that is
not positive. -/
theorem weight_antitone (fused : Bool) {p : MobilityProfile} (hw : p.WF)
    (hS : p.Slope.isFinite = true) (hT : p.Threshold.isFinite = true)
    (hY : p.YIntercept.isFinite = true) (hs : F64.toRat p.Slope ≤ 0)
    (r₁ l₁ r₂ l₂ : Int) (h₁ : InInt64 (r₁ - l₁)) (h₂ : InInt64 (r₂ - l₂))
    (h : r₁ - l₁ ≤ r₂ - l₂) :
    F64.le (p.ComputeWeightOn fused r₂ l₂ false) (p.ComputeWeightOn fused r₁ l₁ false)
      = true := by
  have hTn := F64.ne_nan_of_isFinite hT
  rw [ComputeWeightOn_eq_capAt, ComputeWeightOn_eq_capAt]
  have hx₁ := isFinite_elapsed (r₁ - l₁)
  have hx₂ := isFinite_elapsed (r₂ - l₂)
  rw [wrapInt64_of_range h₁] at hx₁ ⊢
  rw [wrapInt64_of_range h₂] at hx₂ ⊢
  obtain ⟨n2, n1, k⟩ := lineAtOn_anti fused hS hs hY hx₁ hx₂ (F64.key_ofInt_mono h)
  obtain ⟨c1, w1, k1⟩ := F64.key_capAt hTn n1 hw.2.1 (WF_lineAtOn fused p _)
  obtain ⟨c2, w2, k2⟩ := F64.key_capAt hTn n2 hw.2.1 (WF_lineAtOn fused p _)
  rw [F64.le_iff_key c2 c1 w2 w1, k1, k2]
  exact min_le_min k le_rfl

/-- The capped linear value at a whole-number elapsed time equal to
`HoldoffMillis`: `==` to the capped boundary value, and to the threshold when
the boundary value is not below it. -/
theorem cap_at_holdoff (fused : Bool) {p : MobilityProfile} (hw : p.WF)
    (hS : p.Slope.isFinite = true) (hH : p.HoldoffMillis.isFinite = true)
    (hT : p.Threshold.isFinite = true) (hY : p.YIntercept.isFinite = true)
    (h : Int) (hh : InInt64 h) (he : F64.toRat p.HoldoffMillis = (h : ℚ)) :
    F64.eq (capAt p.Threshold (p.lineAtOn fused (F64.ofInt h)))
        (capAt p.Threshold (p.boundaryWeightOn fused)) = true
      ∧ (F64.key p.Threshold ≤ F64.key (p.boundaryWeightOn fused) →
          F64.eq (capAt p.Threshold (p.lineAtOn fused (F64.ofInt h))) p.Threshold = true) := by
  have hTn := F64.ne_nan_of_isFinite hT
  have hx : (F64.ofInt h).isFinite = true := by
    have := isFinite_elapsed h
    rwa [wrapInt64_of_range hh] at this
  have hk : F64.key (F64.ofInt h) = F64.key p.HoldoffMillis :=
    (F64.rounds_ofInt h).unique (he ▸ F64.rounds_self hw.2.2.1 hH)
  obtain ⟨n1, n2, k⟩ := lineAtOn_congr fused hS hY hx hH hk
  obtain ⟨c1, w1, k1⟩ := F64.key_capAt hTn n1 hw.2.1 (WF_lineAtOn fused p _)
  obtain ⟨c2, w2, k2⟩ := F64.key_capAt hTn n2 hw.2.1 (WF_lineAtOn fused p _)
  constructor
  · unfold MobilityProfile.boundaryWeightOn
    rw [F64.eq_iff_key c1 c2 w1 w2, k1, k2, k]
  · intro hb
    unfold MobilityProfile.boundaryWeightOn at hb
    rw [F64.eq_iff_key c1 hTn w1 hw.2.1, k1, k]
    exact min_eq_right hb

/-! ## The derived profiles in numbers -/

theorem asset_tracking_numbers :
    (loadMobilityProfile (plainConfig "asset_tracking")).1.WF
      ∧ (loadMobilityProfile (plainConfig "asset_tracking")).1.Slope.isFinite = true
      ∧ (loadMobilityProfile (plainConfig "asset_tracking")).1.HoldoffMillis.isFinite = true
      ∧ (loadMobilityProfile (plainConfig "asset_tracking")).1.Threshold.isFinite = true
      ∧ (loadMobilityProfile (plainConfig "asset_tracking")).1.YIntercept.isFinite = true
      ∧ F64.toRat (loadMobilityProfile (plainConfig "asset_tracking")).1.Slope
          = -(4611686018427388 / 576460752303423488)
      ∧ F64.toRat (loadMobilityProfile (plainConfig "asset_tracking")).1.HoldoffMillis = 500
      ∧ F64.toRat (loadMobilityProfile (plainConfig "asset_tracking")).1.Threshold = 6
      ∧ F64.toRat (loadMobilityProfile (plainConfig "asset_tracking")).1.YIntercept = 10 := by
  refine ⟨by decide, by decide, by decide, by decide, by decide, ?_, ?_, ?_, ?_⟩
  · rw [show (loadMobilityProfile (plainConfig "asset_tracking")).1.Slope
      = F64.fin true 4611686018427388 (-59) by decide]
    norm_num [F64.toRat]
  · rw [show (loadMobilityProfile (plainConfig "asset_tracking")).1.HoldoffMillis
      = F64.fin false 8796093022208000 (-44) by decide]
    norm_num [F64.toRat]
  · rw [show (loadMobilityProfile (plainConfig "asset_tracking")).1.Threshold
      = F64.fin false 6755399441055744 (-50) by decide]
    norm_num [F64.toRat]
  · rw [show (loadMobilityProfile (plainConfig "asset_tracking")).1.YIntercept
      = F64.fin false 5629499534213120 (-49) by decide]
    norm_num [F64.toRat]

theorem retail_garment_numbers :
    (loadMobilityProfile (plainConfig "retail_garment")).1.WF
      ∧ (loadMobilityProfile (plainConfig "retail_garment")).1.Slope.isFinite = true
      ∧ (loadMobilityProfile (plainConfig "retail_garment")).1.HoldoffMillis.isFinite = true
      ∧ (loadMobilityProfile (plainConfig "retail_garment")).1.Threshold.isFinite = true
      ∧ (loadMobilityProfile (plainConfig "retail_garment")).1.YIntercept.isFinite = true
      ∧ F64.toRat (loadMobilityProfile (plainConfig "retail_garment")).1.Slope
          = -(4611686018427388 / 9223372036854775808)
      ∧ F64.toRat (loadMobilityProfile (plainConfig "retail_garment")).1.HoldoffMillis = 60000
      ∧ F64.toRat (loadMobilityProfile (plainConfig "retail_garment")).1.Threshold = 6
      ∧ F64.toRat (loadMobilityProfile (plainConfig "retail_garment")).1.YIntercept = 36 := by
  refine ⟨by decide, by decide, by decide, by decide, by decide, ?_, ?_, ?_, ?_⟩
  · rw [show (loadMobilityProfile (plainConfig "retail_garment")).1.Slope
      = F64.fin true 4611686018427388 (-63) by decide]
    norm_num [F64.toRat]
  · rw [show (loadMobilityProfile (plainConfig "retail_garment")).1.HoldoffMillis
      = F64.fin false 8246337208320000 (-37) by decide]
    norm_num [F64.toRat]
  · rw [show (loadMobilityProfile (plainConfig "retail_garment")).1.Threshold
      = F64.fin false 6755399441055744 (-50) by decide]
    norm_num [F64.toRat]
  · rw [show (loadMobilityProfile (plainConfig "retail_garment")).1.YIntercept
      = F64.fin false 5066549580791808 (-47) by decide]
    norm_num [F64.toRat]

theorem positive_slope_numbers :
    (loadMobilityProfile positiveSlopeConfig).1.WF
      ∧ (loadMobilityProfile positiveSlopeConfig).1.Slope.isFinite = true
      ∧ (loadMobilityProfile positiveSlopeConfig).1.HoldoffMillis.isFinite = true
      ∧ (loadMobilityProfile positiveSlopeConfig).1.Threshold.isFinite = true
      ∧ (loadMobilityProfile positiveSlopeConfig).1.YIntercept.isFinite = true
      ∧ F64.toRat (loadMobilityProfile positiveSlopeConfig).1.Slope
          = 4611686018427388 / 576460752303423488
      ∧ F64.toRat (loadMobilityProfile positiveSlopeConfig).1.HoldoffMillis = 500
      ∧ F64.toRat (loadMobilityProfile positiveSlopeConfig).1.Threshold = 6
      ∧ F64.toRat (loadMobilityProfile positiveSlopeConfig).1.YIntercept = 2 := by
  refine ⟨by decide, by decide, by decide, by decide, by decide, ?_, ?_, ?_, ?_⟩
  · rw [show (loadMobilityProfile positiveSlopeConfig).1.Slope
      = F64.fin false 4611686018427388 (-59) by decide]
    norm_num [F64.toRat]
  · rw [show (loadMobilityProfile positiveSlopeConfig).1.HoldoffMillis
      = F64.fin false 8796093022208000 (-44) by decide]
    norm_num [F64.toRat]
  · rw [show (loadMobilityProfile positiveSlopeConfig).1.Threshold
      = F64.fin false 6755399441055744 (-50) by decide]
    norm_num [F64.toRat]
  · rw [show (loadMobilityProfile positiveSlopeConfig).1.YIntercept
      = F64.fin false 4503599627370496 (-51) by decide]
    norm_num [F64.toRat]

/-! ## The claims -/

/-- C1. For every configuration (any identifier, any override flags and values)
the profile `loadMobilityProfile` returns has
`YIntercept = Threshold - Slope * HoldoffMillis`, computed in `float64` from the
fields of the returned profile itself; the two sides are the same value, and
they compare `==` whenever the intercept is not NaN. -/
theorem C1_loadMobilityProfile_yIntercept (cfg : AppConfig) :
    (loadMobilityProfile cfg).1.YIntercept =
        F64.sub (loadMobilityProfile cfg).1.Threshold
          (F64.mul (loadMobilityProfile cfg).1.Slope (loadMobilityProfile cfg).1.HoldoffMillis)
      ∧ ((loadMobilityProfile cfg).1.YIntercept ≠ F64.nan →
          F64.eq (loadMobilityProfile cfg).1.YIntercept
            (F64.sub (loadMobilityProfile cfg).1.Threshold
              (F64.mul (loadMobilityProfile cfg).1.Slope
                (loadMobilityProfile cfg).1.HoldoffMillis)) = true) := by
  have h : (loadMobilityProfile cfg).1.YIntercept =
      F64.sub (loadMobilityProfile cfg).1.Threshold
        (F64.mul (loadMobilityProfile cfg).1.Slope (loadMobilityProfile cfg).1.HoldoffMillis) := by
    rw [loadMobilityProfile_fields]
    rfl
  refine ⟨h, fun hn => ?_⟩
  rw [← h]
  cases hy : (loadMobilityProfile cfg).1.YIntercept with
  | nan => exact absurd hy hn
  | inf s => simp [F64.eq]
  | fin s m e => simp [F64.eq]

/-- C2. In deep scan `ComputeWeight` returns the profile's `Threshold`, for
every profile (consistent intercept or not) and every pair of timestamps. -/
theorem C2_ComputeWeight_deepScan (p : MobilityProfile) (referenceTimestamp lastRead : Int) :
    p.ComputeWeight referenceTimestamp lastRead true = p.Threshold := by
  simp [MobilityProfile.ComputeWeight]

/-- C3, as stated, fails where a NaN comes in: with `asset_tracking` and the
slope overridden with `+Inf`, at equal timestamps the linear value is NaN
(`Inf * 0`), which is not at most the threshold `6.0`, yet `ComputeWeight`
returns the NaN and not the threshold, under either evaluation of the linear
value. The witness of the claim holds only when the product and the sum are
rounded separately: fused into one rounding, `-0.0005 * 100000 + 36.0` is
`-14.000000000000002` (`-7881299347898369 / 2^49`), not `-14.0`. -/
theorem C3_counterexample :
    (loadMobilityProfile infSlopeConfig).1.linearWeight 0 0 = F64.nan
      ∧ (loadMobilityProfile infSlopeConfig).1.Threshold = F64.ofFrac false 6 1
      ∧ (loadMobilityProfile infSlopeConfig).1.ComputeWeight 0 0 false = F64.nan
      ∧ (loadMobilityProfile infSlopeConfig).1.ComputeWeight 0 0 false ≠
        (if F64.le ((loadMobilityProfile infSlopeConfig).1.linearWeight 0 0)
            (loadMobilityProfile infSlopeConfig).1.Threshold
          then (loadMobilityProfile infSlopeConfig).1.linearWeight 0 0
          else (loadMobilityProfile infSlopeConfig).1.Threshold)
      ∧ (loadMobilityProfile infSlopeConfig).1.ComputeWeightOn true 0 0 false = F64.nan
      ∧ (loadMobilityProfile (plainConfig "retail_garment")).1.ComputeWeightOn true 100000 0
          false = F64.fin true 7881299347898369 (-49)
      ∧ F64.ofFrac true 14 1 = F64.fin true 7881299347898368 (-49)
      ∧ F64.eq
          ((loadMobilityProfile (plainConfig "retail_garment")).1.ComputeWeightOn true 100000 0
            false)
          (F64.ofFrac true 14 1) = false := by
  decide

/-- C3, amended. With deep scan off `ComputeWeight` returns `Threshold` when the
linear value `Slope * float64(referenceTimestamp - lastRead) + YIntercept` is
greater than `Threshold`, and the linear value otherwise, whether the product
and the sum of the linear value are rounded separately or fused into one
rounding; when neither of the two is NaN that is their minimum: the linear
value when it is at most `Threshold`, and `Threshold` otherwise. For the derived
`retail_garment` preset (`-0.0005`, `6.0`, `60000`, `36.0`),
`ComputeWeight(100000, 0, false)` is `-14.0` with separate roundings and
`-14.000000000000002` (`-14 - 2^-49`) with one fused rounding. -/
theorem C3_ComputeWeight_cap (fused : Bool) (p : MobilityProfile)
    (referenceTimestamp lastRead : Int) :
    p.ComputeWeightOn false referenceTimestamp lastRead false
        = p.ComputeWeight referenceTimestamp lastRead false
      ∧ (p.ComputeWeightOn fused referenceTimestamp lastRead false =
        if F64.gt (p.lineAtOn fused (F64.ofInt (wrapInt64 (referenceTimestamp - lastRead))))
            p.Threshold then p.Threshold
        else p.lineAtOn fused (F64.ofInt (wrapInt64 (referenceTimestamp - lastRead))))
      ∧ (p.lineAtOn fused (F64.ofInt (wrapInt64 (referenceTimestamp - lastRead))) ≠ F64.nan →
          p.Threshold ≠ F64.nan →
          p.ComputeWeightOn fused referenceTimestamp lastRead false =
            if F64.le (p.lineAtOn fused (F64.ofInt (wrapInt64 (referenceTimestamp - lastRead))))
                p.Threshold
              then p.lineAtOn fused (F64.ofInt (wrapInt64 (referenceTimestamp - lastRead)))
              else p.Threshold)
      ∧ (loadMobilityProfile (plainConfig "retail_garment")).1 =
          { Slope := F64.ofFrac true 5 10000, Threshold := F64.ofFrac false 6 1,
            HoldoffMillis := F64.ofFrac false 60000 1, YIntercept := F64.ofFrac false 36 1 }
      ∧ (loadMobilityProfile (plainConfig "retail_garment")).1.ComputeWeightOn false 100000 0
          false = F64.ofFrac true 14 1
      ∧ (loadMobilityProfile (plainConfig "retail_garment")).1.ComputeWeightOn true 100000 0
          false = F64.fin true 7881299347898369 (-49)
      ∧ F64.toRat (F64.fin true 7881299347898369 (-49)) = -14 - 2 ^ (-49 : ℤ) := by
  refine ⟨rfl, rfl, fun hw ht => ?_, by decide, by decide, by decide, ?_⟩
  · rw [ComputeWeightOn_eq_capAt]
    unfold capAt
    cases hg : F64.gt (p.lineAtOn fused (F64.ofInt (wrapInt64 (referenceTimestamp - lastRead))))
        p.Threshold with
    | true => simp [F64.le_eq_false_of_gt hg]
    | false => simp [F64.le_of_gt_eq_false hw ht hg]
  · norm_num [F64.toRat]

/-- C4, as stated, fails by rounding. With `asset_tracking` and the threshold
overridden with `0.1` (the binary64 `0x1.999999999999ap-4`) the derived intercept
is the binary64 nearest to `4.1`, `0x1.0666666666666p+2`, which lies below
`4.1`; at an elapsed time of exactly the holdoff, `500`, the linear value is
`0.09999999999999964` with separate roundings and `0.09999999999999956` with one
fused rounding, below the threshold either way, and `ComputeWeight` returns it.
With one fused rounding the shipped `retail_garment` preset fails too: at its
holdoff of `60000` the weight is `5.999999999999999`, not `6.0`. -/
theorem C4_counterexample :
    (loadMobilityProfile threshold01Config).1.YIntercept =
        F64.sub (loadMobilityProfile threshold01Config).1.Threshold
          (F64.mul (loadMobilityProfile threshold01Config).1.Slope
            (loadMobilityProfile threshold01Config).1.HoldoffMillis)
      ∧ F64.toRat (loadMobilityProfile threshold01Config).1.HoldoffMillis = ((500 : ℤ) : ℚ)
      ∧ (loadMobilityProfile threshold01Config).1.Threshold
          = F64.fin false 7205759403792794 (-56)
      ∧ (loadMobilityProfile threshold01Config).1.YIntercept
          = F64.fin false 4616189618054758 (-50)
      ∧ (loadMobilityProfile threshold01Config).1.ComputeWeight 500 (wrapInt64 (500 - 500)) false
          = F64.fin false 7205759403792768 (-56)
      ∧ (loadMobilityProfile threshold01Config).1.ComputeWeight 500 (wrapInt64 (500 - 500)) false
          ≠ (loadMobilityProfile threshold01Config).1.Threshold
      ∧ F64.eq
          ((loadMobilityProfile threshold01Config).1.ComputeWeight 500 (wrapInt64 (500 - 500))
            false)
          (loadMobilityProfile threshold01Config).1.Threshold = false
      ∧ F64.lt
          ((loadMobilityProfile threshold01Config).1.ComputeWeight 500 (wrapInt64 (500 - 500))
            false)
          (loadMobilityProfile threshold01Config).1.Threshold = true
      ∧ (loadMobilityProfile threshold01Config).1.ComputeWeightOn true 500
            (wrapInt64 (500 - 500)) false
          = F64.fin false 7205759403792762 (-56)
      ∧ F64.eq
          ((loadMobilityProfile threshold01Config).1.ComputeWeightOn true 500
            (wrapInt64 (500 - 500)) false)
          (loadMobilityProfile threshold01Config).1.Threshold = false
      ∧ F64.toRat (loadMobilityProfile (plainConfig "retail_garment")).1.HoldoffMillis
          = ((60000 : ℤ) : ℚ)
      ∧ (loadMobilityProfile (plainConfig "retail_garment")).1.Threshold
          = F64.fin false 6755399441055744 (-50)
      ∧ (loadMobilityProfile (plainConfig "retail_garment")).1.ComputeWeightOn true 60000
            (wrapInt64 (60000 - 60000)) false
          = F64.fin false 6755399441055743 (-50)
      ∧ F64.eq
          ((loadMobilityProfile (plainConfig "retail_garment")).1.ComputeWeightOn true 60000
            (wrapInt64 (60000 - 60000)) false)
          (loadMobilityProfile (plainConfig "retail_garment")).1.Threshold = false := by
  refine ⟨by decide, ?_, by decide, by decide, by decide, by decide, by decide, by decide,
    by decide, by decide, ?_, by decide, by decide, by decide⟩
  · rw [show (loadMobilityProfile threshold01Config).1.HoldoffMillis
      = F64.fin false 8796093022208000 (-44) by decide]
    norm_num [F64.toRat]
  · rw [retail_garment_numbers.2.2.2.2.2.2.1]
    norm_num

/-- C4, amended. For every profile of binary64 fields whose `YIntercept` is
`Threshold - Slope * HoldoffMillis` and finite (any sign of `Slope`), whose
`HoldoffMillis` is a whole number `h` of the `int64` range, and for every
reference timestamp `t`, under either evaluation of the linear value (product
and sum rounded separately, or fused into one rounding),
`ComputeWeight(t, t - h, false)` compares `==` to the `float64` value
`Slope * HoldoffMillis + YIntercept` of that evaluation capped at `Threshold`;
it compares `==` to `Threshold` whenever that value is not below `Threshold`.
With separate roundings that is so when `YIntercept` is `Threshold` minus the
rounded product without rounding error; with one fused rounding, when
`YIntercept` is `Threshold - Slope * HoldoffMillis` without any rounding
error. For the shipped `asset_tracking` preset the weight at the holdoff
compares `==` to `Threshold` under either evaluation, for the shipped
`retail_garment` preset with separate roundings, for every `t`. -/
theorem C4_ComputeWeight_at_holdoff :
    (∀ (fused : Bool) (p : MobilityProfile), p.WF →
      p.YIntercept = F64.sub p.Threshold (F64.mul p.Slope p.HoldoffMillis) →
      p.YIntercept.isFinite = true →
      ∀ h : Int, InInt64 h → F64.toRat p.HoldoffMillis = (h : ℚ) → ∀ t : Int,
        F64.eq (p.ComputeWeightOn fused t (wrapInt64 (t - h)) false)
            (capAt p.Threshold (p.boundaryWeightOn fused)) = true
          ∧ (F64.le p.Threshold (p.boundaryWeightOn fused) = true →
              F64.eq (p.ComputeWeightOn fused t (wrapInt64 (t - h)) false) p.Threshold = true)
          ∧ (F64.toRat p.YIntercept
                = F64.toRat p.Threshold - F64.toRat (F64.mul p.Slope p.HoldoffMillis) →
              F64.eq (p.ComputeWeightOn false t (wrapInt64 (t - h)) false) p.Threshold = true)
          ∧ (F64.toRat p.YIntercept
                = F64.toRat p.Threshold - F64.toRat p.Slope * F64.toRat p.HoldoffMillis →
              F64.eq (p.ComputeWeightOn true t (wrapInt64 (t - h)) false) p.Threshold = true))
      ∧ (∀ (fused : Bool) (t : Int),
          F64.eq
            ((loadMobilityProfile (plainConfig "asset_tracking")).1.ComputeWeightOn fused t
              (wrapInt64 (t - 500)) false)
            (loadMobilityProfile (plainConfig "asset_tracking")).1.Threshold = true)
      ∧ (∀ t : Int,
          F64.eq
            ((loadMobilityProfile (plainConfig "retail_garment")).1.ComputeWeightOn false t
              (wrapInt64 (t - 60000)) false)
            (loadMobilityProfile (plainConfig "retail_garment")).1.Threshold = true) := by
  have gen : ∀ (fused : Bool) (p : MobilityProfile), p.WF →
      p.YIntercept = F64.sub p.Threshold (F64.mul p.Slope p.HoldoffMillis) →
      p.YIntercept.isFinite = true →
      ∀ h : Int, InInt64 h → F64.toRat p.HoldoffMillis = (h : ℚ) → ∀ t : Int,
        F64.eq (p.ComputeWeightOn fused t (wrapInt64 (t - h)) false)
            (capAt p.Threshold (p.boundaryWeightOn fused)) = true
          ∧ (F64.le p.Threshold (p.boundaryWeightOn fused) = true →
              F64.eq (p.ComputeWeightOn fused t (wrapInt64 (t - h)) false) p.Threshold = true)
          ∧ (F64.toRat p.YIntercept
                = F64.toRat p.Threshold - F64.toRat (F64.mul p.Slope p.HoldoffMillis) →
              F64.eq (p.ComputeWeightOn false t (wrapInt64 (t - h)) false) p.Threshold = true)
          ∧ (F64.toRat p.YIntercept
                = F64.toRat p.Threshold - F64.toRat p.Slope * F64.toRat p.HoldoffMillis →
              F64.eq (p.ComputeWeightOn true t (wrapInt64 (t - h)) false) p.Threshold
                = true) := by
    intro fused p hw hY hfin h hh hH t
    obtain ⟨hS, hHf, hT, hP⟩ := fields_finite hY hfin
    have hTn := F64.ne_nan_of_isFinite hT
    have hex := key_boundaryWeightOn_of_exact hw hS hHf hT hfin
    simp only [ComputeWeightOn_eq_capAt, wrapInt64_sub_wrap t h hh]
    refine ⟨(cap_at_holdoff fused hw hS hHf hT hfin h hh hH).1, fun hb => ?_, fun hx => ?_,
      fun hx => ?_⟩
    · apply (cap_at_holdoff fused hw hS hHf hT hfin h hh hH).2
      have hn : p.boundaryWeightOn fused ≠ F64.nan :=
        (lineAtOn_congr fused hS hfin hHf hHf rfl).1
      exact (F64.le_iff_key hTn hn hw.2.1 (WF_lineAtOn fused p _)).mp hb
    · exact (cap_at_holdoff false hw hS hHf hT hfin h hh hH).2 (hex.1 (by linarith) hP).ge
    · exact (cap_at_holdoff true hw hS hHf hT hfin h hh hH).2 (hex.2 (by linarith)).ge
  refine ⟨gen, fun fused t => ?_, fun t => ?_⟩
  · apply (gen fused (loadMobilityProfile (plainConfig "asset_tracking")).1 (by decide)
      (by decide) (by decide) 500 (by decide)
      (by rw [asset_tracking_numbers.2.2.2.2.2.2.1]; norm_num) t).2.1
    cases fused <;> decide
  · exact (gen false (loadMobilityProfile (plainConfig "retail_garment")).1 (by decide)
      (by decide) (by decide) 60000 (by decide)
      (by rw [retail_garment_numbers.2.2.2.2.2.2.1]; norm_num) t).2.1 (by decide)

/-- C4 at the derived `asset_tracking` preset, `h = 500` and `t = 1000`: the
result compares `==` to the threshold under either evaluation. -/
theorem C4_ComputeWeight_at_holdoff_witness :
    F64.eq
        ((loadMobilityProfile (plainConfig "asset_tracking")).1.ComputeWeightOn false 1000
          (wrapInt64 (1000 - 500)) false)
        (loadMobilityProfile (plainConfig "asset_tracking")).1.Threshold = true
      ∧ F64.eq
        ((loadMobilityProfile (plainConfig "asset_tracking")).1.ComputeWeightOn true 1000
          (wrapInt64 (1000 - 500)) false)
        (loadMobilityProfile (plainConfig "asset_tracking")).1.Threshold = true :=
  ⟨(C4_ComputeWeight_at_holdoff.1 false (loadMobilityProfile (plainConfig "asset_tracking")).1
      (by decide) (by decide) (by decide) 500 (by decide)
      (by rw [asset_tracking_numbers.2.2.2.2.2.2.1]; norm_num) 1000).2.1 (by decide),
    (C4_ComputeWeight_at_holdoff.1 true (loadMobilityProfile (plainConfig "asset_tracking")).1
      (by decide) (by decide) (by decide) 500 (by decide)
      (by rw [asset_tracking_numbers.2.2.2.2.2.2.1]; norm_num) 1000).2.1 (by decide)⟩

/-- C5 at the failing input. With `asset_tracking`, the slope overridden with
`-2e-19` and the threshold with `1.0`, the slope is negative and the derived
intercept is `Threshold - Slope * HoldoffMillis = 1.0`; at an elapsed time of
`499`, inside the holdoff of `500`, the linear value `-9.98e-17 + 1.0` rounds to
`0.9999999999999999` (`(2^53 - 1) / 2^53`) under either evaluation, which is not
greater than the threshold, and `ComputeWeight` returns it: less than the
threshold, inside the time in which, by the comment on `HoldoffMillis`, the
weight is just the threshold. -/
theorem C5_ComputeWeight_inside_holdoff_fails :
    F64.lt (loadMobilityProfile tinySlopeConfig).1.Slope F64.zero = true
      ∧ (loadMobilityProfile tinySlopeConfig).1.YIntercept =
        F64.sub (loadMobilityProfile tinySlopeConfig).1.Threshold
          (F64.mul (loadMobilityProfile tinySlopeConfig).1.Slope
            (loadMobilityProfile tinySlopeConfig).1.HoldoffMillis)
      ∧ (((499 - 0 : ℤ) : ℚ) < F64.toRat (loadMobilityProfile tinySlopeConfig).1.HoldoffMillis)
      ∧ (loadMobilityProfile tinySlopeConfig).1.YIntercept = F64.ofFrac false 1 1
      ∧ (loadMobilityProfile tinySlopeConfig).1.Threshold = F64.ofFrac false 1 1
      ∧ (loadMobilityProfile tinySlopeConfig).1.ComputeWeight 499 0 false
          = F64.fin false 9007199254740991 (-53)
      ∧ (loadMobilityProfile tinySlopeConfig).1.ComputeWeight 499 0 false
          ≠ (loadMobilityProfile tinySlopeConfig).1.Threshold
      ∧ F64.lt ((loadMobilityProfile tinySlopeConfig).1.ComputeWeight 499 0 false)
          (loadMobilityProfile tinySlopeConfig).1.Threshold = true
      ∧ (loadMobilityProfile tinySlopeConfig).1.ComputeWeightOn true 499 0 false
          = F64.fin false 9007199254740991 (-53)
      ∧ F64.lt ((loadMobilityProfile tinySlopeConfig).1.ComputeWeightOn true 499 0 false)
          (loadMobilityProfile tinySlopeConfig).1.Threshold = true := by
  refine ⟨by decide, by decide, ?_, by decide, by decide, by decide, by decide, by decide,
    by decide, by decide⟩
  rw [show (loadMobilityProfile tinySlopeConfig).1.HoldoffMillis
    = F64.fin false 8796093022208000 (-44) by decide]
  norm_num [F64.toRat]

/-- C6, as stated, fails by rounding: with `asset_tracking` and the slope
overridden with `-1e-18` the derived intercept is `6.000000000000001`; at an
elapsed time of `501`, past the holdoff of `500`, the linear value rounds to
`6.0` under either evaluation, and `ComputeWeight` returns the threshold
itself, not less. -/
theorem C6_counterexample :
    F64.lt (loadMobilityProfile smallSlopeConfig).1.Slope F64.zero = true
      ∧ (loadMobilityProfile smallSlopeConfig).1.YIntercept =
        F64.sub (loadMobilityProfile smallSlopeConfig).1.Threshold
          (F64.mul (loadMobilityProfile smallSlopeConfig).1.Slope
            (loadMobilityProfile smallSlopeConfig).1.HoldoffMillis)
      ∧ (F64.toRat (loadMobilityProfile smallSlopeConfig).1.HoldoffMillis < ((501 - 0 : ℤ) : ℚ))
      ∧ (loadMobilityProfile smallSlopeConfig).1.YIntercept
          = F64.fin false 6755399441055745 (-50)
      ∧ (loadMobilityProfile smallSlopeConfig).1.Threshold = F64.ofFrac false 6 1
      ∧ (loadMobilityProfile smallSlopeConfig).1.ComputeWeight 501 0 false
          = (loadMobilityProfile smallSlopeConfig).1.Threshold
      ∧ F64.lt ((loadMobilityProfile smallSlopeConfig).1.ComputeWeight 501 0 false)
          (loadMobilityProfile smallSlopeConfig).1.Threshold = false
      ∧ (loadMobilityProfile smallSlopeConfig).1.ComputeWeightOn true 501 0 false
          = (loadMobilityProfile smallSlopeConfig).1.Threshold
      ∧ F64.lt ((loadMobilityProfile smallSlopeConfig).1.ComputeWeightOn true 501 0 false)
          (loadMobilityProfile smallSlopeConfig).1.Threshold = false := by
  refine ⟨by decide, by decide, ?_, by decide, by decide, by decide, by decide, by decide,
    by decide⟩
  rw [show (loadMobilityProfile smallSlopeConfig).1.HoldoffMillis
    = F64.fin false 8796093022208000 (-44) by decide]
  norm_num [F64.toRat]

/-- C6, amended. Under either evaluation of the linear value (product and sum
rounded separately, or fused into one rounding): for every profile of binary64
fields with negative `Slope` whose `YIntercept` is
`Threshold - Slope * HoldoffMillis` and finite, and every pair of timestamps
whose elapsed time is in the `int64` range and greater than `HoldoffMillis`,
`ComputeWeight` returns a value less than or equal to `Threshold` and to the
`float64` value `Slope * HoldoffMillis + YIntercept` capped at `Threshold`; and
it returns a value strictly less than `Threshold` whenever the exact value
`Slope * elapsed + YIntercept` lies below `Threshold` by more than the rounding
error bound `2^-51 * (|Slope * elapsed| + |YIntercept|) + 2^-1074` (for
`|Slope| <= 2^900` and `|YIntercept| <= 2^1000`, `elapsed` being the converted
`float64(referenceTimestamp - lastRead)`). For the two shipped presets,
`asset_tracking` and `retail_garment`, it is strictly less than `Threshold` for
every elapsed time of the `int64` range greater than the holdoff. -/
theorem C6_ComputeWeight_beyond_holdoff :
    (∀ (fused : Bool) (p : MobilityProfile), p.WF → F64.lt p.Slope F64.zero = true →
      p.YIntercept = F64.sub p.Threshold (F64.mul p.Slope p.HoldoffMillis) →
      p.YIntercept.isFinite = true →
      ∀ referenceTimestamp lastRead : Int, InInt64 (referenceTimestamp - lastRead) →
      F64.toRat p.HoldoffMillis < ((referenceTimestamp - lastRead : ℤ) : ℚ) →
        F64.le (p.ComputeWeightOn fused referenceTimestamp lastRead false) p.Threshold = true
          ∧ F64.le (p.ComputeWeightOn fused referenceTimestamp lastRead false)
              (capAt p.Threshold (p.boundaryWeightOn fused)) = true
          ∧ (|F64.toRat p.Slope| ≤ 2 ^ (900 : ℤ) → |F64.toRat p.YIntercept| ≤ 2 ^ (1000 : ℤ) →
              p.exactLine (F64.ofInt (referenceTimestamp - lastRead))
                  + p.lineError (F64.ofInt (referenceTimestamp - lastRead))
                < F64.toRat p.Threshold →
              F64.lt (p.ComputeWeightOn fused referenceTimestamp lastRead false) p.Threshold
                = true))
      ∧ (∀ (fused : Bool) (referenceTimestamp lastRead : Int),
          InInt64 (referenceTimestamp - lastRead) → 500 < referenceTimestamp - lastRead →
          F64.lt
            ((loadMobilityProfile (plainConfig "asset_tracking")).1.ComputeWeightOn fused
              referenceTimestamp lastRead false)
            (loadMobilityProfile (plainConfig "asset_tracking")).1.Threshold = true)
      ∧ (∀ (fused : Bool) (referenceTimestamp lastRead : Int),
          InInt64 (referenceTimestamp - lastRead) → 60000 < referenceTimestamp - lastRead →
          F64.lt
            ((loadMobilityProfile (plainConfig "retail_garment")).1.ComputeWeightOn fused
              referenceTimestamp lastRead false)
            (loadMobilityProfile (plainConfig "retail_garment")).1.Threshold = true) := by
  refine ⟨?_, ?_, ?_⟩
  · intro fused p hw hneg hY hfin r l hr he
    obtain ⟨hS, hHf, hT, _⟩ := fields_finite hY hfin
    have hs := (toRat_neg_of_lt_zero hw.1 hS hneg).le
    obtain ⟨a, b⟩ := weight_after_falling fused hw hS hHf hT hfin hs r l hr he.le
    refine ⟨a, b, fun bS bY hgap => ?_⟩
    apply ComputeWeightOn_lt_of_gap fused hw hS hT hfin bS bY
    rw [wrapInt64_of_range hr]
    exact hgap
  · intro fused r l hr he
    obtain ⟨hw, hS, _, hT, hY, vS, _, vT, vY⟩ := asset_tracking_numbers
    apply lt_threshold_after fused hw hS hT hY _ _ _ (by norm_num : (0 : ℤ) ≤ 500)
      (by decide) _ r l hr he
    · rw [vS]; norm_num [abs_le]
    · rw [vY]; norm_num [abs_le]
    · rw [vS]; norm_num
    · rw [vS, vY, vT]; norm_num
  · intro fused r l hr he
    obtain ⟨hw, hS, _, hT, hY, vS, _, vT, vY⟩ := retail_garment_numbers
    apply lt_threshold_after fused hw hS hT hY _ _ _ (by norm_num : (0 : ℤ) ≤ 60000)
      (by decide) _ r l hr he
    · rw [vS]; norm_num [abs_le]
    · rw [vY]; norm_num [abs_le]
    · rw [vS]; norm_num
    · rw [vS, vY, vT]; norm_num

/-- C6 at the derived `asset_tracking` preset and the timestamps `1000` and
`0`: the result (`2.0`, or `1.9999999999999998` with one fused rounding) is
strictly less than the threshold `6.0`. -/
theorem C6_ComputeWeight_beyond_holdoff_witness :
    F64.lt
        ((loadMobilityProfile (plainConfig "asset_tracking")).1.ComputeWeightOn false 1000 0
          false)
        (loadMobilityProfile (plainConfig "asset_tracking")).1.Threshold = true
      ∧ F64.lt
        ((loadMobilityProfile (plainConfig "asset_tracking")).1.ComputeWeightOn true 1000 0
          false)
        (loadMobilityProfile (plainConfig "asset_tracking")).1.Threshold = true :=
  ⟨C6_ComputeWeight_beyond_holdoff.2.1 false 1000 0 (by decide) (by decide),
    C6_ComputeWeight_beyond_holdoff.2.1 true 1000 0 (by decide) (by decide)⟩

/-- C7, as stated, fails by rounding: with `asset_tracking` and the slope
overridden with `-1e-18`, the elapsed times `501` and `502`, both past the
holdoff of `500`, give the same weight `6.0` under either evaluation. On the
shipped `asset_tracking` preset the elapsed times `2^62` and `2^62 + 1` convert
to the same `float64` and give the same weight. -/
theorem C7_counterexample :
    F64.lt (loadMobilityProfile smallSlopeConfig).1.Slope F64.zero = true
      ∧ (loadMobilityProfile smallSlopeConfig).1.YIntercept =
        F64.sub (loadMobilityProfile smallSlopeConfig).1.Threshold
          (F64.mul (loadMobilityProfile smallSlopeConfig).1.Slope
            (loadMobilityProfile smallSlopeConfig).1.HoldoffMillis)
      ∧ (F64.toRat (loadMobilityProfile smallSlopeConfig).1.HoldoffMillis < ((501 - 0 : ℤ) : ℚ))
      ∧ ((501 - 0 : ℤ) < 502 - 0)
      ∧ (loadMobilityProfile smallSlopeConfig).1.ComputeWeight 501 0 false
          = F64.ofFrac false 6 1
      ∧ (loadMobilityProfile smallSlopeConfig).1.ComputeWeight 502 0 false
          = F64.ofFrac false 6 1
      ∧ F64.lt ((loadMobilityProfile smallSlopeConfig).1.ComputeWeight 502 0 false)
          ((loadMobilityProfile smallSlopeConfig).1.ComputeWeight 501 0 false) = false
      ∧ (loadMobilityProfile smallSlopeConfig).1.ComputeWeightOn true 501 0 false
          = F64.ofFrac false 6 1
      ∧ (loadMobilityProfile smallSlopeConfig).1.ComputeWeightOn true 502 0 false
          = F64.ofFrac false 6 1
      ∧ (loadMobilityProfile (plainConfig "asset_tracking")).1.ComputeWeight
            4611686018427387904 0 false = F64.fin true 4611686018427387 3
      ∧ (loadMobilityProfile (plainConfig "asset_tracking")).1.ComputeWeight
            4611686018427387905 0 false = F64.fin true 4611686018427387 3
      ∧ (loadMobilityProfile (plainConfig "asset_tracking")).1.ComputeWeightOn true
            4611686018427387904 0 false = F64.fin true 4611686018427387 3
      ∧ (loadMobilityProfile (plainConfig "asset_tracking")).1.ComputeWeightOn true
            4611686018427387905 0 false = F64.fin true 4611686018427387 3 := by
  refine ⟨by decide, by decide, ?_, by decide, by decide, by decide, by decide, by decide,
    by decide, by decide, by decide, by decide, by decide⟩
  rw [show (loadMobilityProfile smallSlopeConfig).1.HoldoffMillis
    = F64.fin false 8796093022208000 (-44) by decide]
  norm_num [F64.toRat]

/-- C7, amended. Under either evaluation of the linear value (product and sum
rounded separately, or fused into one rounding): for every profile of binary64
fields with negative `Slope` whose `YIntercept` is
`Threshold - Slope * HoldoffMillis` and finite, the non-deep-scan weight does not
increase with the elapsed time: for any two timestamp pairs with elapsed times
`e1 <= e2` in the `int64` range, `ComputeWeight` for `e2` is less than or equal
to `ComputeWeight` for `e1`; and it is strictly less whenever the exact value
`Slope * e2 + YIntercept` plus its rounding error bound
`2^-51 * (|Slope * e2| + |YIntercept|) + 2^-1074` lies below both `Threshold` and
the exact value `Slope * e1 + YIntercept` minus its rounding error bound (for
`|Slope| <= 2^900` and `|YIntercept| <= 2^1000`, `e1` and `e2` as converted to
`float64`). For the two shipped presets, `asset_tracking` and `retail_garment`,
the weight is strictly decreasing for all elapsed times
`HoldoffMillis < e1 < e2 <= 2^48` milliseconds. -/
theorem C7_ComputeWeight_antitone :
    (∀ (fused : Bool) (p : MobilityProfile), p.WF → F64.lt p.Slope F64.zero = true →
      p.YIntercept = F64.sub p.Threshold (F64.mul p.Slope p.HoldoffMillis) →
      p.YIntercept.isFinite = true →
      ∀ r₁ l₁ r₂ l₂ : Int, InInt64 (r₁ - l₁) → InInt64 (r₂ - l₂) → r₁ - l₁ ≤ r₂ - l₂ →
        F64.le (p.ComputeWeightOn fused r₂ l₂ false) (p.ComputeWeightOn fused r₁ l₁ false)
            = true
          ∧ (|F64.toRat p.Slope| ≤ 2 ^ (900 : ℤ) → |F64.toRat p.YIntercept| ≤ 2 ^ (1000 : ℤ) →
              p.exactLine (F64.ofInt (r₂ - l₂)) + p.lineError (F64.ofInt (r₂ - l₂))
                < F64.toRat p.Threshold →
              p.exactLine (F64.ofInt (r₂ - l₂)) + p.lineError (F64.ofInt (r₂ - l₂))
                < p.exactLine (F64.ofInt (r₁ - l₁)) - p.lineError (F64.ofInt (r₁ - l₁)) →
              F64.lt (p.ComputeWeightOn fused r₂ l₂ false)
                (p.ComputeWeightOn fused r₁ l₁ false) = true))
      ∧ (∀ (fused : Bool) (r₁ l₁ r₂ l₂ : Int),
          500 < r₁ - l₁ → r₁ - l₁ < r₂ - l₂ → r₂ - l₂ ≤ 281474976710656 →
          F64.lt
            ((loadMobilityProfile (plainConfig "asset_tracking")).1.ComputeWeightOn fused
              r₂ l₂ false)
            ((loadMobilityProfile (plainConfig "asset_tracking")).1.ComputeWeightOn fused
              r₁ l₁ false) = true)
      ∧ (∀ (fused : Bool) (r₁ l₁ r₂ l₂ : Int),
          60000 < r₁ - l₁ → r₁ - l₁ < r₂ - l₂ → r₂ - l₂ ≤ 281474976710656 →
          F64.lt
            ((loadMobilityProfile (plainConfig "retail_garment")).1.ComputeWeightOn fused
              r₂ l₂ false)
            ((loadMobilityProfile (plainConfig "retail_garment")).1.ComputeWeightOn fused
              r₁ l₁ false) = true) := by
  refine ⟨?_, ?_, ?_⟩
  · intro fused p hw hneg hY hfin r₁ l₁ r₂ l₂ h₁ h₂ h
    obtain ⟨hS, _, hT, _⟩ := fields_finite hY hfin
    have hs := (toRat_neg_of_lt_zero hw.1 hS hneg).le
    refine ⟨weight_antitone fused hw hS hT hfin hs r₁ l₁ r₂ l₂ h₁ h₂ h,
      fun bS bY hgap hsep => ?_⟩
    apply ComputeWeightOn_lt_of_gaps fused hw hS hT hfin bS bY
    · rw [wrapInt64_of_range h₂]; exact hgap
    · rw [wrapInt64_of_range h₁, wrapInt64_of_range h₂]; exact hsep
  · intro fused r₁ l₁ r₂ l₂ h1 h12 h2
    obtain ⟨hw, hS, _, hT, hY, vS, _, vT, vY⟩ := asset_tracking_numbers
    apply lt_of_later fused hw hS hT hY _ _ _ (by norm_num : (0 : ℤ) ≤ 500)
      (by norm_num : (281474976710656 : ℤ) < 2 ^ 53) _ _ r₁ l₁ r₂ l₂ h1 h12 h2
    · rw [vS]; norm_num [abs_le]
    · rw [vY]; norm_num [abs_le]
    · rw [vS]; norm_num
    · rw [vS, vY, vT]; norm_num
    · rw [vS, vY]; norm_num
  · intro fused r₁ l₁ r₂ l₂ h1 h12 h2
    obtain ⟨hw, hS, _, hT, hY, vS, _, vT, vY⟩ := retail_garment_numbers
    apply lt_of_later fused hw hS hT hY _ _ _ (by norm_num : (0 : ℤ) ≤ 60000)
      (by norm_num : (281474976710656 : ℤ) < 2 ^ 53) _ _ r₁ l₁ r₂ l₂ h1 h12 h2
    · rw [vS]; norm_num [abs_le]
    · rw [vY]; norm_num [abs_le]
    · rw [vS]; norm_num
    · rw [vS, vY, vT]; norm_num
    · rw [vS, vY]; norm_num

/-- C7 at the derived `asset_tracking` preset and the elapsed times `600` and
`700`: the weight at `700` (`4.4`) is strictly less than the weight at `600`
(`5.2`), under either evaluation. -/
theorem C7_ComputeWeight_antitone_witness :
    F64.lt
        ((loadMobilityProfile (plainConfig "asset_tracking")).1.ComputeWeightOn false 700 0
          false)
        ((loadMobilityProfile (plainConfig "asset_tracking")).1.ComputeWeightOn false 600 0
          false) = true
      ∧ F64.lt
        ((loadMobilityProfile (plainConfig "asset_tracking")).1.ComputeWeightOn true 700 0
          false)
        ((loadMobilityProfile (plainConfig "asset_tracking")).1.ComputeWeightOn true 600 0
          false) = true :=
  ⟨C7_ComputeWeight_antitone.2.1 false 600 0 700 0 (by decide) (by decide) (by decide),
    C7_ComputeWeight_antitone.2.1 true 600 0 700 0 (by decide) (by decide) (by decide)⟩

/-- C8, as stated, fails where a NaN comes in, and finite settings suffice for
one: with `asset_tracking` and slope and holdoff overridden with `1e300` each,
the product `Slope * HoldoffMillis` overflows to `+Inf` and the derived
intercept is `-Inf`; at an elapsed time of `9e18` the product
`Slope * float64(elapsed)` overflows to `+Inf` too, the linear value
`Inf + (-Inf)` is NaN, `ComputeWeight` returns it, and NaN is not `<=` the
threshold `6.0`. -/
theorem C8_counterexample :
    (loadMobilityProfile overflowConfig).1.Slope.isFinite = true
      ∧ (loadMobilityProfile overflowConfig).1.HoldoffMillis.isFinite = true
      ∧ (loadMobilityProfile overflowConfig).1.Threshold = F64.ofFrac false 6 1
      ∧ (loadMobilityProfile overflowConfig).1.YIntercept = F64.inf true
      ∧ (loadMobilityProfile overflowConfig).1.ComputeWeight 9000000000000000000 0 false
          = F64.nan
      ∧ F64.le
          ((loadMobilityProfile overflowConfig).1.ComputeWeight 9000000000000000000 0 false)
          (loadMobilityProfile overflowConfig).1.Threshold = false := by
  decide

/-- C8, amended. `ComputeWeight` never returns a value greater than the
profile's `Threshold`, for every profile, every pair of timestamps and either
value of the deep-scan flag; and whenever neither the returned value nor
`Threshold` is NaN, the returned value is less than or equal to `Threshold`. -/
theorem C8_ComputeWeight_le_threshold (p : MobilityProfile)
    (referenceTimestamp lastRead : Int) (isInDeepScan : Bool) :
    F64.gt (p.ComputeWeight referenceTimestamp lastRead isInDeepScan) p.Threshold = false
      ∧ (p.ComputeWeight referenceTimestamp lastRead isInDeepScan ≠ F64.nan →
          p.Threshold ≠ F64.nan →
          F64.le (p.ComputeWeight referenceTimestamp lastRead isInDeepScan) p.Threshold
            = true) := by
  have h : F64.gt (p.ComputeWeight referenceTimestamp lastRead isInDeepScan) p.Threshold
      = false := by
    cases isInDeepScan with
    | true => rw [ComputeWeight_deep]; exact F64.gt_self _
    | false =>
      rw [ComputeWeight_eq_cap]
      cases hg : F64.gt (p.linearWeight referenceTimestamp lastRead) p.Threshold with
      | true => simpa using F64.gt_self _
      | false => simpa using hg
  exact ⟨h, fun hw ht => F64.le_of_gt_eq_false hw ht h⟩

/-- C9. For an identifier that is not a key of the registry, under any
overrides, `loadMobilityProfile` returns the profile it returns for `"default"`
under the same overrides; with no override active that profile is `-0.008`,
`6.0`, `500`, `10.0`. -/
theorem C9_unknown_id_is_default (cfg : AppConfig)
    (h : cfg.MobilityProfileBaseProfile ∉ mobilityProfiles.map Prod.fst) :
    (loadMobilityProfile cfg).1 =
        (loadMobilityProfile { cfg with MobilityProfileBaseProfile := "default" }).1
      ∧ (cfg.MobilityProfileSlopeOverridden = false →
          cfg.MobilityProfileThresholdOverridden = false →
          cfg.MobilityProfileHoldoffMillisOverridden = false →
          (loadMobilityProfile cfg).1 =
            { Slope := F64.ofFrac true 8 1000, Threshold := F64.ofFrac false 6 1,
              HoldoffMillis := F64.ofFrac false 500 1, YIntercept := F64.ofFrac false 10 1 }) := by
  have hb : baseProfile cfg.MobilityProfileBaseProfile = defaultProfile := by
    unfold baseProfile
    rw [lookup_eq_none_of_not_key h]
    rfl
  have hd : baseProfile "default" = defaultProfile := by decide
  refine ⟨?_, fun h1 h2 h3 => ?_⟩
  · rw [loadMobilityProfile_fields, loadMobilityProfile_fields, hb]
    simp only [hd]
  · rw [loadMobilityProfile_fields, hb, h1, h2, h3]
    simp only [Bool.false_eq_true, if_false]
    decide

/-- C9 at the identifier `"nonexistent_profile"` with no override. -/
theorem C9_unknown_id_is_default_witness :
    (loadMobilityProfile (plainConfig "nonexistent_profile")).1 =
        (loadMobilityProfile
          { plainConfig "nonexistent_profile" with MobilityProfileBaseProfile := "default" }).1
      ∧ (loadMobilityProfile (plainConfig "nonexistent_profile")).1 =
          { Slope := F64.ofFrac true 8 1000, Threshold := F64.ofFrac false 6 1,
            HoldoffMillis := F64.ofFrac false 500 1, YIntercept := F64.ofFrac false 10 1 } :=
  ⟨(C9_unknown_id_is_default (plainConfig "nonexistent_profile") (by decide)).1,
    (C9_unknown_id_is_default (plainConfig "nonexistent_profile") (by decide)).2 rfl rfl rfl⟩

/-- C10. Each of `Slope`, `Threshold` and `HoldoffMillis` of the profile
`loadMobilityProfile` returns is the configured override when that field's flag
is set and the selected preset's value when it is not, whatever the override
value then is. With `asset_tracking` and only the threshold overridden, with
`9.0`, the result is `-0.008`, `9.0`, `500`, `13.0`. -/
theorem C10_overrides (cfg : AppConfig) :
    (loadMobilityProfile cfg).1.Slope =
        (if cfg.MobilityProfileSlopeOverridden then cfg.MobilityProfileSlope
          else (baseProfile cfg.MobilityProfileBaseProfile).Slope)
      ∧ (loadMobilityProfile cfg).1.Threshold =
        (if cfg.MobilityProfileThresholdOverridden then cfg.MobilityProfileThreshold
          else (baseProfile cfg.MobilityProfileBaseProfile).Threshold)
      ∧ (loadMobilityProfile cfg).1.HoldoffMillis =
        (if cfg.MobilityProfileHoldoffMillisOverridden then cfg.MobilityProfileHoldoffMillis
          else (baseProfile cfg.MobilityProfileBaseProfile).HoldoffMillis)
      ∧ (loadMobilityProfile threshold9Config).1 =
          { Slope := F64.ofFrac true 8 1000, Threshold := F64.ofFrac false 9 1,
            HoldoffMillis := F64.ofFrac false 500 1, YIntercept := F64.ofFrac false 13 1 } := by
  rw [loadMobilityProfile_fields]
  exact ⟨rfl, rfl, rfl, by decide⟩

/-- C11. With the process state modelled as the cached active profile and the
current configuration: once `GetMobilityProfile` has been called, every later
call returns the profile that call returned, whatever configuration changes
and calls come between; in a process that starts with an empty cache, the
first call and every later one return `loadMobilityProfile` of the
configuration in force at the first call; and two calls with any configuration
changes between them return the same profile twice. -/
theorem C11_GetMobilityProfile_cache (s : Process) (cfg₀ : AppConfig) (pre : List AppConfig)
    (es : List Event) :
    (∀ out ∈ ((s.step Event.getMobilityProfile).1.run es).2,
        out = (GetMobilityProfile s.config s.globals).1.1)
      ∧ (Process.run { config := cfg₀, globals := initialGlobals }
            (pre.map Event.setConfig ++ Event.getMobilityProfile :: es)).2.head?
          = some (loadMobilityProfile (pre.getLastD cfg₀)).1
      ∧ (∀ out ∈ (Process.run { config := cfg₀, globals := initialGlobals }
            (pre.map Event.setConfig ++ Event.getMobilityProfile :: es)).2,
          out = (loadMobilityProfile (pre.getLastD cfg₀)).1)
      ∧ (∀ mid : List AppConfig,
          (s.run (Event.getMobilityProfile
              :: (mid.map Event.setConfig ++ [Event.getMobilityProfile]))).2
            = [(GetMobilityProfile s.config s.globals).1.1,
                (GetMobilityProfile s.config s.globals).1.1]) := by
  have stable : ∀ t : Process, ∀ out ∈ ((t.step Event.getMobilityProfile).1.run es).2,
      out = (GetMobilityProfile t.config t.globals).1.1 := by
    intro t
    apply run_cached es
    exact GetMobilityProfile_fills t.config t.globals
  obtain ⟨h1, h2, h3⟩ := run_setConfig pre { config := cfg₀, globals := initialGlobals }
  have hfirst : ∀ t : Process, t.globals = initialGlobals →
      (GetMobilityProfile t.config t.globals).1.1 = (loadMobilityProfile t.config).1 := by
    intro t ht
    rw [ht]
    rfl
  have hout : (Process.run { config := cfg₀, globals := initialGlobals }
      (pre.map Event.setConfig ++ Event.getMobilityProfile :: es)).2
      = (loadMobilityProfile (pre.getLastD cfg₀)).1 ::
        (((Process.run { config := cfg₀, globals := initialGlobals }
          (pre.map Event.setConfig)).1.step Event.getMobilityProfile).1.run es).2 := by
    rw [run_append, h1, List.nil_append]
    simp only [Process.run, Process.step, List.singleton_append]
    rw [hfirst _ h2, h3]
  refine ⟨stable s, ?_, ?_, run_two_calls s⟩
  · rw [hout]; rfl
  · intro out ho
    rw [hout, List.mem_cons] at ho
    rcases ho with ho | ho
    · exact ho
    · rw [stable _ out ho, hfirst _ h2, h3]

/-- C12. Resolution does not change the registry: `loadMobilityProfile` leaves
every package-level variable as it was, and `GetMobilityProfile` leaves
`mobilityProfiles`, `defaultProfile` and the two presets as they were (it only
fills `activeProfile`); so after either of them, under any overrides, resolving
an identifier with no overrides gives what it gives in a fresh process. -/
theorem C12_registry_unchanged (cfg : AppConfig) (g : Globals) (id : String) :
    (loadMobilityProfileIn cfg g).2 = g
      ∧ (GetMobilityProfile cfg g).2.mobilityProfiles = g.mobilityProfiles
      ∧ (GetMobilityProfile cfg g).2.defaultProfile = g.defaultProfile
      ∧ (GetMobilityProfile cfg g).2.assetTracking = g.assetTracking
      ∧ (GetMobilityProfile cfg g).2.retailGarment = g.retailGarment
      ∧ (loadMobilityProfileIn (plainConfig id) (loadMobilityProfileIn cfg initialGlobals).2).1
          = loadMobilityProfile (plainConfig id)
      ∧ (loadMobilityProfileIn (plainConfig id) (GetMobilityProfile cfg initialGlobals).2).1
          = loadMobilityProfile (plainConfig id) := by
  have hg : ∀ g : Globals, (GetMobilityProfile cfg g).2.mobilityProfiles = g.mobilityProfiles
      ∧ (GetMobilityProfile cfg g).2.defaultProfile = g.defaultProfile
      ∧ (GetMobilityProfile cfg g).2.assetTracking = g.assetTracking
      ∧ (GetMobilityProfile cfg g).2.retailGarment = g.retailGarment := by
    intro g
    unfold GetMobilityProfile
    cases g.activeProfile with
    | none => exact ⟨rfl, rfl, rfl, rfl⟩
    | some p => exact ⟨rfl, rfl, rfl, rfl⟩
  exact ⟨rfl, (hg g).1, (hg g).2.1, (hg g).2.2.1, (hg g).2.2.2, rfl, rfl⟩

/-- C13. With no override active (whatever the inactive override values),
`loadMobilityProfile` returns `-0.008`, `6.0`, `500`, `10.0` for
`"asset_tracking"` and `-0.0005`, `6.0`, `60000`, `36.0` for `"retail_garment"`;
and under every overrides setting it returns the same profile for `"default"` as
for `"asset_tracking"`. -/
theorem C13_presets (cfg : AppConfig) :
    (loadMobilityProfile
        { cfg with
          MobilityProfileBaseProfile := "asset_tracking"
          MobilityProfileSlopeOverridden := false
          MobilityProfileThresholdOverridden := false
          MobilityProfileHoldoffMillisOverridden := false }).1
        = { Slope := F64.ofFrac true 8 1000, Threshold := F64.ofFrac false 6 1,
            HoldoffMillis := F64.ofFrac false 500 1, YIntercept := F64.ofFrac false 10 1 }
      ∧ (loadMobilityProfile
        { cfg with
          MobilityProfileBaseProfile := "retail_garment"
          MobilityProfileSlopeOverridden := false
          MobilityProfileThresholdOverridden := false
          MobilityProfileHoldoffMillisOverridden := false }).1
        = { Slope := F64.ofFrac true 5 10000, Threshold := F64.ofFrac false 6 1,
            HoldoffMillis := F64.ofFrac false 60000 1, YIntercept := F64.ofFrac false 36 1 }
      ∧ (loadMobilityProfile { cfg with MobilityProfileBaseProfile := "default" }).1
        = (loadMobilityProfile { cfg with MobilityProfileBaseProfile := "asset_tracking" }).1 := by
  refine ⟨?_, ?_, ?_⟩
  · rw [loadMobilityProfile_fields]
    simp only [Bool.false_eq_true, if_false]
    decide
  · rw [loadMobilityProfile_fields]
    simp only [Bool.false_eq_true, if_false]
    decide
  · rw [loadMobilityProfile_fields, loadMobilityProfile_fields]
    have h1 : baseProfile "default" = baseProfile "asset_tracking" := by decide
    simp only [h1]

/-- C14, as stated, fails by rounding: on the derived `asset_tracking` preset
(slope `-0.008 ≤ 0`, intercept `Threshold - Slope * HoldoffMillis`) and an
elapsed time of `565` the code returns `-4.52 + 10 = 5.4799999999999995`
(`6169931489497579 / 2^50`) while the explicit branch returns
`6 + (-0.008 * 65) = 5.48` (`6169931489497580 / 2^50`). -/
theorem C14_counterexample :
    F64.le (loadMobilityProfile (plainConfig "asset_tracking")).1.Slope F64.zero = true
      ∧ (loadMobilityProfile (plainConfig "asset_tracking")).1.YIntercept =
          F64.sub (loadMobilityProfile (plainConfig "asset_tracking")).1.Threshold
            (F64.mul (loadMobilityProfile (plainConfig "asset_tracking")).1.Slope
              (loadMobilityProfile (plainConfig "asset_tracking")).1.HoldoffMillis)
      ∧ (loadMobilityProfile (plainConfig "asset_tracking")).1.ComputeWeight 565 0 false
          = F64.fin false 6169931489497579 (-50)
      ∧ (loadMobilityProfile (plainConfig "asset_tracking")).1.ComputeWeightRef 565 0
          = F64.fin false 6169931489497580 (-50)
      ∧ (loadMobilityProfile (plainConfig "asset_tracking")).1.ComputeWeight 565 0 false
          ≠ (loadMobilityProfile (plainConfig "asset_tracking")).1.ComputeWeightRef 565 0
      ∧ F64.eq
          ((loadMobilityProfile (plainConfig "asset_tracking")).1.ComputeWeight 565 0 false)
          ((loadMobilityProfile (plainConfig "asset_tracking")).1.ComputeWeightRef 565 0)
          = false := by
  have h1 : (loadMobilityProfile (plainConfig "asset_tracking")).1.ComputeWeight 565 0 false
      = F64.fin false 6169931489497579 (-50) := by decide
  have h2 : (loadMobilityProfile (plainConfig "asset_tracking")).1.ComputeWeightRef 565 0
      = F64.fin false 6169931489497580 (-50) := by decide
  refine ⟨by decide, by decide, h1, h2, ?_, ?_⟩
  · rw [h1, h2]; decide
  · rw [h1, h2]; decide

/-- C14, amended. For every profile of finite binary64 fields with
`Slope <= 0`, `|Slope| <= 2^400`, `|HoldoffMillis| <= 2^500` and
`|Threshold| <= 2^500`, whose `YIntercept` is `Threshold - Slope * HoldoffMillis`
as computed in `float64`, and every pair of timestamps,
`ComputeWeight(referenceTimestamp, lastRead, false)` and the reference
definition (which returns `Threshold` when `elapsed <= HoldoffMillis` and
`Threshold + Slope * (elapsed - HoldoffMillis)` otherwise) are both finite and
differ by at most
`2^-49 * (|Threshold| + |Slope * elapsed| + |Slope * HoldoffMillis|) + 2^-1072`,
where `elapsed` is the `int64` difference converted to `float64`. -/
theorem C14_ComputeWeight_close_to_branch (p : MobilityProfile) (hw : p.WF)
    (hneg : F64.le p.Slope F64.zero = true)
    (hY : p.YIntercept = F64.sub p.Threshold (F64.mul p.Slope p.HoldoffMillis))
    (hS : p.Slope.isFinite = true) (hH : p.HoldoffMillis.isFinite = true)
    (hT : p.Threshold.isFinite = true)
    (bS : |F64.toRat p.Slope| ≤ 2 ^ (400 : ℤ))
    (bH : |F64.toRat p.HoldoffMillis| ≤ 2 ^ (500 : ℤ))
    (bT : |F64.toRat p.Threshold| ≤ 2 ^ (500 : ℤ))
    (referenceTimestamp lastRead : Int) :
    (p.ComputeWeight referenceTimestamp lastRead false).isFinite = true
      ∧ (p.ComputeWeightRef referenceTimestamp lastRead).isFinite = true
      ∧ |F64.toRat (p.ComputeWeight referenceTimestamp lastRead false)
            - F64.toRat (p.ComputeWeightRef referenceTimestamp lastRead)|
          ≤ 2 ^ (-49 : ℤ)
              * (|F64.toRat p.Threshold|
                + |F64.toRat p.Slope
                    * F64.toRat (F64.ofInt (wrapInt64 (referenceTimestamp - lastRead)))|
                + |F64.toRat p.Slope * F64.toRat p.HoldoffMillis|)
            + 2 ^ (-1072 : ℤ) := by
  have hx := isFinite_elapsed (referenceTimestamp - lastRead)
  have wx := F64.WF_ofInt (wrapInt64 (referenceTimestamp - lastRead))
  have bx := abs_toRat_elapsed (referenceTimestamp - lastRead)
  obtain ⟨fw, fr, ec, er⟩ := linear_values_close hw.2.2.1 hw.2.1 wx hS hH hT hx bS bH bT bx
  have hSn := F64.ne_nan_of_isFinite hS
  have hHn := F64.ne_nan_of_isFinite hH
  have hxn := F64.ne_nan_of_isFinite hx
  -- the slope is not positive
  have ha : F64.toRat p.Slope ≤ 0 := by
    have := (F64.le_iff_key hSn (by simp [F64.zero]) hw.1 (F64.WF_zero false)).mp hneg
    rw [F64.key_eq_toRat hS] at this
    simpa [F64.zero, F64.key, F64.dval] using this
  -- the code is the cap of the linear value
  have hcode : p.ComputeWeight referenceTimestamp lastRead false
      = capAt p.Threshold (F64.add
          (F64.mul p.Slope (F64.ofInt (wrapInt64 (referenceTimestamp - lastRead))))
          (F64.sub p.Threshold (F64.mul p.Slope p.HoldoffMillis))) := by
    rw [ComputeWeight_eq_capAt, MobilityProfile.lineAt, hY]
  obtain ⟨fc, vc⟩ := toRat_capAt hw.2.1 (F64.WF_add _ _) hT fw
  rw [hcode, vc]
  have h49 : (2 : ℚ) ^ (-49 : ℤ) = 2 * 2 ^ (-50 : ℤ) := by
    rw [show (-49 : ℤ) = 1 + -50 by norm_num, F64.tp_add]; norm_num
  have h72 : (2 : ℚ) ^ (-1072 : ℤ) = 2 * (4 * 2 ^ (-1075 : ℤ)) := by
    rw [show (-1072 : ℤ) = 3 + -1075 by norm_num, F64.tp_add]; norm_num
  have hbound : ∀ A : ℚ, 2 ^ (-49 : ℤ) * A + 2 ^ (-1072 : ℤ)
      = 2 * (2 ^ (-50 : ℤ) * A + 4 * 2 ^ (-1075 : ℤ)) := by
    intro A; rw [h49, h72]; ring
  rw [hbound]
  unfold MobilityProfile.ComputeWeightRef
  simp only []
  by_cases hle : F64.le (F64.ofInt (wrapInt64 (referenceTimestamp - lastRead)))
      p.HoldoffMillis = true
  · rw [if_pos hle]
    refine ⟨fc, hT, cap_close_threshold ec ?_⟩
    have := (F64.le_iff_key hxn hHn wx hw.2.2.1).mp hle
    rw [F64.key_eq_toRat hx, F64.key_eq_toRat hH] at this
    nlinarith
  · rw [if_neg hle]
    refine ⟨fc, fr, cap_close ec er ?_⟩
    have : ¬ F64.key (F64.ofInt (wrapInt64 (referenceTimestamp - lastRead)))
        ≤ F64.key p.HoldoffMillis := fun h => hle ((F64.le_iff_key hxn hHn wx hw.2.2.1).mpr h)
    rw [F64.key_eq_toRat hx, F64.key_eq_toRat hH] at this
    nlinarith

/-- C14 at the derived `asset_tracking` preset and an elapsed time of `565`,
where the two values differ: both are finite and within the bound. -/
theorem C14_ComputeWeight_close_to_branch_witness :
    ((loadMobilityProfile (plainConfig "asset_tracking")).1.ComputeWeight 565 0 false).isFinite
        = true
      ∧ ((loadMobilityProfile (plainConfig "asset_tracking")).1.ComputeWeightRef 565 0).isFinite
        = true
      ∧ |F64.toRat
            ((loadMobilityProfile (plainConfig "asset_tracking")).1.ComputeWeight 565 0 false)
          - F64.toRat
            ((loadMobilityProfile (plainConfig "asset_tracking")).1.ComputeWeightRef 565 0)|
        ≤ 2 ^ (-49 : ℤ)
            * (|F64.toRat (loadMobilityProfile (plainConfig "asset_tracking")).1.Threshold|
              + |F64.toRat (loadMobilityProfile (plainConfig "asset_tracking")).1.Slope
                  * F64.toRat (F64.ofInt (wrapInt64 (565 - 0)))|
              + |F64.toRat (loadMobilityProfile (plainConfig "asset_tracking")).1.Slope
                  * F64.toRat
                      (loadMobilityProfile (plainConfig "asset_tracking")).1.HoldoffMillis|)
          + 2 ^ (-1072 : ℤ) :=
  C14_ComputeWeight_close_to_branch (loadMobilityProfile (plainConfig "asset_tracking")).1
    (by decide) (by decide) (by decide) (by decide) (by decide) (by decide)
    (by
      rw [show (loadMobilityProfile (plainConfig "asset_tracking")).1.Slope
        = F64.fin true 4611686018427388 (-59) by decide]
      norm_num [F64.toRat, abs_le])
    (by
      rw [show (loadMobilityProfile (plainConfig "asset_tracking")).1.HoldoffMillis
        = F64.fin false 8796093022208000 (-44) by decide]
      norm_num [F64.toRat, abs_le])
    (by
      rw [show (loadMobilityProfile (plainConfig "asset_tracking")).1.Threshold
        = F64.fin false 6755399441055744 (-50) by decide]
      norm_num [F64.toRat, abs_le])
    565 0

/-- C15. `ComputeWeight` sees the two timestamps only through their 64-bit
difference: shifting both by the same `d`, with `int64` wraparound, leaves the
result as it is, for every profile and either deep-scan flag. -/
theorem C15_ComputeWeight_shift (p : MobilityProfile) (r l d : Int) (isInDeepScan : Bool) :
    p.ComputeWeight (wrapInt64 (r + d)) (wrapInt64 (l + d)) isInDeepScan
      = p.ComputeWeight r l isInDeepScan := by
  unfold MobilityProfile.ComputeWeight
  rw [wrapInt64_shift]

/-- C16. The elapsed time `ComputeWeight` uses is the `int64` wraparound
difference. For the `int64` timestamps `2^63 - 1` and `-1` the mathematical
difference `2^63` is beyond the holdoff of the derived `asset_tracking` profile,
but the subtraction wraps to `-2^63` and `ComputeWeight` returns the threshold
`6.0`, where the mathematical difference would give a value below it; and
whenever the mathematical difference is in the `int64` range, the elapsed time
used is that difference. -/
theorem C16_elapsed_wraps :
    (∀ (p : MobilityProfile) (r l : Int),
        p.ComputeWeight r l false
          = capAt p.Threshold (p.lineAt (F64.ofInt (wrapInt64 (r - l)))))
      ∧ InInt64 9223372036854775807 ∧ InInt64 (-1)
      ∧ F64.toRat (loadMobilityProfile (plainConfig "asset_tracking")).1.HoldoffMillis
          < ((9223372036854775807 - (-1) : ℤ) : ℚ)
      ∧ wrapInt64 (9223372036854775807 - (-1)) = -9223372036854775808
      ∧ (loadMobilityProfile (plainConfig "asset_tracking")).1.ComputeWeight
            9223372036854775807 (-1) false
          = (loadMobilityProfile (plainConfig "asset_tracking")).1.Threshold
      ∧ (loadMobilityProfile (plainConfig "asset_tracking")).1.Threshold = F64.ofFrac false 6 1
      ∧ F64.lt
          (capAt (loadMobilityProfile (plainConfig "asset_tracking")).1.Threshold
            ((loadMobilityProfile (plainConfig "asset_tracking")).1.lineAt
              (F64.ofInt (9223372036854775807 - (-1)))))
          (loadMobilityProfile (plainConfig "asset_tracking")).1.Threshold = true
      ∧ (∀ r l : Int, InInt64 (r - l) → wrapInt64 (r - l) = r - l) := by
  refine ⟨fun p r l => ComputeWeight_eq_capAt p r l, by decide, by decide, ?_, by decide,
    by decide, by decide, by decide, fun r l h => wrapInt64_of_range h⟩
  rw [show (loadMobilityProfile (plainConfig "asset_tracking")).1.HoldoffMillis
    = F64.fin false 8796093022208000 (-44) by decide]
  norm_num [F64.toRat]

/-- C17, as stated, fails by rounding, in both halves and under either
evaluation of the linear value. With `asset_tracking`, the slope overridden
with `0.008` and the threshold with `0.3`, the derived intercept is the binary64
nearest to `-3.7`; at an elapsed time of `500`, the holdoff, the linear value
is `0.2999999999999998` with separate roundings and `0.29999999999999993` with
one fused rounding, below the threshold, and `ComputeWeight` returns it. With
the slope overridden with `1e-18` the derived intercept is `5.999999999999999`;
at an elapsed time of `499`, inside the holdoff, the linear value rounds to
`6.0`, and `ComputeWeight` returns the threshold itself, not less. -/
theorem C17_counterexample :
    (F64.gt (loadMobilityProfile positiveSlopeThresholdConfig).1.Slope F64.zero = true
      ∧ (loadMobilityProfile positiveSlopeThresholdConfig).1.YIntercept =
        F64.sub (loadMobilityProfile positiveSlopeThresholdConfig).1.Threshold
          (F64.mul (loadMobilityProfile positiveSlopeThresholdConfig).1.Slope
            (loadMobilityProfile positiveSlopeThresholdConfig).1.HoldoffMillis)
      ∧ (F64.toRat (loadMobilityProfile positiveSlopeThresholdConfig).1.HoldoffMillis
          ≤ ((500 - 0 : ℤ) : ℚ))
      ∧ (loadMobilityProfile positiveSlopeThresholdConfig).1.Threshold
          = F64.fin false 5404319552844595 (-54)
      ∧ (loadMobilityProfile positiveSlopeThresholdConfig).1.ComputeWeight 500 0 false
          = F64.fin false 5404319552844592 (-54)
      ∧ F64.eq ((loadMobilityProfile positiveSlopeThresholdConfig).1.ComputeWeight 500 0 false)
          (loadMobilityProfile positiveSlopeThresholdConfig).1.Threshold = false
      ∧ (loadMobilityProfile positiveSlopeThresholdConfig).1.ComputeWeightOn true 500 0 false
          = F64.fin false 5404319552844594 (-54)
      ∧ F64.eq
          ((loadMobilityProfile positiveSlopeThresholdConfig).1.ComputeWeightOn true 500 0 false)
          (loadMobilityProfile positiveSlopeThresholdConfig).1.Threshold = false)
      ∧ (F64.gt (loadMobilityProfile tinyPositiveSlopeConfig).1.Slope F64.zero = true
        ∧ (loadMobilityProfile tinyPositiveSlopeConfig).1.YIntercept =
          F64.sub (loadMobilityProfile tinyPositiveSlopeConfig).1.Threshold
            (F64.mul (loadMobilityProfile tinyPositiveSlopeConfig).1.Slope
              (loadMobilityProfile tinyPositiveSlopeConfig).1.HoldoffMillis)
        ∧ (((499 - 0 : ℤ) : ℚ)
            < F64.toRat (loadMobilityProfile tinyPositiveSlopeConfig).1.HoldoffMillis)
        ∧ (loadMobilityProfile tinyPositiveSlopeConfig).1.ComputeWeight 499 0 false
            = (loadMobilityProfile tinyPositiveSlopeConfig).1.Threshold
        ∧ F64.lt ((loadMobilityProfile tinyPositiveSlopeConfig).1.ComputeWeight 499 0 false)
            (loadMobilityProfile tinyPositiveSlopeConfig).1.Threshold = false
        ∧ (loadMobilityProfile tinyPositiveSlopeConfig).1.ComputeWeightOn true 499 0 false
            = (loadMobilityProfile tinyPositiveSlopeConfig).1.Threshold
        ∧ F64.lt
            ((loadMobilityProfile tinyPositiveSlopeConfig).1.ComputeWeightOn true 499 0 false)
            (loadMobilityProfile tinyPositiveSlopeConfig).1.Threshold = false) := by
  refine ⟨⟨by decide, by decide, ?_, by decide, by decide, by decide, by decide, by decide⟩,
    ⟨by decide, by decide, ?_, by decide, by decide, by decide, by decide⟩⟩
  · rw [show (loadMobilityProfile positiveSlopeThresholdConfig).1.HoldoffMillis
      = F64.fin false 8796093022208000 (-44) by decide]
    norm_num [F64.toRat]
  · rw [show (loadMobilityProfile tinyPositiveSlopeConfig).1.HoldoffMillis
      = F64.fin false 8796093022208000 (-44) by decide]
    norm_num [F64.toRat]

/-- C17, amended. A positive `Slope` (which the override admits without
validation) turns the holdoff window around, up to rounding, under either
evaluation of the linear value (product and sum rounded separately, or fused
into one rounding). For every profile of binary64 fields with positive `Slope`
whose `YIntercept` is `Threshold - Slope * HoldoffMillis` and finite, and every
pair of timestamps whose elapsed time is in the `int64` range: when the elapsed
time is at least `HoldoffMillis`, `ComputeWeight` returns at most `Threshold`
and at least the `float64` value `Slope * HoldoffMillis + YIntercept` capped at
`Threshold`, and it returns a value that compares `==` to `Threshold` whenever
`Slope * HoldoffMillis + YIntercept` is not below `Threshold` (with separate
roundings that is so when `YIntercept` is `Threshold` minus the rounded product
without rounding error, with one fused rounding when `YIntercept` is
`Threshold - Slope * HoldoffMillis` without any rounding error); when the elapsed
time is less than `HoldoffMillis`, it returns at most `Threshold` and at most
`Slope * HoldoffMillis + YIntercept` capped at `Threshold`. For
`|Slope| <= 2^900` and `|YIntercept| <= 2^1000` it returns a value `==` to
`Threshold` whenever the exact value `Slope * elapsed + YIntercept` is above
`Threshold` by at least the rounding error bound
`2^-51 * (|Slope * elapsed| + |YIntercept|) + 2^-1074`, and a value strictly
below `Threshold` whenever the exact value is below `Threshold` by more than
that bound. For `asset_tracking` with the slope overridden with `0.008` it
returns a value `==` to `Threshold` for every elapsed time of the `int64` range
from `500` on, and a value strictly below `Threshold` for every elapsed time of
the `int64` range below `500`. -/
theorem C17_ComputeWeight_positive_slope :
    (∀ (fused : Bool) (p : MobilityProfile), p.WF → F64.gt p.Slope F64.zero = true →
      p.YIntercept = F64.sub p.Threshold (F64.mul p.Slope p.HoldoffMillis) →
      p.YIntercept.isFinite = true →
      ∀ referenceTimestamp lastRead : Int, InInt64 (referenceTimestamp - lastRead) →
        (F64.toRat p.HoldoffMillis ≤ ((referenceTimestamp - lastRead : ℤ) : ℚ) →
          F64.le (p.ComputeWeightOn fused referenceTimestamp lastRead false) p.Threshold = true
            ∧ F64.le (capAt p.Threshold (p.boundaryWeightOn fused))
                (p.ComputeWeightOn fused referenceTimestamp lastRead false) = true
            ∧ (F64.le p.Threshold (p.boundaryWeightOn fused) = true →
                F64.eq (p.ComputeWeightOn fused referenceTimestamp lastRead false) p.Threshold
                  = true)
            ∧ (F64.toRat p.YIntercept
                  = F64.toRat p.Threshold - F64.toRat (F64.mul p.Slope p.HoldoffMillis) →
                F64.eq (p.ComputeWeightOn false referenceTimestamp lastRead false) p.Threshold
                  = true)
            ∧ (F64.toRat p.YIntercept
                  = F64.toRat p.Threshold - F64.toRat p.Slope * F64.toRat p.HoldoffMillis →
                F64.eq (p.ComputeWeightOn true referenceTimestamp lastRead false) p.Threshold
                  = true))
          ∧ (((referenceTimestamp - lastRead : ℤ) : ℚ) < F64.toRat p.HoldoffMillis →
            F64.le (p.ComputeWeightOn fused referenceTimestamp lastRead false) p.Threshold
                = true
              ∧ F64.le (p.ComputeWeightOn fused referenceTimestamp lastRead false)
                  (capAt p.Threshold (p.boundaryWeightOn fused)) = true)
          ∧ (|F64.toRat p.Slope| ≤ 2 ^ (900 : ℤ) → |F64.toRat p.YIntercept| ≤ 2 ^ (1000 : ℤ) →
              (F64.toRat p.Threshold + p.lineError (F64.ofInt (referenceTimestamp - lastRead))
                  ≤ p.exactLine (F64.ofInt (referenceTimestamp - lastRead)) →
                F64.eq (p.ComputeWeightOn fused referenceTimestamp lastRead false) p.Threshold
                  = true)
              ∧ (p.exactLine (F64.ofInt (referenceTimestamp - lastRead))
                    + p.lineError (F64.ofInt (referenceTimestamp - lastRead))
                  < F64.toRat p.Threshold →
                F64.lt (p.ComputeWeightOn fused referenceTimestamp lastRead false) p.Threshold
                  = true)))
      ∧ (∀ (fused : Bool) (referenceTimestamp lastRead : Int),
          InInt64 (referenceTimestamp - lastRead) → 500 ≤ referenceTimestamp - lastRead →
          F64.eq
            ((loadMobilityProfile positiveSlopeConfig).1.ComputeWeightOn fused
              referenceTimestamp lastRead false)
            (loadMobilityProfile positiveSlopeConfig).1.Threshold = true)
      ∧ (∀ (fused : Bool) (referenceTimestamp lastRead : Int),
          InInt64 (referenceTimestamp - lastRead) → referenceTimestamp - lastRead < 500 →
          F64.lt
            ((loadMobilityProfile positiveSlopeConfig).1.ComputeWeightOn fused
              referenceTimestamp lastRead false)
            (loadMobilityProfile positiveSlopeConfig).1.Threshold = true) := by
  refine ⟨?_, ?_, ?_⟩
  · intro fused p hw hpos hY hfin r l hr
    obtain ⟨hS, hHf, hT, hP⟩ := fields_finite hY hfin
    have hs := (toRat_pos_of_gt_zero hw.1 hS hpos).le
    have hex := key_boundaryWeightOn_of_exact hw hS hHf hT hfin
    refine ⟨fun he => ⟨(weight_after_rising fused hw hS hHf hT hfin hs r l hr he).1,
        (weight_after_rising fused hw hS hHf hT hfin hs r l hr he).2.1,
        (weight_after_rising fused hw hS hHf hT hfin hs r l hr he).2.2.1,
        fun hx => (weight_after_rising false hw hS hHf hT hfin hs r l hr he).2.2.2
          (hex.1 (by linarith) hP).ge,
        fun hx => (weight_after_rising true hw hS hHf hT hfin hs r l hr he).2.2.2
          (hex.2 (by linarith)).ge⟩,
      fun he => weight_before_rising fused hw hS hHf hT hfin hs r l hr he.le,
      fun bS bY => ⟨fun hgap => ?_, fun hgap => ?_⟩⟩
    · apply ComputeWeightOn_eq_of_gap fused hw hS hT hfin bS bY
      rw [wrapInt64_of_range hr]; exact hgap
    · apply ComputeWeightOn_lt_of_gap fused hw hS hT hfin bS bY
      rw [wrapInt64_of_range hr]; exact hgap
  · intro fused r l hr he
    obtain ⟨hw, hS, hH, hT, hY, vS, vH, _, _⟩ := positive_slope_numbers
    apply (weight_after_rising fused hw hS hH hT hY (by rw [vS]; norm_num) r l hr
      (by rw [vH]; exact_mod_cast he)).2.2.1
    cases fused <;> decide
  · intro fused r l hr he
    obtain ⟨hw, hS, _, hT, hY, vS, _, vT, vY⟩ := positive_slope_numbers
    apply lt_threshold_before fused hw hS hT hY _ _ _ (by norm_num : (1 : ℤ) ≤ 500)
      (by norm_num) _ r l hr he
    · rw [vS]; norm_num [abs_le]
    · rw [vY]; norm_num [abs_le]
    · rw [vS]; norm_num
    · rw [vS, vY, vT]; norm_num

/-- C17 at `asset_tracking` with the slope overridden with `0.008`: at the
timestamps `600` and `0` the result compares `==` to the threshold, and at
`100` and `0` it (`2.8`) is strictly below the threshold `6.0`, under either
evaluation. -/
theorem C17_ComputeWeight_positive_slope_witness :
    (F64.eq ((loadMobilityProfile positiveSlopeConfig).1.ComputeWeightOn false 600 0 false)
        (loadMobilityProfile positiveSlopeConfig).1.Threshold = true
      ∧ F64.eq ((loadMobilityProfile positiveSlopeConfig).1.ComputeWeightOn true 600 0 false)
        (loadMobilityProfile positiveSlopeConfig).1.Threshold = true)
      ∧ (F64.lt ((loadMobilityProfile positiveSlopeConfig).1.ComputeWeightOn false 100 0 false)
          (loadMobilityProfile positiveSlopeConfig).1.Threshold = true
        ∧ F64.lt ((loadMobilityProfile positiveSlopeConfig).1.ComputeWeightOn true 100 0 false)
          (loadMobilityProfile positiveSlopeConfig).1.Threshold = true) :=
  ⟨⟨C17_ComputeWeight_positive_slope.2.1 false 600 0 (by decide) (by decide),
      C17_ComputeWeight_positive_slope.2.1 true 600 0 (by decide) (by decide)⟩,
    ⟨C17_ComputeWeight_positive_slope.2.2 false 100 0 (by decide) (by decide),
      C17_ComputeWeight_positive_slope.2.2 true 100 0 (by decide) (by decide)⟩⟩

/-- C18. The method `calculateYIntercept` changes only `YIntercept`: `Slope`,
`Threshold` and `HoldoffMillis` stay, the new `YIntercept` does not depend on the
old one, and a second call changes nothing more. -/
theorem C18_calculateYIntercept_frame (p : MobilityProfile) (y : F64) :
    p.calculateYIntercept.Slope = p.Slope
      ∧ p.calculateYIntercept.Threshold = p.Threshold
      ∧ p.calculateYIntercept.HoldoffMillis = p.HoldoffMillis
      ∧ MobilityProfile.calculateYIntercept { p with YIntercept := y } = p.calculateYIntercept
      ∧ p.calculateYIntercept.calculateYIntercept = p.calculateYIntercept :=
  ⟨rfl, rfl, rfl, rfl, rfl⟩

end Inventory
